import Mathlib

/-!
# serdes_turn: serialising a fixed-point angle (turn) to decimal degrees and back

A shallow embedding of `source/serdes_turn_deg.c` and the properties of its
serialisers and of its deserialiser.

Conventions of the embedding.

* `unsigned int` is a 32-bit machine integer: a `Nat` reduced modulo `2 ^ 32`
  after every operation that can wrap (`u32`, `sub32`).
* `unsigned long` of the widened division path is a 64-bit machine integer (`u64`).
* The caller's `char` buffer is a memory `Mem := Nat → Nat` of byte cells; a
  pointer is an index into it.  A store keeps the value modulo `256`.
* A C string handed to the deserialiser is the `List Char` of its characters
  before the terminating NUL; a pointer into it is the suffix that is left.
* The functions are those of a build with `NDEBUG`: `assert` is a no-op and
  `PARAM_CHECK` clamps.  The generator is also given with its assertions checked
  (`conv_turn_to_deg_digit_array_assert`).
* The `double` argument of `conv_deg_to_turn` is an exact rational number.
* A loop is a recursion on a number of passes that bounds it (fuel); the bound is
  the one the C loop has from its counter.
-/

namespace SerdesTurnDeg

/-! ## Constants of `serdes_turn_deg.h` and `serdes_turn_deg.c` -/

/-- The required buffer length. -/
def SERDES_TURN_DEG_BUF_SIZE : Nat := 10

/-- The maximum precision. -/
def SERDES_TURN_DEG_MAX_PRECISION : Int := 5

/-- The minimum precision. -/
def SERDES_TURN_DEG_MIN_PRECISION : Int := -2

/-- The maximum bit-width of the turn. -/
def SERDES_TURN_DEG_MAX_BIT_WIDTH : Nat := 22

/-- The minimum bit-width of the turn. -/
def SERDES_TURN_DEG_MIN_BIT_WIDTH : Nat := 1

/-- The highest place of digit in the serialized string. -/
def SERDES_TURN_DEG_MAX_PLACE : Int := -SERDES_TURN_DEG_MIN_PRECISION

/-- The lowest place of digit in the serialized string. -/
def SERDES_TURN_DEG_MIN_PLACE : Int := -SERDES_TURN_DEG_MAX_PRECISION

/-- The index that is equivalent to the place `k`. -/
def BUF_INDEX (k : Int) : Nat := (SERDES_TURN_DEG_MAX_PLACE - k).toNat

/-- `PARAM_CHECK` on an `int` parameter, in a build with `NDEBUG`: clamp. -/
def PARAM_CHECK_int (param minimum maximum : Int) : Int :=
  let param := if param > maximum then maximum else param
  if param < minimum then minimum else param

/-- `PARAM_CHECK` on an `unsigned int` parameter, in a build with `NDEBUG`: clamp. -/
def PARAM_CHECK_uint (param minimum maximum : Nat) : Nat :=
  let param := if param > maximum then maximum else param
  if param < minimum then minimum else param

/-! ## Machine integers and memory -/

/-- Reduction to an `unsigned int` of 32 bits. -/
def u32 (x : Nat) : Nat := x % 4294967296

/-- Subtraction of `unsigned int`, wrapping around. -/
def sub32 (a b : Nat) : Nat := (u32 a + 4294967296 - u32 b) % 4294967296

/-- Reduction to an `unsigned long` of 64 bits. -/
def u64 (x : Nat) : Nat := x % 18446744073709551616

/-- `1u << n` on `unsigned int`. -/
def shl1 (n : Nat) : Nat := u32 (1 <<< n)

/-- The byte cells of the memory the pointers of a call point into. -/
abbrev Mem := Nat → Nat

/-- Store of a `char` at the cell `p`. -/
def store (m : Mem) (p v : Nat) : Mem := fun q => if q = p then v % 256 else m q

/-- The C string that starts at the cell `p`: the characters before the first NUL,
read within `n` cells. -/
def c_str (m : Mem) : Nat → Nat → List Char
  | 0, _ => []
  | n + 1, p => if m p = 0 then [] else Char.ofNat (m p) :: c_str m n (p + 1)

/-! ## `conv_turn_to_deg_digit_array` -/

/-- The variables of the digit generation loop. -/
structure GenState where
  /-- the memory `buf` points into -/
  mem : Mem
  /-- remainder -/
  R : Nat
  /-- margin -/
  M : Nat
  /-- the place of digit -/
  k : Int
  /-- matched low side -/
  low : Bool
  /-- matched high side -/
  high : Bool

/-- One pass through the body of the `while` loop, up to the test of `k` against
`SERDES_TURN_DEG_MIN_PLACE`. -/
def gen_body (buf S : Nat) (place : Int) (s : GenState) : GenState :=
  let U := s.R / S
  let k := s.k - 1
  let R := sub32 s.R (u32 (U * S))
  let low := if k ≤ place then decide (R < s.M) else s.low
  let high := if k ≤ place then decide (u32 (R + s.M) > S) else s.high
  let U := if k ≤ place ∧ high = true ∧ (low = false ∨ R ≥ S / 2) then u32 (U + 1) else U
  { mem := store s.mem (buf + BUF_INDEX k) U
    R := u32 (R * 10)
    M := u32 (s.M * 10)
    k := k
    low := low
    high := high }

/-- The `while (!low && !high)` loop with its `break` at the lowest place; `fuel`
bounds the number of passes. -/
def gen_loop (buf S : Nat) (place : Int) : Nat → GenState → GenState
  | 0, s => s
  | fuel + 1, s =>
    if s.low = false ∧ s.high = false then
      let s1 := gen_body buf S place s
      if s1.k = SERDES_TURN_DEG_MIN_PLACE then s1 else gen_loop buf S place fuel s1
    else s

/-- Convert an angle in turn to the digit array in degree, written at `buf`.
Returns the memory and the minimum place of digit that was output.  The loop
counts `k` down from `SERDES_TURN_DEG_MAX_PLACE` and leaves at
`SERDES_TURN_DEG_MIN_PLACE`, so 8 passes are all it can make. -/
def conv_turn_to_deg_digit_array (mem : Mem) (buf turn bit_width : Nat) (place : Int) :
    Mem × Int :=
  let place := PARAM_CHECK_int place SERDES_TURN_DEG_MIN_PLACE SERDES_TURN_DEG_MAX_PLACE
  let bit_width :=
    PARAM_CHECK_uint bit_width SERDES_TURN_DEG_MIN_BIT_WIDTH SERDES_TURN_DEG_MAX_BIT_WIDTH
  let turn := u32 turn &&& sub32 (shl1 bit_width) 1
  let R := u32 (turn * 360)
  let S := u32 (shl1 bit_width * 100)
  let M := 180
  let s := gen_loop buf S place 8
    { mem := mem, R := R, M := M, k := SERDES_TURN_DEG_MAX_PLACE + 1, low := false,
      high := false }
  (s.mem, s.k)

/-! ## `carry_up_overflow` -/

/-- The `for` loop of `carry_up_overflow`, from the place `k` upwards. -/
def carry_loop (digit_array : Nat) : Nat → Mem → Int → Mem
  | 0, m, _ => m
  | fuel + 1, m, k =>
    if k < SERDES_TURN_DEG_MAX_PLACE then
      if m (digit_array + BUF_INDEX k) = 10 then
        let m1 := store m (digit_array + BUF_INDEX k) 0
        let m2 := store m1 (digit_array + BUF_INDEX (k + 1))
          (m1 (digit_array + BUF_INDEX (k + 1)) + 1)
        carry_loop digit_array fuel m2 (k + 1)
      else m
    else m

/-- Carry up an overflow from the lowest place.  The loop runs while
`k < SERDES_TURN_DEG_MAX_PLACE`, at most `SERDES_TURN_DEG_MAX_PLACE - lowest_place`
times. -/
def carry_up_overflow (mem : Mem) (digit_array : Nat) (lowest_place : Int) : Mem :=
  carry_loop digit_array (SERDES_TURN_DEG_MAX_PLACE - lowest_place).toNat mem lowest_place

/-! ## `conv_deg_digit_array_to_string` -/

/-- The variables of the formatting loops. -/
structure FmtState where
  /-- the memory `dest` and `src` point into -/
  mem : Mem
  /-- write pointer -/
  dest : Nat
  /-- read pointer -/
  src : Nat
  /-- the place of digit -/
  k : Int

/-- The first `for` loop: digits from place `k` down to `lowest_place`. -/
def fmt_loop (dest_begin : Nat) (lowest_place : Int) : Nat → FmtState → FmtState
  | 0, s => s
  | fuel + 1, s =>
    if s.k ≥ lowest_place then
      if s.k > 0 ∧ s.mem s.src = 0 ∧ s.dest = dest_begin then
        fmt_loop dest_begin lowest_place fuel { s with src := s.src + 1, k := s.k - 1 }
      else
        let s1 : FmtState :=
          if s.k = -1 then { s with mem := store s.mem s.dest ('.').toNat, dest := s.dest + 1 }
          else s
        let s2 : FmtState :=
          { s1 with
            mem := store s1.mem s1.dest (('0').toNat + s1.mem s1.src)
            dest := s1.dest + 1
            src := s1.src + 1 }
        fmt_loop dest_begin lowest_place fuel { s2 with k := s2.k - 1 }
    else s

/-- The second `for` loop: the integer part is filled with `'0'` down to place 0. -/
def fill_loop : Nat → FmtState → FmtState
  | 0, s => s
  | fuel + 1, s =>
    if s.k ≥ 0 then
      fill_loop fuel { s with mem := store s.mem s.dest ('0').toNat, dest := s.dest + 1, k := s.k - 1 }
    else s

/-- Convert a digit array in degree (at `src`) to the string (at `dest`).  Returns
the memory and the pointer to the NUL character. -/
def conv_deg_digit_array_to_string (mem : Mem) (dest src : Nat) (lowest_place : Int) :
    Mem × Nat :=
  let k := SERDES_TURN_DEG_MAX_PLACE
  let dest_begin := dest
  let lowest_place :=
    PARAM_CHECK_int lowest_place SERDES_TURN_DEG_MIN_PLACE SERDES_TURN_DEG_MAX_PLACE
  let s := fmt_loop dest_begin lowest_place (k - lowest_place + 1).toNat
    { mem := mem, dest := dest, src := src, k := k }
  let s :=
    if s.dest = dest_begin then
      { s with mem := store s.mem s.dest ('0').toNat, dest := s.dest + 1 }
    else fill_loop (s.k + 1).toNat s
  (store s.mem s.dest 0, s.dest)

/-! ## The serialisers -/

/-- Serialize an angle in turn to degree: `serialize_turn_to_deg`. -/
def serialize_turn_to_deg (mem : Mem) (buf turn bit_width : Nat) : Mem × Nat :=
  let digit_array := buf + 1
  let r := conv_turn_to_deg_digit_array mem digit_array turn bit_width SERDES_TURN_DEG_MAX_PLACE
  conv_deg_digit_array_to_string r.1 buf digit_array r.2

/-- The variation with a minimum digit number: `serialize_turn_to_deg_p`. -/
def serialize_turn_to_deg_p (mem : Mem) (buf turn bit_width : Nat) (precision : Int) :
    Mem × Nat :=
  let digit_array := buf + 1
  let r := conv_turn_to_deg_digit_array mem digit_array turn bit_width (-precision)
  let mem := carry_up_overflow r.1 digit_array r.2
  conv_deg_digit_array_to_string mem buf digit_array r.2

/-- The loop of `serialize_turn_to_deg_ps` that suppresses the lower zeros. -/
def suppress_loop (mem : Mem) (digit_array : Nat) : Nat → Int → Int
  | 0, lowest_place => lowest_place
  | fuel + 1, lowest_place =>
    if lowest_place < 0 then
      if mem (digit_array + BUF_INDEX lowest_place) = 0 then
        suppress_loop mem digit_array fuel (lowest_place + 1)
      else lowest_place
    else lowest_place

/-- The variation that suppresses the lowest zeros after the decimal point:
`serialize_turn_to_deg_ps`.  The suppressing loop runs while `lowest_place < 0`, at
most `-lowest_place` times. -/
def serialize_turn_to_deg_ps (mem : Mem) (buf turn bit_width : Nat) (precision : Int) :
    Mem × Nat :=
  let digit_array := buf + 1
  let r := conv_turn_to_deg_digit_array mem digit_array turn bit_width (-precision)
  let mem := carry_up_overflow r.1 digit_array r.2
  let lowest_place := suppress_loop mem digit_array (-r.2).toNat r.2
  conv_deg_digit_array_to_string mem buf digit_array lowest_place

/-! ## `deserialize_turn_from_deg` -/

/-- The `isspace` of the C locale. -/
def isspace (c : Char) : Bool :=
  c = ' ' || c = '\t' || c = '\n' || c = '\x0b' || c = '\x0c' || c = '\r'

/-- The `isdigit` of C. -/
def isdigit (c : Char) : Bool := decide (('0').toNat ≤ c.toNat ∧ c.toNat ≤ ('9').toNat)

/-- The first loop: skip the white space. Returns what is left of the text. -/
def skip_space : List Char → List Char
  | [] => []
  | c :: cs => if isspace c then skip_space cs else c :: cs

/-- The second loop: the integer part, while `count <= SERDES_TURN_DEG_MAX_PLACE`.
Returns `deg` and what is left of the text. -/
def parse_int : List Char → Nat → Int → Nat × List Char
  | [], deg, _ => (deg, [])
  | c :: cs, deg, count =>
    if isdigit c = true ∧ count ≤ SERDES_TURN_DEG_MAX_PLACE then
      parse_int cs (u32 (u32 (deg * 10) + (c.toNat - ('0').toNat))) (count + 1)
    else (deg, c :: cs)

/-- The third loop: the digits after the decimal point, of which the first
`-SERDES_TURN_DEG_MIN_PLACE` are used.  Returns `S`, `deg` and what is left of the
text. -/
def parse_frac : List Char → Nat → Nat → Int → Nat × Nat × List Char
  | [], S, deg, _ => (S, deg, [])
  | c :: cs, S, deg, count =>
    if isdigit c = true then
      if count < -SERDES_TURN_DEG_MIN_PLACE then
        parse_frac cs (u32 (S * 10)) (u32 (u32 (deg * 10) + (c.toNat - ('0').toNat))) (count + 1)
      else parse_frac cs S deg count
    else (S, deg, c :: cs)

/-- The parsing half of `deserialize_turn_from_deg`: returns `S` (a power of ten),
`deg` (the digits read, as an integer) and what is left of the text at `ptr`. -/
def parse_deg (serialized_deg : List Char) : Nat × Nat × List Char :=
  let ptr := skip_space serialized_deg
  let r := parse_int ptr 0 0
  let deg := r.1 % 360
  match r.2 with
  | [] => (1, deg, [])
  | c :: rest => if c = '.' then parse_frac rest 1 deg 0 else (1, deg, c :: rest)

/-- The widened division: `unsigned long R = deg; R *= 1u << bit_width; turn = R / S`. -/
def div_wide (deg S bit_width : Nat) : Nat :=
  u32 (u64 (deg * shl1 bit_width) / S)

/-- The bit-serial division of the 32-bit path: `i` counts the passes. -/
def div_serial_loop (S : Nat) : Nat → Nat → Nat → Nat
  | 0, _, turn => turn
  | i + 1, R, turn =>
    let U := R / S
    let R := sub32 R (u32 (U * S))
    div_serial_loop S i (u32 (R <<< 1)) (u32 (turn <<< 1) ||| U)

/-- The bit-serial division: `for (i = 0; i <= bit_width; i++)`. -/
def div_serial (deg S bit_width : Nat) : Nat :=
  div_serial_loop S (bit_width + 1) deg 0

/-- Deserialize from degree to an angle in turn.  `force_32bit` selects the branch
of the `#if`: the bit-serial division when it is true (`unsigned long` too narrow,
or `SERDES_TURN_DEG_DEBUG_FORCE_32BIT`), the widened division otherwise.  Returns
the turn and the offset of `*endptr` in the text. -/
def deserialize_turn_from_deg (force_32bit : Bool) (serialized_deg : List Char)
    (bit_width : Nat) : Nat × Nat :=
  let p := parse_deg serialized_deg
  let deg := p.2.1
  let S := u32 (p.1 * 180)
  let turn := if force_32bit then div_serial deg S bit_width else div_wide deg S bit_width
  let turn := if turn &&& 1 = 1 then u32 (turn / 2 + 1) else turn / 2
  let turn := turn &&& sub32 (shl1 bit_width) 1
  (turn, serialized_deg.length - p.2.2.length)

/-- The string a serialiser leaves at `buf`. -/
def out_str (r : Mem × Nat) (buf : Nat) : List Char := c_str r.1 SERDES_TURN_DEG_BUF_SIZE buf

/-! ## The resolution test of `test_serdes_turn_deg.c` -/

/-- The loop of `test_deg_is_just_integer`: every turn of 9 bits is serialised into
the same buffer, in increasing order, and `i` counts up each time the text is the
decimal text of `i` (`sprintf(buf2, "%u", i)`).  Returns the final `i`, which the
test compares with 360. -/
def test_deg_is_just_integer (mem : Mem) (buf : Nat) : Nat :=
  ((List.range (1 <<< 9)).foldl
    (fun (st : Mem × Nat) (turn : Nat) =>
      let r := serialize_turn_to_deg st.1 buf turn 9
      (r.1, if out_str r buf = Nat.toDigits 10 st.2 then st.2 + 1 else st.2))
    (mem, 0)).2

/-! ## `conv_deg_to_turn` -/

/-- The conversion `(int)x` of a `double`, the `double` being an exact rational
number: truncation toward zero. -/
def trunc (x : ℚ) : Int := Int.tdiv x.num x.den

/-- The `fmod` of C on exact rational numbers: `x - n * y`, with `n` the quotient
`x / y` truncated toward zero. -/
def fmod (x y : ℚ) : ℚ := x - (trunc (x / y) : ℚ) * y

/-- The conversion of an `int` to `unsigned int`. -/
def int_to_u32 (i : Int) : Nat := (i % 4294967296).toNat

/-- Convert degree to an angle in turn: `conv_deg_to_turn`.  The `double` argument
is an exact rational number; `(int)deg / 180` is the division of `int`, which
truncates toward zero, and its result is stored in the `unsigned int turn`. -/
def conv_deg_to_turn (deg : ℚ) (bit_width : Nat) : Nat :=
  let bit_width :=
    PARAM_CHECK_uint bit_width SERDES_TURN_DEG_MIN_BIT_WIDTH SERDES_TURN_DEG_MAX_BIT_WIDTH
  let deg := fmod deg 360
  let deg := deg * (shl1 bit_width : ℚ)
  let turn := int_to_u32 (Int.tdiv (trunc deg) 180)
  if turn &&& 1 = 1 then u32 (turn / 2 + 1) else turn / 2

/-! ## The generator in a build with assertions -/

/-- The `while` loop of the generator with its two assertions,
`assert(k >= SERDES_TURN_DEG_MIN_PLACE)` and, at that place, `assert(low || high)`.
Returns `none` when an assertion fails, or when the passes that `fuel` allows do
not end the loop; otherwise the state at the end of the loop and the number of
passes made, counted from `n`. -/
def gen_loop_assert (buf S : Nat) (place : Int) : Nat → GenState → Nat → Option (GenState × Nat)
  | 0, s, n => if s.low = false ∧ s.high = false then none else some (s, n)
  | fuel + 1, s, n =>
    if s.low = false ∧ s.high = false then
      let s1 := gen_body buf S place s
      if s1.k ≥ SERDES_TURN_DEG_MIN_PLACE then
        if s1.k = SERDES_TURN_DEG_MIN_PLACE then
          if s1.low = true ∨ s1.high = true then some (s1, n + 1) else none
        else gen_loop_assert buf S place fuel s1 (n + 1)
      else none
    else some (s, n)

/-- The generator `conv_turn_to_deg_digit_array` in a build without `NDEBUG`: the
assertions of `PARAM_CHECK` and of the loop are checked, and the loop is given 8
passes.  Returns the state at the end of the loop and the number of passes. -/
def conv_turn_to_deg_digit_array_assert (mem : Mem) (buf turn bit_width : Nat) (place : Int) :
    Option (GenState × Nat) :=
  if (SERDES_TURN_DEG_MIN_PLACE ≤ place ∧ place ≤ SERDES_TURN_DEG_MAX_PLACE) ∧
      (SERDES_TURN_DEG_MIN_BIT_WIDTH ≤ bit_width ∧ bit_width ≤ SERDES_TURN_DEG_MAX_BIT_WIDTH) then
    let turn := u32 turn &&& sub32 (shl1 bit_width) 1
    let R := u32 (turn * 360)
    let S := u32 (shl1 bit_width * 100)
    let M := 180
    gen_loop_assert buf S place 8
      { mem := mem, R := R, M := M, k := SERDES_TURN_DEG_MAX_PLACE + 1, low := false,
        high := false } 0
  else none

/-! ## Vocabulary of the specification -/

/-- The decimal value `D`, counted in units of `100 / P` degrees, lies within half
a step of the turn `T` out of `B`: `360 T / B - 180 / B ≤ 100 D / P < 360 T / B + 180 / B`,
cleared of denominators. -/
def near (B T P D : Nat) : Prop :=
  360 * T * P ≤ 100 * B * D + 180 * P ∧ 100 * B * D < 360 * T * P + 180 * P

/-- Neither side is matched at the pass `j` of the generator (place `2 - j`). -/
def unresolved_at (B T j : Nat) : Prop :=
  180 * 10 ^ j ≤ 360 * T * 10 ^ j % (100 * B) ∧
    360 * T * 10 ^ j % (100 * B) + 180 * 10 ^ j ≤ 100 * B

/-- The cells `da, ..., da + n - 1` hold the `n` decimal digits of `D`, highest first. -/
def holds_digits (m : Mem) (da n D : Nat) : Prop :=
  ∀ i, i < n → m (da + i) = D / 10 ^ (n - 1 - i) % 10

/-- The state of the generator before its pass `j` (the pass of place `2 - j`), the
digits written so far being those of `D`. -/
structure GenInv (mem0 : Mem) (da B T : Nat) (place : Int) (j D : Nat) (s : GenState) :
    Prop where
  hk : s.k = 3 - (j : Int)
  hM : s.M = 180 * 10 ^ j
  hlow : s.low = false
  hhigh : s.high = false
  hR : 360 * T * 10 ^ j = 100 * B * (10 * D) + s.R
  hRlt : s.R < 100 * B * 10
  hR0 : j = 0 → s.R < 100 * B * 4
  hdig : holds_digits s.mem da j D
  hframe : ∀ q, q < da ∨ da + j ≤ q → s.mem q = mem0 q
  hprev : 1 ≤ j → 3 - (j : Int) ≤ place → s.R + s.M ≤ 100 * B * 10
  hmin : ∀ j', j' < j → 2 - (j' : Int) ≤ place → unresolved_at B T j'

/-- The state of the generator when it leaves the loop after the pass `j`: the
digits above the last are those of `D`, the last cell holds `u`. -/
structure GenPost (mem0 : Mem) (da B T : Nat) (place : Int) (j D u : Nat) (s : GenState) :
    Prop where
  hj : j ≤ 7
  hk : s.k = 2 - (j : Int)
  hplace : 2 - (j : Int) ≤ place
  hdig : holds_digits s.mem da j D
  hlast : s.mem (da + j) = u
  hu : u ≤ 10
  hu9 : u = 10 → 2 - (j : Int) = place ∧ 1 ≤ j
  hframe : ∀ q, q < da ∨ da + j < q → s.mem q = mem0 q
  hnear : near B T (10 ^ j) (10 * D + u)
  hres : s.low = true ∨ s.high = true
  hmin : ∀ j', j' < j → 2 - (j' : Int) ≤ place → unresolved_at B T j'

/-- The integer part of three digit cells without its leading zeros, as bytes. -/
def fmt_int3 (a b c : Nat) : List Nat :=
  if a ≠ 0 then [('0').toNat + a, ('0').toNat + b, ('0').toNat + c]
  else if b ≠ 0 then [('0').toNat + b, ('0').toNat + c] else [('0').toNat + c]

/-- The bytes of the text of a digit array given from place 2 downwards: the places
down to 0 (filled with zeros where the array ends above place 0) without leading
zeros, then a point and the digits of the negative places, if there are any. -/
def render_bytes (ds : List Nat) : List Nat :=
  (fmt_int3 (ds.getD 0 0) (ds.getD 1 0) (ds.getD 2 0) ++
    (if ds.length ≤ 3 then [] else ('.').toNat :: (ds.drop 3).map fun d => ('0').toNat + d)).map
    fun b => b % 256

/-- The cells `da, ..., da + n - 1` of the memory. -/
def cells (m : Mem) (da n : Nat) : List Nat := (List.range n).map fun i => m (da + i)

/-- The number a list of decimal digits denotes, highest digit first. -/
def dval (ds : List Nat) : Nat := ds.foldl (fun a d => 10 * a + d) 0

/-- The result `r` of a serialiser called on the memory `mem0` with the buffer at
`buf` is the text of the digit array `ds`: the C string at `buf` is the rendering
of `ds`, the returned pointer is its end, where a NUL stands, and no cell outside
the buffer has changed. -/
structure Rendered (r : Mem × Nat) (mem0 : Mem) (buf : Nat) (ds : List Nat) : Prop where
  hstr : out_str r buf = (render_bytes ds).map Char.ofNat
  hend : r.2 = buf + (render_bytes ds).length
  hnul : r.1 r.2 = 0
  hframe : ∀ q, q < buf ∨ buf + SERDES_TURN_DEG_BUF_SIZE ≤ q → r.1 q = mem0 q

/-- What a serialiser returns for the turn `T` of `bw` bits: the text of a digit
array `ds` of one to eight decimal digits that denotes a number within half a step
of `T`, which the deserialiser reads back as `T`, to its end. -/
structure SerOut (r : Mem × Nat) (mem0 : Mem) (buf bw T : Nat) (ds : List Nat) : Prop where
  rendered : Rendered r mem0 buf ds
  hlen1 : 1 ≤ ds.length
  hlen8 : ds.length ≤ 8
  h9 : ∀ d ∈ ds, d ≤ 9
  hnear : near (2 ^ bw) T (10 ^ (ds.length - 1)) (dval ds)
  hdes : ∀ force_32bit, deserialize_turn_from_deg force_32bit
    ((render_bytes ds).map Char.ofNat) bw = (T, (render_bytes ds).length)

/-- The characters of a text before its first point: the integer part. -/
def int_part (s : List Char) : List Char := s.takeWhile fun c => c != '.'

/-- The shape of a serialised text: an integer part of one to three digits without
a leading zero, unless it is "0", and then nothing, or a point and one to five
digits. -/
def well_shaped (s : List Char) : Prop :=
  ∃ ip fp, s = ip ++ fp ∧ 1 ≤ ip.length ∧ ip.length ≤ 3 ∧ (∀ c ∈ ip, isdigit c = true) ∧
    (ip.head? = some '0' → ip = ['0']) ∧
    (fp = [] ∨ ∃ fd, fp = '.' :: fd ∧ 1 ≤ fd.length ∧ fd.length ≤ 5 ∧ ∀ c ∈ fd, isdigit c = true)

/-- What `r`, returned by a serialiser called with the buffer at `buf`, has to
satisfy for the text to fit the buffer: at most 9 characters, the returned pointer
at their end, on a NUL inside the buffer, and no cell outside the buffer changed. -/
def fits_buffer (r : Mem × Nat) (mem0 : Mem) (buf : Nat) : Prop :=
  (out_str r buf).length ≤ 9 ∧ r.2 = buf + (out_str r buf).length ∧ r.1 r.2 = 0 ∧
    r.2 < buf + SERDES_TURN_DEG_BUF_SIZE ∧
    ∀ q, q < buf ∨ buf + SERDES_TURN_DEG_BUF_SIZE ≤ q → r.1 q = mem0 q

/-- Two states of the generator with the same variables, whose digit arrays (at `b1`
and at `b2`) agree in their first `n` cells. -/
structure GenAgree (b1 b2 n : Nat) (s1 s2 : GenState) : Prop where
  hR : s1.R = s2.R
  hM : s1.M = s2.M
  hk : s1.k = s2.k
  hlow : s1.low = s2.low
  hhigh : s1.high = s2.high
  hn : s1.k = 3 - (n : Int)
  hmem : ∀ i, i < n → s1.mem (b1 + i) = s2.mem (b2 + i)

/-- The number a run of digit characters denotes, highest digit first. -/
def chars_val (cs : List Char) : Nat :=
  cs.foldl (fun a c => 10 * a + (c.toNat - ('0').toNat)) 0

/-- The number `w` of white space characters a text starts with. -/
def lead_space (text : List Char) : Nat := (text.takeWhile isspace).length

/-- The whole run of decimal digits that follows the leading white space. -/
def int_run (text : List Char) : List Char := (text.dropWhile isspace).takeWhile isdigit

/-- The position `i = w + min d 3`, `d` being the length of the digit run after the
leading white space: where the integer part that is read ends. -/
def int_end (text : List Char) : Nat := lead_space text + min (int_run text).length 3

/-- The whole run of decimal digits after the point at `int_end`; empty when no
point stands there. -/
def frac_run (text : List Char) : List Char :=
  match text.drop (int_end text) with
  | [] => []
  | c :: r => if c = '.' then r.takeWhile isdigit else []

/-- The cursor as the specification states it: `int_end` when the character there
is not a point, and behind the point and the whole digit run after it otherwise. -/
def cursor_spec (text : List Char) : Nat :=
  match text.drop (int_end text) with
  | [] => int_end text
  | c :: r => if c = '.' then int_end text + 1 + (r.takeWhile isdigit).length else int_end text

/-- The power of ten `S` of the specification: ten to the number of fractional
digits used, which are the first five at most. -/
def spec_S (text : List Char) : Nat := 10 ^ ((frac_run text).take 5).length

/-- The integer `N` of the specification: the integer part of at most three digits
reduced modulo 360, followed by the fractional digits used. -/
def spec_N (text : List Char) : Nat :=
  chars_val ((int_run text).take 3) % 360 * spec_S text + chars_val ((frac_run text).take 5)

/-- The texts of the grammar `\s*[0-9]{0,n}(\.[0-9]*)?`: white space, at most `n`
digits and then nothing, or a point and digits. -/
def matches_grammar (n : Nat) (s : List Char) : Prop :=
  ∃ ws ds tail, s = ws ++ ds ++ tail ∧ (∀ c ∈ ws, isspace c = true) ∧
    (∀ c ∈ ds, isdigit c = true) ∧ ds.length ≤ n ∧
    (tail = [] ∨ ∃ fd, tail = '.' :: fd ∧ ∀ c ∈ fd, isdigit c = true)

/-- The quotient `a / b` rounded half up to an integer: `floor (a / b + 1 / 2)`. -/
def round_half_up (a b : Nat) : Nat := (2 * a + b) / (2 * b)

/-- What one pass of the bit-serial division computes, each product, difference and
shift taken on the values the variables really hold and written down without
wrap-around: `R` on entry, `U = R / S`, `U * S`, the doubled remainder and the
doubled `turn`. -/
structure DivPass where
  R : Nat
  U : Nat
  US : Nat
  R2 : Nat
  T2 : Nat

/-- The passes of `div_serial_loop`, in order; the variables go from pass to pass as
in the loop itself, with the wrap-around of `unsigned int`. -/
def div_serial_trace (S : Nat) : Nat → Nat → Nat → List DivPass
  | 0, _, _ => []
  | i + 1, R, turn =>
    let U := R / S
    let R1 := sub32 R (u32 (U * S))
    ⟨R, U, U * S, R1 * 2, turn * 2⟩ ::
      div_serial_trace S i (u32 (R1 <<< 1)) (u32 (turn <<< 1) ||| U)

/-- No operation of the pass leaves the range of `unsigned int`, the subtraction
does not go below zero, and `U` is a bit. -/
def DivPass.fits (p : DivPass) : Prop :=
  p.U ≤ 1 ∧ p.US ≤ p.R ∧ p.US < 4294967296 ∧ p.R2 < 4294967296 ∧ p.T2 + p.U < 4294967296

/-- The number a decimal text denotes: the digits before the point as an integer
plus the digits after the point as a decimal fraction. -/
def decimal_value (s : List Char) : ℚ :=
  (chars_val (int_part s) : ℚ) +
    (chars_val (s.drop ((int_part s).length + 1)) : ℚ) /
      (10 : ℚ) ^ (s.drop ((int_part s).length + 1)).length

/-- The number of degrees a text denotes: the `decimal_value` of the text after its
leading white space. -/
def text_value (text : List Char) : ℚ := decimal_value (text.dropWhile isspace)

/-- The decimal digits of `n`, `p + 1` of them, highest first. -/
def digits_to (n p : Nat) : List Nat := (List.range (p + 1)).map fun i => n / 10 ^ (p - i) % 10

/-- The decimal text of `n * 10 ^ (2 - p)` degrees, a multiple of `10 ^ (2 - p)`
below 1000, written down to the place `2 - p` and no further: "90" for `n = 9` and
`p = 1`, "112.5" for `n = 1125` and `p = 3`. -/
def decimal_text (n p : Nat) : List Char := (render_bytes (digits_to n p)).map Char.ofNat

/-- The assertion at the end of `carry_up_overflow` in a build without `NDEBUG`:
below 360, so not "36" at the places 2 and 1. -/
def carry_up_overflow_assertion (m : Mem) (digit_array : Nat) (lowest_place : Int) : Prop :=
  lowest_place < 2 → ¬ (m (digit_array + 0) = 3 ∧ m (digit_array + 1) = 6)

/-- One pass of the generator computed with unbounded integers: `gen_body` without
the wrap-around of `unsigned int`. -/
def gen_body_ideal (buf S : Nat) (place : Int) (s : GenState) : GenState :=
  let U := s.R / S
  let k := s.k - 1
  let R := s.R - U * S
  let low := if k ≤ place then decide (R < s.M) else s.low
  let high := if k ≤ place then decide (R + s.M > S) else s.high
  let U := if k ≤ place ∧ high = true ∧ (low = false ∨ R ≥ S / 2) then U + 1 else U
  { mem := store s.mem (buf + BUF_INDEX k) U
    R := R * 10
    M := s.M * 10
    k := k
    low := low
    high := high }

/-- The loop of the generator computed with unbounded integers. -/
def gen_loop_ideal (buf S : Nat) (place : Int) : Nat → GenState → GenState
  | 0, s => s
  | fuel + 1, s =>
    if s.low = false ∧ s.high = false then
      let s1 := gen_body_ideal buf S place s
      if s1.k = SERDES_TURN_DEG_MIN_PLACE then s1 else gen_loop_ideal buf S place fuel s1
    else s

/-- The generator computed with unbounded integers: `conv_turn_to_deg_digit_array`
without the wrap-around of `unsigned int`. -/
def conv_turn_to_deg_digit_array_ideal (mem : Mem) (buf turn bit_width : Nat) (place : Int) :
    Mem × Int :=
  let place := PARAM_CHECK_int place SERDES_TURN_DEG_MIN_PLACE SERDES_TURN_DEG_MAX_PLACE
  let bit_width :=
    PARAM_CHECK_uint bit_width SERDES_TURN_DEG_MIN_BIT_WIDTH SERDES_TURN_DEG_MAX_BIT_WIDTH
  let turn := turn &&& ((1 <<< bit_width) - 1)
  let R := turn * 360
  let S := (1 <<< bit_width) * 100
  let M := 180
  let s := gen_loop_ideal buf S place 8
    { mem := mem, R := R, M := M, k := SERDES_TURN_DEG_MAX_PLACE + 1, low := false,
      high := false }
  (s.mem, s.k)

/-- What one pass of the generator computes, each product, sum and difference taken
on the values the variables really hold and written down without wrap-around: `R` on
entry, `U * S`, `R + M` and `R * 10` for the `R` after the subtraction, `M * 10`, and
whether a further pass follows. -/
structure GenPass where
  R : Nat
  US : Nat
  RM : Nat
  R10 : Nat
  M10 : Nat
  more : Bool

/-- The passes of `gen_loop`, in order; the variables go from pass to pass as in the
loop itself, with the wrap-around of `unsigned int`. -/
def gen_trace (buf S : Nat) (place : Int) : Nat → GenState → List GenPass
  | 0, _ => []
  | fuel + 1, s =>
    if s.low = false ∧ s.high = false then
      let s1 := gen_body buf S place s
      let U := s.R / S
      let R := sub32 s.R (u32 (U * S))
      let more := decide (s1.k ≠ SERDES_TURN_DEG_MIN_PLACE ∧ s1.low = false ∧ s1.high = false)
      ⟨s.R, U * S, R + s.M, R * 10, s.M * 10, more⟩ ::
        (if s1.k = SERDES_TURN_DEG_MIN_PLACE then [] else gen_trace buf S place fuel s1)
    else []

/-- The passes of `conv_turn_to_deg_digit_array`. -/
def conv_turn_trace (mem : Mem) (buf turn bit_width : Nat) (place : Int) : List GenPass :=
  let place := PARAM_CHECK_int place SERDES_TURN_DEG_MIN_PLACE SERDES_TURN_DEG_MAX_PLACE
  let bit_width :=
    PARAM_CHECK_uint bit_width SERDES_TURN_DEG_MIN_BIT_WIDTH SERDES_TURN_DEG_MAX_BIT_WIDTH
  let turn := u32 turn &&& sub32 (shl1 bit_width) 1
  let R := u32 (turn * 360)
  let S := u32 (shl1 bit_width * 100)
  gen_trace buf S place 8
    { mem := mem, R := R, M := 180, k := SERDES_TURN_DEG_MAX_PLACE + 1, low := false,
      high := false }

/-- Nothing in the pass leaves the range of `unsigned int`: the subtraction does not
go below zero, `U * S`, `R + M` and `R * 10` are below `2 ^ 32`, and so is `M * 10`
when a further pass follows. -/
def GenPass.fits (p : GenPass) : Prop :=
  p.US ≤ p.R ∧ p.US < 4294967296 ∧ p.RM < 4294967296 ∧ p.R10 < 4294967296 ∧
    (p.more = true → p.M10 < 4294967296)

/-- The stores of the first loop of `conv_deg_digit_array_to_string`, in order: for
each store the index written and the index of the next digit that has not been read
when the store is made (the digit of a `*dest++ = '0' + *src++` is read before the
store). -/
def fmt_writes (dest_begin : Nat) (lowest_place : Int) : Nat → FmtState → List (Nat × Nat)
  | 0, _ => []
  | fuel + 1, s =>
    if s.k ≥ lowest_place then
      if s.k > 0 ∧ s.mem s.src = 0 ∧ s.dest = dest_begin then
        fmt_writes dest_begin lowest_place fuel { s with src := s.src + 1, k := s.k - 1 }
      else
        let s1 : FmtState :=
          if s.k = -1 then { s with mem := store s.mem s.dest ('.').toNat, dest := s.dest + 1 }
          else s
        let s2 : FmtState :=
          { s1 with
            mem := store s1.mem s1.dest (('0').toNat + s1.mem s1.src)
            dest := s1.dest + 1
            src := s1.src + 1 }
        (if s.k = -1 then [(s.dest, s.src)] else []) ++ (s1.dest, s1.src + 1) ::
          fmt_writes dest_begin lowest_place fuel { s2 with k := s2.k - 1 }
    else []

/-- The stores that `conv_deg_digit_array_to_string` makes while digits are left to
read. -/
def conv_deg_digit_array_to_string_writes (mem : Mem) (dest src : Nat) (lowest_place : Int) :
    List (Nat × Nat) :=
  let k := SERDES_TURN_DEG_MAX_PLACE
  let lowest_place :=
    PARAM_CHECK_int lowest_place SERDES_TURN_DEG_MIN_PLACE SERDES_TURN_DEG_MAX_PLACE
  fmt_writes dest lowest_place (k - lowest_place + 1).toNat
    { mem := mem, dest := dest, src := src, k := k }

/-- The value of a digit array of `j + 1` cells, from the place 2 down to the place
`2 - j`: the sum of `digit * 10 ^ place`. -/
def array_value (m : Mem) (src j : Nat) : ℚ :=
  ((List.range (j + 1)).map fun i => (m (src + i) : ℚ) * (10 : ℚ) ^ ((2 : Int) - (i : Int))).sum

/-! ## Machine arithmetic without wrap-around -/

theorem u32_of_lt {x : Nat} (h : x < 4294967296) : u32 x = x := Nat.mod_eq_of_lt h

theorem u32_lt (x : Nat) : u32 x < 4294967296 := Nat.mod_lt _ (by norm_num)

theorem sub32_of_le {a b : Nat} (ha : a < 4294967296) (hb : b ≤ a) : sub32 a b = a - b := by
  unfold sub32 u32
  rw [Nat.mod_eq_of_lt ha, Nat.mod_eq_of_lt (lt_of_le_of_lt hb ha)]
  omega

theorem two_pow_le_22 {n : Nat} (h : n ≤ 22) : 2 ^ n ≤ 4194304 := by
  calc 2 ^ n ≤ 2 ^ 22 := Nat.pow_le_pow_right (by norm_num) h
    _ = 4194304 := by norm_num

theorem shl1_eq {n : Nat} (h : n ≤ 22) : shl1 n = 2 ^ n := by
  unfold shl1
  rw [Nat.one_shiftLeft]
  exact u32_of_lt (by have := two_pow_le_22 h; omega)

theorem mask_eq {n : Nat} (h : n ≤ 22) (x : Nat) : x &&& sub32 (shl1 n) 1 = x % 2 ^ n := by
  have h1 := two_pow_le_22 h
  have h2 : 0 < 2 ^ n := Nat.pos_pow_of_pos _ (by norm_num)
  rw [shl1_eq h, sub32_of_le (by omega) (by omega), Nat.and_pow_two_sub_one_eq_mod]

theorem PARAM_CHECK_int_id {p lo hi : Int} (h1 : lo ≤ p) (h2 : p ≤ hi) :
    PARAM_CHECK_int p lo hi = p := by
  unfold PARAM_CHECK_int
  simp only []
  split_ifs <;> omega

theorem PARAM_CHECK_uint_id {p lo hi : Nat} (h1 : lo ≤ p) (h2 : p ≤ hi) :
    PARAM_CHECK_uint p lo hi = p := by
  unfold PARAM_CHECK_uint
  simp only []
  split_ifs <;> omega

theorem PARAM_CHECK_int_range (p : Int) {lo hi : Int} (h : lo ≤ hi) :
    lo ≤ PARAM_CHECK_int p lo hi ∧ PARAM_CHECK_int p lo hi ≤ hi := by
  unfold PARAM_CHECK_int
  simp only []
  split_ifs <;> omega

theorem PARAM_CHECK_uint_range (p : Nat) {lo hi : Nat} (h : lo ≤ hi) :
    lo ≤ PARAM_CHECK_uint p lo hi ∧ PARAM_CHECK_uint p lo hi ≤ hi := by
  unfold PARAM_CHECK_uint
  simp only []
  split_ifs <;> omega

@[simp] theorem store_same (m : Mem) (p v : Nat) : store m p v p = v % 256 := by
  simp [store]

theorem store_other (m : Mem) {p q : Nat} (v : Nat) (h : q ≠ p) : store m p v q = m q := by
  simp [store, h]

/-! ## The rounding of the deserialiser -/

/-- The final rounding `if (turn & 1) turn = turn / 2 + 1; else turn = turn / 2`
of a quotient `X / K` lands on `T` when `X / (2 K)` is within a half of `T`. -/
theorem round_half_eq {X K T : Nat} (hK : 0 < K) (h1 : 2 * K * T ≤ X + K)
    (h2 : X < 2 * K * T + K) (hT : T < 4194304) :
    (if (X / K) &&& 1 = 1 then u32 (X / K / 2 + 1) else X / K / 2) = T := by
  have hq1 : X / K < 2 * T + 1 := by
    rw [Nat.div_lt_iff_lt_mul hK]
    nlinarith
  have hq2 : 2 * T ≤ X / K + 1 := by
    have : (X + K) / K = X / K + 1 := Nat.add_div_right X hK
    rw [← this, Nat.le_div_iff_mul_le hK]
    nlinarith
  rw [Nat.and_one_is_mod]
  split_ifs with h
  · rw [u32_of_lt (by omega)]
    omega
  · omega

/-! ## The digit generator -/

theorem BUF_INDEX_eq (j : Nat) : BUF_INDEX (2 - (j : Int)) = j := by
  unfold BUF_INDEX SERDES_TURN_DEG_MAX_PLACE SERDES_TURN_DEG_MIN_PRECISION
  omega

/-- The fields of the state after one pass, when nothing wraps around. -/
theorem gen_body_eq (buf S : Nat) (place : Int) (s : GenState) (hS : 0 < S)
    (hR : s.R < S * 10) (hS32 : S * 10 < 4294967296) (hM : s.M ≤ 1800000000) :
    gen_body buf S place s =
      { mem := store s.mem (buf + BUF_INDEX (s.k - 1))
          (if s.k - 1 ≤ place ∧ S < s.R % S + s.M ∧ (¬ s.R % S < s.M ∨ S / 2 ≤ s.R % S)
            then s.R / S + 1 else s.R / S)
        R := s.R % S * 10
        M := u32 (s.M * 10)
        k := s.k - 1
        low := if s.k - 1 ≤ place then decide (s.R % S < s.M) else s.low
        high := if s.k - 1 ≤ place then decide (S < s.R % S + s.M) else s.high } := by
  have hU : s.R / S < 10 := (Nat.div_lt_iff_lt_mul hS).2 (by omega)
  have hmod : s.R % S < S := Nat.mod_lt _ hS
  have hdm : S * (s.R / S) + s.R % S = s.R := Nat.div_add_mod _ _
  have hUS : s.R / S * S ≤ s.R := Nat.div_mul_le_self _ _
  have e1 : u32 (s.R / S * S) = s.R / S * S := u32_of_lt (by omega)
  have e2 : sub32 s.R (s.R / S * S) = s.R % S := by
    rw [sub32_of_le (by omega) hUS]
    have : S * (s.R / S) = s.R / S * S := Nat.mul_comm _ _
    omega
  have e3 : u32 (s.R % S + s.M) = s.R % S + s.M := u32_of_lt (by omega)
  have e4 : u32 (s.R / S + 1) = s.R / S + 1 := u32_of_lt (by omega)
  have e5 : u32 (s.R % S * 10) = s.R % S * 10 := u32_of_lt (by omega)
  unfold gen_body
  simp only [e1, e2, e3, e4, e5]
  congr 2
  by_cases hc : s.k - 1 ≤ place
  · by_cases h1 : S < s.R % S + s.M <;> by_cases h2 : s.R % S < s.M <;> simp [hc, h1, h2]
  · simp [hc]

theorem holds_digits_store {m : Mem} {da j D : Nat} (h : holds_digits m da j D) (v : Nat) :
    holds_digits (store m (da + j) v) da j D := by
  intro i hi
  rw [store_other _ _ (by omega)]
  exact h i hi

theorem holds_digits_push {m : Mem} {da j D U : Nat} (h : holds_digits m da j D)
    (hU : U ≤ 9) (hm : m (da + j) = U) : holds_digits m da (j + 1) (10 * D + U) := by
  intro i hi
  by_cases hij : i = j
  · subst hij
    simp only [Nat.add_sub_cancel, Nat.sub_self, pow_zero, Nat.div_one]
    omega
  · have hlt : i < j := by omega
    have e : j + 1 - 1 - i = (j - 1 - i) + 1 := by omega
    rw [h i hlt, e, pow_succ, Nat.mul_comm (10 ^ (j - 1 - i)) 10, ← Nat.div_div_eq_div_mul]
    congr 2
    omega

/-- The invariant of the next pass, from the digit `U` and the remainder `r` of this one. -/
theorem gen_inv_next {mem0 : Mem} {da B T : Nat} {place : Int} {j D U r : Nat} {s : GenState}
    (hj : j < 7)
    (inv : GenInv mem0 da B T place j D s) (hU : U ≤ 9) (hr : r < 100 * B)
    (hdm : 100 * B * U + r = s.R)
    (hprev : 2 - (j : Int) ≤ place → r + s.M ≤ 100 * B)
    (hmin : 2 - (j : Int) ≤ place → unresolved_at B T j) :
    GenInv mem0 da B T place (j + 1) (10 * D + U)
      { mem := store s.mem (da + j) U, R := r * 10, M := u32 (s.M * 10), k := 2 - (j : Int),
        low := false, high := false } := by
  obtain ⟨hk, hM, hlow, hhigh, hR, hRlt, hR0, hdig, hframe, _, hmin0⟩ := inv
  have hP6 : 10 ^ j ≤ 10 ^ 6 := Nat.pow_le_pow_right (by norm_num) (by omega)
  have hM' : u32 (s.M * 10) = 180 * 10 ^ (j + 1) := by
    rw [hM, u32_of_lt (by omega), pow_succ]
    ring
  refine ⟨?_, hM', rfl, rfl, ?_, ?_, ?_, ?_, ?_, ?_, ?_⟩
  · push_cast
    omega
  · simp only []
    rw [pow_succ]
    nlinarith
  · simp only []
    omega
  · intro h
    omega
  · exact holds_digits_push (holds_digits_store hdig U) hU
      (by simp only [store_same]; omega)
  · intro q hq
    simp only []
    rw [store_other _ _ (by omega)]
    exact hframe q (by omega)
  · intro _ h
    simp only []
    rw [hM']
    have := hprev (by push_cast at h; omega)
    rw [hM] at this
    rw [pow_succ]
    omega
  · intro j' hj' hp
    by_cases e : j' = j
    · subst e
      exact hmin hp
    · exact hmin0 j' (by omega) hp

/-- One pass of the generator from a state that satisfies the invariant: either
the loop goes on with the invariant of the next pass, or it is left with a digit
array that is within half a step of the turn. -/
theorem gen_step {mem0 : Mem} {da B T : Nat} {place : Int} {j D : Nat} {s : GenState}
    (hB : 0 < B) (hB22 : B ≤ 4194304) (hplace : -5 ≤ place) (hj : j ≤ 7)
    (inv : GenInv mem0 da B T place j D s) :
    (gen_body da (100 * B) place s).k = 2 - (j : Int) ∧
    (((gen_body da (100 * B) place s).low = false ∧
        (gen_body da (100 * B) place s).high = false ∧ j < 7 ∧
        GenInv mem0 da B T place (j + 1) (10 * D + s.R / (100 * B))
          (gen_body da (100 * B) place s)) ∨
      (((gen_body da (100 * B) place s).low = true ∨
          (gen_body da (100 * B) place s).high = true) ∧
        ∃ u, GenPost mem0 da B T place j D u (gen_body da (100 * B) place s))) := by
  have inv0 := inv
  obtain ⟨hk, hM, hlow, hhigh, hR, hRlt, hR0, hdig, hframe, hprev, hmin⟩ := inv
  have hP7 : 10 ^ j ≤ 10 ^ 7 := Nat.pow_le_pow_right (by norm_num) hj
  have hPpos : 0 < 10 ^ j := Nat.pos_pow_of_pos _ (by norm_num)
  have hS : 0 < 100 * B := by omega
  have hbody := gen_body_eq da (100 * B) place s hS (by omega) (by omega) (by rw [hM]; omega)
  have hk1 : s.k - 1 = 2 - (j : Int) := by omega
  have hdm : 100 * B * (s.R / (100 * B)) + s.R % (100 * B) = s.R := Nat.div_add_mod _ _
  have hr : s.R % (100 * B) < 100 * B := Nat.mod_lt _ hS
  have hU : s.R / (100 * B) ≤ 9 := by
    have : s.R / (100 * B) < 10 := (Nat.div_lt_iff_lt_mul hS).2 (by omega)
    omega
  have hrj : 360 * T * 10 ^ j % (100 * B) = s.R % (100 * B) := by
    rw [hR, Nat.mul_add_mod]
  rw [hk1, BUF_INDEX_eq] at hbody
  rw [hbody]
  refine ⟨rfl, ?_⟩
  simp only []
  generalize s.R / (100 * B) = U at *
  generalize s.R % (100 * B) = r at *
  by_cases hc : 2 - (j : Int) ≤ place
  · -- the pass is checked against the margins
    simp only [hc, if_true, true_and, decide_eq_false_iff_not, decide_eq_true_eq]
    by_cases hres : r < s.M ∨ 100 * B < r + s.M
    · right
      refine ⟨hres, ?_⟩
      refine ⟨_, ⟨hj, rfl, hc, holds_digits_store hdig _, rfl, ?_, ?_, ?_, ?_, ?_, hmin⟩⟩
      · simp only [store_same]
        split_ifs <;> omega
      · simp only [store_same]
        intro h10
        have hU9 : U = 9 ∧ 100 * B < r + s.M := by
          split_ifs at h10 with h <;> omega
        obtain ⟨rfl, hhi⟩ := hU9
        have hj1 : 1 ≤ j := by
          by_contra hj0
          have := hR0 (by omega)
          omega
        have : ¬ (3 - (j : Int) ≤ place) := fun h => by
          have := hprev hj1 h
          omega
        omega
      · intro q hq
        simp only []
        rw [store_other _ _ (by omega)]
        exact hframe q (by omega)
      · simp only [store_same]
        unfold near
        rw [hM] at hres
        split_ifs with h
        · rw [hM] at h
          have e : (U + 1) % 256 = U + 1 := by omega
          rw [e]
          constructor <;> nlinarith
        · rw [hM] at h
          have e : U % 256 = U := by omega
          rw [e]
          have hlo : r < 180 * 10 ^ j := by
            rcases hres with h1 | h1
            · exact h1
            · by_contra h2
              exact h ⟨h1, Or.inl h2⟩
          constructor <;> nlinarith
      · simpa using hres
    · left
      have h1 : ¬ r < s.M := fun h => hres (Or.inl h)
      have h2 : ¬ 100 * B < r + s.M := fun h => hres (Or.inr h)
      have hj7 : j < 7 := by
        by_contra h7
        have : j = 7 := by omega
        subst this
        rw [hM] at h1
        omega
      simp only [h1, h2, false_and, if_false, decide_False, not_false_eq_true]
      refine ⟨trivial, trivial, hj7, ?_⟩
      refine gen_inv_next hj7 inv0 hU hr hdm (fun _ => by omega) (fun _ => ?_)
      unfold unresolved_at
      rw [hrj, ← hM]
      omega
  · -- no check at this place yet
    left
    simp only [hc, if_false, false_and]
    have hj7 : j < 7 := by omega
    refine ⟨hlow, hhigh, hj7, ?_⟩
    rw [hlow, hhigh]
    exact gen_inv_next hj7 inv0 hU hr hdm (fun h => absurd h hc) (fun h => absurd h hc)

theorem gen_loop_stop (buf S : Nat) (place : Int) (fuel : Nat) (s : GenState)
    (h : s.low = true ∨ s.high = true) : gen_loop buf S place fuel s = s := by
  cases fuel with
  | zero => rfl
  | succ n =>
    unfold gen_loop
    rw [if_neg]
    intro hh
    rcases h with h | h
    · rw [hh.1] at h
      exact Bool.noConfusion h
    · rw [hh.2] at h
      exact Bool.noConfusion h

/-- The loop of the generator, started before the pass `j` with fuel for the
passes that are left, ends in a state that satisfies the postcondition. -/
theorem gen_loop_spec {mem0 : Mem} {da B T : Nat} {place : Int}
    (hB : 0 < B) (hB22 : B ≤ 4194304) (hplace : -5 ≤ place) :
    ∀ (fuel j D : Nat) (s : GenState), j ≤ 7 → 8 ≤ j + fuel →
      GenInv mem0 da B T place j D s →
      ∃ j' D' u, GenPost mem0 da B T place j' D' u (gen_loop da (100 * B) place fuel s) := by
  intro fuel
  induction fuel with
  | zero =>
    intro j D s hj hf _
    omega
  | succ n ih =>
    intro j D s hj hf inv
    obtain ⟨hk, hstep⟩ := gen_step hB hB22 hplace hj inv
    unfold gen_loop
    rw [if_pos ⟨inv.hlow, inv.hhigh⟩]
    simp only []
    by_cases hmin : (gen_body da (100 * B) place s).k = SERDES_TURN_DEG_MIN_PLACE
    · rw [if_pos hmin]
      rcases hstep with ⟨_, _, hj7, _⟩ | ⟨_, u, post⟩
      · rw [hk] at hmin
        unfold SERDES_TURN_DEG_MIN_PLACE SERDES_TURN_DEG_MAX_PRECISION at hmin
        omega
      · exact ⟨j, D, u, post⟩
    · rw [if_neg hmin]
      rcases hstep with ⟨_, _, hj7, inv'⟩ | ⟨hres, u, post⟩
      · exact ih (j + 1) _ _ (by omega) (by omega) inv'
      · rw [gen_loop_stop _ _ _ _ _ hres]
        exact ⟨j, D, u, post⟩

theorem two_pow_pos (n : Nat) : 0 < 2 ^ n := Nat.pos_pow_of_pos _ (by norm_num)

/-- The contract of `conv_turn_to_deg_digit_array`: with the clamped bit width `bw`
and place, the digit array written at `da` and the returned place satisfy the
postcondition of the generator for the masked turn. -/
theorem conv_turn_spec (mem : Mem) (da turn bit_width : Nat) (place : Int) :
    ∃ (s : GenState) (j D u : Nat),
      conv_turn_to_deg_digit_array mem da turn bit_width place = (s.mem, s.k) ∧
      GenPost mem da (2 ^ PARAM_CHECK_uint bit_width 1 22)
        (turn % 2 ^ PARAM_CHECK_uint bit_width 1 22) (PARAM_CHECK_int place (-5) 2) j D u s := by
  obtain ⟨hb1, hb22⟩ := PARAM_CHECK_uint_range bit_width (show 1 ≤ 22 by norm_num)
  obtain ⟨hp1, _⟩ := PARAM_CHECK_int_range place (show (-5 : Int) ≤ 2 by norm_num)
  have hB := two_pow_pos (PARAM_CHECK_uint bit_width 1 22)
  have hB22 := two_pow_le_22 hb22
  have hT : turn % 2 ^ PARAM_CHECK_uint bit_width 1 22 < 2 ^ PARAM_CHECK_uint bit_width 1 22 :=
    Nat.mod_lt _ hB
  have hmask : u32 turn &&& sub32 (shl1 (PARAM_CHECK_uint bit_width 1 22)) 1 =
      turn % 2 ^ PARAM_CHECK_uint bit_width 1 22 := by
    rw [mask_eq hb22]
    unfold u32
    exact Nat.mod_mod_of_dvd _ (by
      have : (4294967296 : Nat) = 2 ^ 32 := by norm_num
      rw [this]
      exact Nat.pow_dvd_pow 2 (by omega))
  unfold conv_turn_to_deg_digit_array
  simp only [SERDES_TURN_DEG_MIN_PLACE, SERDES_TURN_DEG_MAX_PLACE, SERDES_TURN_DEG_MAX_PRECISION,
    SERDES_TURN_DEG_MIN_PRECISION, SERDES_TURN_DEG_MIN_BIT_WIDTH, SERDES_TURN_DEG_MAX_BIT_WIDTH,
    neg_neg]
  rw [hmask, shl1_eq hb22]
  generalize PARAM_CHECK_uint bit_width 1 22 = bw at *
  generalize PARAM_CHECK_int place (-5) 2 = pl at *
  generalize turn % 2 ^ bw = T at *
  generalize 2 ^ bw = B at *
  have e1 : u32 (T * 360) = T * 360 := u32_of_lt (by omega)
  have e2 : u32 (B * 100) = 100 * B := by rw [u32_of_lt (by omega), Nat.mul_comm]
  rw [e1, e2]
  have inv : GenInv mem da B T pl 0 0
      { mem := mem, R := T * 360, M := 180, k := 2 + 1, low := false, high := false } := by
    refine ⟨by simp, by simp, rfl, rfl, ?_, ?_, ?_, ?_, ?_, ?_, ?_⟩
    · simp only [pow_zero]
      omega
    · simp only []
      omega
    · intro _
      simp only []
      omega
    · intro i hi
      omega
    · intro q _
      rfl
    · intro h
      omega
    · intro j' hj'
      omega
  obtain ⟨j, D, u, post⟩ := gen_loop_spec hB hB22 hp1 8 0 0 _ (by omega) (by omega) inv
  exact ⟨_, j, D, u, rfl, post⟩

/-! ## The carry pass -/

/-- The carry loop started at the last of `j + 1` cells, which may hold a 10, leaves
the decimal digits of the value the cells denote. -/
theorem carry_loop_spec (da : Nat) :
    ∀ (j : Nat) (k : Int) (m : Mem) (D u : Nat), k = 2 - (j : Int) →
      holds_digits m da j D → m (da + j) = u → u ≤ 10 → 10 * D + u < 10 ^ (j + 1) →
      holds_digits (carry_loop da j m k) da (j + 1) (10 * D + u) ∧
      ∀ q, q < da ∨ da + j < q → carry_loop da j m k q = m q := by
  intro j
  induction j with
  | zero =>
    intro k m D u _ hdig hlast hu hlt
    refine ⟨?_, fun q _ => rfl⟩
    exact holds_digits_push hdig (by omega) hlast
  | succ j ih =>
    intro k m D u hk hdig hlast hu hlt
    have hk2 : k < SERDES_TURN_DEG_MAX_PLACE := by
      unfold SERDES_TURN_DEG_MAX_PLACE SERDES_TURN_DEG_MIN_PRECISION
      push_cast at hk
      omega
    have hi1 : BUF_INDEX k = j + 1 := by rw [hk, BUF_INDEX_eq]
    have hk1 : k + 1 = 2 - (j : Int) := by
      push_cast at hk
      omega
    have hi2 : BUF_INDEX (k + 1) = j := by rw [hk1, BUF_INDEX_eq]
    unfold carry_loop
    rw [if_pos hk2, hi1, hi2, hlast]
    by_cases h10 : u = 10
    · rw [if_pos h10]
      simp only []
      subst h10
      have hDj : m (da + j) = D % 10 := by
        have := hdig j (by omega)
        simpa using this
      have e1 : store m (da + (j + 1)) 0 (da + j) = m (da + j) := store_other _ _ (by omega)
      rw [e1, hDj]
      have hdig' : holds_digits
          (store (store m (da + (j + 1)) 0) (da + j) (D % 10 + 1)) da j (D / 10) := by
        intro i hi
        rw [store_other _ _ (by omega), store_other _ _ (by omega), hdig i (by omega)]
        have e : j + 1 - 1 - i = (j - 1 - i) + 1 := by omega
        rw [e, pow_succ, Nat.mul_comm (10 ^ (j - 1 - i)) 10, ← Nat.div_div_eq_div_mul]
      have hlt' : 10 * (D / 10) + (D % 10 + 1) < 10 ^ (j + 1) := by
        rw [pow_succ] at hlt
        omega
      obtain ⟨hd, hf⟩ := ih (k + 1) _ (D / 10) (D % 10 + 1) hk1 hdig'
        (by rw [store_same]; omega) (by omega) hlt'
      constructor
      · have e : 10 * D + 10 = 10 * (10 * (D / 10) + (D % 10 + 1)) + 0 := by omega
        rw [e]
        refine holds_digits_push hd (by omega) ?_
        rw [hf _ (by omega), store_other _ _ (by omega), store_same]
      · intro q hq
        rw [hf q (by omega), store_other _ _ (by omega), store_other _ _ (by omega)]
    · rw [if_neg h10]
      exact ⟨holds_digits_push hdig (by omega) hlast, fun q _ => rfl⟩

/-- The contract of `carry_up_overflow` on the output of the generator. -/
theorem carry_up_spec (da j : Nat) (m : Mem) (D u : Nat)
    (hdig : holds_digits m da j D) (hlast : m (da + j) = u) (hu : u ≤ 10)
    (hlt : 10 * D + u < 10 ^ (j + 1)) :
    holds_digits (carry_up_overflow m da (2 - (j : Int))) da (j + 1) (10 * D + u) ∧
    ∀ q, q < da ∨ da + j < q → carry_up_overflow m da (2 - (j : Int)) q = m q := by
  unfold carry_up_overflow
  have e : (SERDES_TURN_DEG_MAX_PLACE - (2 - (j : Int))).toNat = j := BUF_INDEX_eq j
  rw [e]
  exact carry_loop_spec da j _ m D u rfl hdig hlast hu hlt

/-! ## The formatter -/

theorem store_apply (m : Mem) (p v q : Nat) : store m p v q = if q = p then v % 256 else m q := rfl

set_option maxRecDepth 8000 in
set_option maxHeartbeats 1600000 in
/-- The contract of `conv_deg_digit_array_to_string` as the serialisers call it, the
digit array at `buf + 1` and the text at `buf`: the bytes written are the rendering
of the digit array as it was before the call, the returned pointer is their end and
points to a NUL, and no cell outside the 10 cells of the buffer changes. -/
theorem fmt_bytes (m : Mem) (buf j : Nat) (hj : j ≤ 7) :
    cells (conv_deg_digit_array_to_string m buf (buf + 1) (2 - (j : Int))).1 buf
        (render_bytes (cells m (buf + 1) (j + 1))).length =
        render_bytes (cells m (buf + 1) (j + 1)) ∧
      (conv_deg_digit_array_to_string m buf (buf + 1) (2 - (j : Int))).2 =
        buf + (render_bytes (cells m (buf + 1) (j + 1))).length ∧
      (conv_deg_digit_array_to_string m buf (buf + 1) (2 - (j : Int))).1
        (conv_deg_digit_array_to_string m buf (buf + 1) (2 - (j : Int))).2 = 0 ∧
      ∀ q, q < buf ∨ buf + SERDES_TURN_DEG_BUF_SIZE ≤ q →
        (conv_deg_digit_array_to_string m buf (buf + 1) (2 - (j : Int))).1 q = m q := by
  generalize hr : conv_deg_digit_array_to_string m buf (buf + 1) (2 - (j : Int)) = r
  interval_cases j <;> by_cases hz0 : m (buf + 1) = 0 <;> by_cases hz1 : m (buf + 2) = 0 <;>
    simp [conv_deg_digit_array_to_string, PARAM_CHECK_int, SERDES_TURN_DEG_MIN_PLACE,
        SERDES_TURN_DEG_MAX_PLACE, SERDES_TURN_DEG_MAX_PRECISION, SERDES_TURN_DEG_MIN_PRECISION,
        fmt_loop, fill_loop, store_apply, Nat.add_assoc, hz0, hz1] at hr <;>
    subst hr <;>
    simp [store_apply, Nat.add_assoc, SERDES_TURN_DEG_BUF_SIZE,
        render_bytes, cells, List.range_succ, fmt_int3, hz0, hz1] <;>
    intro q hq <;>
    repeat rw [if_neg (by omega)]

/-! ## Texts and digits -/

theorem cells_succ (m : Mem) (p n : Nat) : cells m p (n + 1) = m p :: cells m (p + 1) n := by
  unfold cells
  rw [List.range_succ_eq_map, List.map_cons, List.map_map]
  simp only [Nat.add_zero, List.cons.injEq, true_and]
  apply List.map_congr_left
  intro i _
  simp only [Function.comp, Nat.succ_eq_add_one]
  congr 1
  omega

/-- The C string at `p` is the run of nonzero cells that a NUL ends. -/
theorem c_str_eq (m : Mem) :
    ∀ (bs : List Nat) (N p : Nat), bs.length < N → cells m p bs.length = bs →
      (∀ b ∈ bs, b ≠ 0) → m (p + bs.length) = 0 → c_str m N p = bs.map Char.ofNat := by
  intro bs
  induction bs with
  | nil =>
    intro N p hN _ _ h0
    cases N with
    | zero => rfl
    | succ N =>
      unfold c_str
      rw [if_pos (by simpa using h0)]
      rfl
  | cons b bs ih =>
    intro N p hN hc hnz h0
    cases N with
    | zero => simp at hN
    | succ N =>
      rw [List.length_cons, cells_succ] at hc
      obtain ⟨hb, hrest⟩ := List.cons.inj hc
      unfold c_str
      rw [hb, if_neg (hnz b (List.mem_cons_self _ _)), List.map_cons]
      congr 1
      apply ih N (p + 1) (by simpa using hN) hrest (fun x hx => hnz x (List.mem_cons_of_mem _ hx))
      rw [← h0, List.length_cons]
      congr 1
      omega

theorem digit_char (x : Nat) :
    isdigit (Char.ofNat ((48 + x % 10) % 256)) = true ∧
    isspace (Char.ofNat ((48 + x % 10) % 256)) = false ∧
    (Char.ofNat ((48 + x % 10) % 256)).toNat = 48 + x % 10 ∧
    Char.ofNat ((48 + x % 10) % 256) ≠ '.' := by
  have h : x % 10 < 10 := Nat.mod_lt _ (by norm_num)
  generalize x % 10 = d at h
  interval_cases d <;> decide

@[simp] theorem isdigit_digit (x : Nat) : isdigit (Char.ofNat ((48 + x % 10) % 256)) = true :=
  (digit_char x).1

@[simp] theorem isspace_digit (x : Nat) : isspace (Char.ofNat ((48 + x % 10) % 256)) = false :=
  (digit_char x).2.1

@[simp] theorem toNat_digit (x : Nat) :
    (Char.ofNat ((48 + x % 10) % 256)).toNat = 48 + x % 10 :=
  (digit_char x).2.2.1

@[simp] theorem digit_ne_dot (x : Nat) : (Char.ofNat ((48 + x % 10) % 256) = '.') = False :=
  eq_false (digit_char x).2.2.2

theorem char46 : Char.ofNat 46 = '.' := rfl

@[simp] theorem isdigit_zero : isdigit (Char.ofNat 48) = true := by decide

@[simp] theorem isspace_zero : isspace (Char.ofNat 48) = false := by decide

@[simp] theorem toNat_zero : (Char.ofNat 48).toNat = 48 := by decide

@[simp] theorem zero_ne_dot : (Char.ofNat 48 = '.') = False := by decide

@[simp] theorem isdigit_dot : isdigit '.' = false := by decide

theorem digit_var (m : Mem) (da j i : Nat) (h9 : ∀ i, i ≤ j → m (da + i) ≤ 9) :
    ∃ d, i ≤ j → m (da + i) = d % 10 := by
  by_cases h : i ≤ j
  · exact ⟨m (da + i), fun _ => (Nat.mod_eq_of_lt (by have := h9 i h; omega)).symm⟩
  · exact ⟨0, fun h' => absurd h' h⟩

set_option maxRecDepth 8000 in
set_option maxHeartbeats 1600000 in
/-- The parser reads the rendering of a digit array of `j + 1` digits that denotes
less than 360 degrees back as the number it denotes, to the end of the text. -/
theorem parse_render (m : Mem) (da j : Nat) (hj : j ≤ 7)
    (h9 : ∀ i, i ≤ j → m (da + i) ≤ 9) (hD : 100 * dval (cells m da (j + 1)) < 360 * 10 ^ j) :
    parse_deg ((render_bytes (cells m da (j + 1))).map Char.ofNat) =
      (10 ^ (j - 2), dval (cells m da (j + 1)) * 10 ^ (2 - j), []) := by
  obtain ⟨d0, h0⟩ := digit_var m da j 0 h9
  obtain ⟨d1, h1⟩ := digit_var m da j 1 h9
  obtain ⟨d2, h2⟩ := digit_var m da j 2 h9
  obtain ⟨d3, h3⟩ := digit_var m da j 3 h9
  obtain ⟨d4, h4⟩ := digit_var m da j 4 h9
  obtain ⟨d5, h5⟩ := digit_var m da j 5 h9
  obtain ⟨d6, h6⟩ := digit_var m da j 6 h9
  obtain ⟨d7, h7⟩ := digit_var m da j 7 h9
  simp only [Nat.add_zero, Nat.zero_le, true_implies] at h0
  clear h9
  by_cases hz0 : d0 % 10 = 0 <;>
    by_cases hz1 : d1 % 10 = 0 <;>
    interval_cases j <;>
    simp [cells, List.range_succ, dval, h0, h1, h2, h3, h4, h5, h6, h7, hz0, hz1] at hD <;>
    simp [cells, List.range_succ, render_bytes, fmt_int3, dval, h0, h1, h2, h3, h4, h5, h6, h7,
      hz0, hz1, parse_deg, skip_space, parse_int, parse_frac, char46, SERDES_TURN_DEG_MAX_PLACE,
      SERDES_TURN_DEG_MIN_PLACE, SERDES_TURN_DEG_MAX_PRECISION, SERDES_TURN_DEG_MIN_PRECISION] <;>
    simp (disch := omega) only [u32_of_lt, true_and, Nat.zero_add] <;>
    omega

/-! ## The division of the deserialiser -/

/-- The bit-serial division computes the bits of the quotient, highest first. -/
theorem div_serial_loop_eq {S : Nat} (hS : 0 < S) (hS32 : 2 * S < 4294967296) :
    ∀ (n R t : Nat), R < 2 * S → (t + 1) * 2 ^ n ≤ 4294967296 →
      div_serial_loop S n R t = t * 2 ^ n + R * 2 ^ n / (2 * S) := by
  intro n
  induction n with
  | zero =>
    intro R t hR _
    unfold div_serial_loop
    rw [pow_zero, Nat.mul_one, Nat.mul_one, Nat.div_eq_of_lt hR]
    rfl
  | succ n ih =>
    intro R t hR ht
    have hU : R / S ≤ 1 := by
      have : R / S < 2 := (Nat.div_lt_iff_lt_mul hS).2 hR
      omega
    have hmod : R % S < S := Nat.mod_lt _ hS
    have hdm : S * (R / S) + R % S = R := Nat.div_add_mod _ _
    have hUS : R / S * S ≤ R := Nat.div_mul_le_self _ _
    have e1 : u32 (R / S * S) = R / S * S := u32_of_lt (by omega)
    have e2 : sub32 R (R / S * S) = R % S := by
      rw [sub32_of_le (by omega) hUS]
      have : S * (R / S) = R / S * S := Nat.mul_comm _ _
      omega
    have hpow : 1 ≤ 2 ^ n := Nat.one_le_two_pow
    have ht2 : (t + 1) * 2 ≤ 4294967296 := by
      rw [pow_succ] at ht
      nlinarith
    have e3 : u32 ((R % S) <<< 1) = 2 * (R % S) := by
      rw [Nat.shiftLeft_eq, pow_one, u32_of_lt (by omega), Nat.mul_comm]
    have e4 : u32 (t <<< 1) ||| R / S = 2 * t + R / S := by
      rw [Nat.shiftLeft_eq, pow_one, u32_of_lt (by omega), Nat.mul_comm t 2]
      have := Nat.mul_add_lt_is_or (show R / S < 2 ^ 1 by omega) t
      rw [pow_one] at this
      exact this.symm
    unfold div_serial_loop
    simp only [e1, e2, e3, e4]
    rw [ih _ _ (by omega) (by
      rw [pow_succ] at ht
      nlinarith)]
    have key : R * 2 ^ (n + 1) / (2 * S) = R / S * 2 ^ n + 2 * (R % S) * 2 ^ n / (2 * S) := by
      have h2S : 0 < 2 * S := by omega
      have : R * 2 ^ (n + 1) = 2 * (R % S) * 2 ^ n + (2 * S) * (R / S * 2 ^ n) := by
        rw [pow_succ]
        nlinarith
      rw [this, Nat.add_mul_div_left _ _ h2S, Nat.add_comm]
    rw [key, pow_succ]
    ring

/-- Both branches of the `#if` compute `deg * 2 ^ bit_width / S`. -/
theorem div_paths {deg S bw : Nat} (hS : 0 < S) (hS32 : S ≤ 18000000) (hdeg : deg < 2 * S)
    (hbw : bw ≤ 22) (force_32bit : Bool) :
    (if force_32bit then div_serial deg S bw else div_wide deg S bw) = deg * 2 ^ bw / S := by
  have hB := two_pow_le_22 hbw
  have hBpos := two_pow_pos bw
  have hq : deg * 2 ^ bw / S < 2 * 2 ^ bw := by
    rw [Nat.div_lt_iff_lt_mul hS]
    nlinarith
  cases force_32bit with
  | true =>
    simp only [if_true]
    unfold div_serial
    rw [div_serial_loop_eq hS (by omega) _ _ _ hdeg (by
      rw [pow_succ]
      omega)]
    rw [Nat.zero_mul, Nat.zero_add, pow_succ, ← Nat.mul_assoc, Nat.mul_comm 2 S,
      Nat.mul_div_mul_right _ _ (by norm_num)]
  | false =>
    simp only [Bool.false_eq_true, if_false]
    unfold div_wide
    rw [shl1_eq hbw]
    have h64 : u64 (deg * 2 ^ bw) = deg * 2 ^ bw := by
      unfold u64
      apply Nat.mod_eq_of_lt
      nlinarith
    rw [h64, u32_of_lt (by omega)]

/-- The deserialiser on a text that the parser reads to its end as the number
`deg / S10` of degrees, when that number is within half a step of the turn `T`. -/
theorem deserialize_of_near (force_32bit : Bool) (text : List Char) {bw T S10 deg : Nat}
    (hparse : parse_deg text = (S10, deg, [])) (hS10 : 0 < S10) (hS10' : S10 ≤ 100000)
    (hbw : bw ≤ 22) (hT : T < 2 ^ bw)
    (h1 : 360 * S10 * T ≤ deg * 2 ^ bw + 180 * S10)
    (h2 : deg * 2 ^ bw < 360 * S10 * T + 180 * S10) :
    deserialize_turn_from_deg force_32bit text bw = (T, text.length) := by
  have hB := two_pow_le_22 hbw
  have hBpos := two_pow_pos bw
  have hdeg : deg < 2 * (S10 * 180) := by
    by_contra hcon
    have : 360 * S10 * 2 ^ bw ≤ deg * 2 ^ bw := by nlinarith
    have : 360 * S10 * (T + 1) ≤ 360 * S10 * 2 ^ bw := Nat.mul_le_mul_left _ (by omega)
    nlinarith
  unfold deserialize_turn_from_deg
  simp only [hparse, List.length_nil, Nat.sub_zero]
  rw [u32_of_lt (by omega), div_paths (by omega) (by omega) hdeg hbw, mask_eq hbw]
  have hr := round_half_eq (X := deg * 2 ^ bw) (K := S10 * 180) (T := T) (by omega)
    (by nlinarith) (by nlinarith) (by omega)
  rw [hr, Nat.mod_eq_of_lt hT]

/-! ## From the digit array to the text and back -/

theorem near_lt {B T P D : Nat} (h : near B T P D) (hT : T < B) : 100 * D < 360 * P := by
  obtain ⟨_, h2⟩ := h
  have h3 : 360 * (T + 1) * P ≤ 360 * B * P :=
    Nat.mul_le_mul_right _ (Nat.mul_le_mul_left _ hT)
  have h4 : B * (100 * D) < B * (360 * P) := by nlinarith
  exact Nat.lt_of_mul_lt_mul_left h4

theorem near_scale {B T P D c : Nat} (hc : 0 < c) (h : near B T (P * c) (D * c)) :
    near B T P D := by
  obtain ⟨h1, h2⟩ := h
  constructor
  · apply Nat.le_of_mul_le_mul_right _ hc
    nlinarith
  · apply Nat.lt_of_mul_lt_mul_right (a := c)
    nlinarith

theorem cells_snoc (m : Mem) (p n : Nat) : cells m p (n + 1) = cells m p n ++ [m (p + n)] := by
  unfold cells
  rw [List.range_succ, List.map_append]
  rfl

theorem cells_length (m : Mem) (p n : Nat) : (cells m p n).length = n := by
  unfold cells
  simp

theorem dval_snoc (xs : List Nat) (d : Nat) : dval (xs ++ [d]) = 10 * dval xs + d := by
  unfold dval
  rw [List.foldl_append]
  rfl

theorem holds_digits_pop {m : Mem} {da n D : Nat} (h : holds_digits m da (n + 1) D) :
    holds_digits m da n (D / 10) ∧ m (da + n) = D % 10 := by
  constructor
  · intro i hi
    rw [h i (by omega)]
    have e : n + 1 - 1 - i = (n - 1 - i) + 1 := by omega
    rw [e, pow_succ, Nat.mul_comm (10 ^ (n - 1 - i)) 10, ← Nat.div_div_eq_div_mul]
  · have := h n (by omega)
    simpa using this

/-- Cells that hold the digits of `D` are digits and denote `D`. -/
theorem dval_cells (m : Mem) (da : Nat) :
    ∀ (n D : Nat), holds_digits m da n D → D < 10 ^ n →
      dval (cells m da n) = D ∧ ∀ i, i < n → m (da + i) ≤ 9 := by
  intro n
  induction n with
  | zero =>
    intro D _ hD
    refine ⟨?_, fun i hi => by omega⟩
    simp only [pow_zero] at hD
    have : D = 0 := by omega
    subst this
    rfl
  | succ n ih =>
    intro D h hD
    obtain ⟨h1, h2⟩ := holds_digits_pop h
    obtain ⟨e, hle⟩ := ih (D / 10) h1 (by rw [pow_succ] at hD; omega)
    constructor
    · rw [cells_snoc, dval_snoc, e, h2]
      omega
    · intro i hi
      by_cases hin : i = n
      · subst hin
        rw [h2]
        omega
      · exact hle i (by omega)

theorem getD_le9 (ds : List Nat) (h9 : ∀ d ∈ ds, d ≤ 9) (i : Nat) : ds.getD i 0 ≤ 9 := by
  rw [List.getD_eq_getElem?_getD]
  cases hq : ds[i]? with
  | none => simp
  | some d =>
    simp only [Option.getD_some]
    exact h9 d (List.getElem?_mem hq)

theorem fmt_int3_length (a b c : Nat) :
    1 ≤ (fmt_int3 a b c).length ∧ (fmt_int3 a b c).length ≤ 3 := by
  unfold fmt_int3
  split_ifs <;> simp

theorem render_bytes_length (ds : List Nat) (hlen : ds.length ≤ 8) :
    1 ≤ (render_bytes ds).length ∧ (render_bytes ds).length ≤ 9 := by
  unfold render_bytes
  have := fmt_int3_length (ds.getD 0 0) (ds.getD 1 0) (ds.getD 2 0)
  rw [List.length_map, List.length_append]
  split_ifs
  · simp only [List.length_nil]
    omega
  · simp only [List.length_cons, List.length_map, List.length_drop]
    omega

theorem render_bytes_ne_zero (ds : List Nat) (h9 : ∀ d ∈ ds, d ≤ 9) :
    ∀ b ∈ render_bytes ds, b ≠ 0 := by
  have g0 := getD_le9 ds h9 0
  have g1 := getD_le9 ds h9 1
  have g2 := getD_le9 ds h9 2
  intro b hb
  unfold render_bytes at hb
  generalize ds.getD 0 0 = a0 at *
  generalize ds.getD 1 0 = a1 at *
  generalize ds.getD 2 0 = a2 at *
  rw [List.mem_map] at hb
  obtain ⟨x, hx, rfl⟩ := hb
  rw [List.mem_append] at hx
  have hx48 : 46 ≤ x ∧ x ≤ 57 := by
    rcases hx with hx | hx
    · unfold fmt_int3 at hx
      split_ifs at hx <;> simp at hx <;> omega
    · split_ifs at hx
      · simp at hx
      · simp only [List.mem_cons, List.mem_map] at hx
        rcases hx with hx | ⟨d, hd, rfl⟩
        · subst hx
          decide
        · have := h9 d (List.mem_of_mem_drop hd)
          simp
          omega
  omega

/-- The formatter, called as the serialisers call it on a digit array of `j + 1`
decimal digits, renders it. -/
theorem fmt_rendered (m : Mem) (buf j : Nat) (hj : j ≤ 7)
    (h9 : ∀ i, i < j + 1 → m (buf + 1 + i) ≤ 9) :
    Rendered (conv_deg_digit_array_to_string m buf (buf + 1) (2 - (j : Int))) m buf
      (cells m (buf + 1) (j + 1)) := by
  obtain ⟨hc, hend, hnul, hframe⟩ := fmt_bytes m buf j hj
  have hd9 : ∀ d ∈ cells m (buf + 1) (j + 1), d ≤ 9 := by
    intro d hd
    unfold cells at hd
    rw [List.mem_map] at hd
    obtain ⟨i, hi, rfl⟩ := hd
    exact h9 i (List.mem_range.1 hi)
  have hlen := render_bytes_length (cells m (buf + 1) (j + 1)) (by rw [cells_length]; omega)
  refine ⟨?_, hend, hnul, hframe⟩
  unfold out_str
  apply c_str_eq _ _ _ _ (by unfold SERDES_TURN_DEG_BUF_SIZE; omega) hc
    (render_bytes_ne_zero _ hd9)
  rw [← hend]
  exact hnul

/-- The core of the round trip: a digit array that holds the `j + 1` digits of a
number within half a step of the turn `T` is rendered to a text that the
deserialiser reads back, to its end, as `T`. -/
theorem roundtrip_core (force_32bit : Bool) (m : Mem) (buf j D bw T : Nat) (hj : j ≤ 7)
    (hbw : bw ≤ 22) (hT : T < 2 ^ bw) (hdig : holds_digits m (buf + 1) (j + 1) D)
    (hnear : near (2 ^ bw) T (10 ^ j) D) :
    Rendered (conv_deg_digit_array_to_string m buf (buf + 1) (2 - (j : Int))) m buf
        (cells m (buf + 1) (j + 1)) ∧
      (∀ d ∈ cells m (buf + 1) (j + 1), d ≤ 9) ∧
      dval (cells m (buf + 1) (j + 1)) = D ∧
      deserialize_turn_from_deg force_32bit
          ((render_bytes (cells m (buf + 1) (j + 1))).map Char.ofNat) bw =
        (T, (render_bytes (cells m (buf + 1) (j + 1))).length) := by
  have hlt := near_lt hnear hT
  have hD : D < 10 ^ (j + 1) := by
    rw [pow_succ]
    omega
  obtain ⟨hval, h9⟩ := dval_cells m (buf + 1) (j + 1) D hdig hD
  have hparse := parse_render m (buf + 1) j hj (fun i hi => h9 i (by omega))
    (by rw [hval]; exact hlt)
  rw [hval] at hparse
  have hd9 : ∀ d ∈ cells m (buf + 1) (j + 1), d ≤ 9 := by
    intro d hd
    unfold cells at hd
    rw [List.mem_map] at hd
    obtain ⟨i, hi, rfl⟩ := hd
    exact h9 i (List.mem_range.1 hi)
  refine ⟨fmt_rendered m buf j hj h9, hd9, hval, ?_⟩
  have hS10 : 10 ^ (j - 2) ≤ 10 ^ 5 := Nat.pow_le_pow_right (by norm_num) (by omega)
  have hpos : 0 < 10 ^ (j - 2) := Nat.pos_pow_of_pos _ (by norm_num)
  have hdes := deserialize_of_near force_32bit _ hparse hpos (by omega) hbw hT
  rw [List.length_map] at hdes
  apply hdes
  · obtain ⟨h1, _⟩ := hnear
    interval_cases j <;> simp at h1 ⊢ <;> nlinarith
  · obtain ⟨_, h2⟩ := hnear
    interval_cases j <;> simp at h2 ⊢ <;> nlinarith

/-! ## The contracts of the serialisers -/

/-- The formatter on a digit array that the generator and the carry pass left in a
memory `m`, seen from the memory `mem0` of the call. -/
theorem ser_out_of_digits (mem0 m : Mem) (buf j D bw T : Nat) (hj : j ≤ 7)
    (hbw : bw ≤ 22) (hT : T < 2 ^ bw) (hdig : holds_digits m (buf + 1) (j + 1) D)
    (hnear : near (2 ^ bw) T (10 ^ j) D)
    (hframe : ∀ q, q < buf ∨ buf + SERDES_TURN_DEG_BUF_SIZE ≤ q → m q = mem0 q) :
    SerOut (conv_deg_digit_array_to_string m buf (buf + 1) (2 - (j : Int))) mem0 buf bw T
      (cells m (buf + 1) (j + 1)) := by
  have hlen := cells_length m (buf + 1) (j + 1)
  obtain ⟨⟨hstr, hend, hnul, hfr⟩, h9, hval, _⟩ :=
    roundtrip_core false m buf j D bw T hj hbw hT hdig hnear
  refine ⟨⟨hstr, hend, hnul, fun q hq => ?_⟩, by omega, by omega, h9, ?_, fun f => ?_⟩
  · rw [hfr q hq, hframe q hq]
  · rw [hlen, hval]
    exact hnear
  · exact (roundtrip_core f m buf j D bw T hj hbw hT hdig hnear).2.2.2

theorem cells_append (m : Mem) (p a b : Nat) :
    cells m p (a + b) = cells m p a ++ cells m (p + a) b := by
  induction b with
  | zero => simp [cells]
  | succ b ih =>
    rw [← Nat.add_assoc, cells_snoc, ih, cells_snoc, List.append_assoc, Nat.add_assoc]

/-- The loop that suppresses the lower zeros stops at a place `2 - j'` that is at
most 0 when it started below 0, and has only stepped over cells that hold 0. -/
theorem suppress_spec (m : Mem) (da : Nat) :
    ∀ (fuel j D : Nat), holds_digits m da (j + 1) D → fuel = j - 2 →
      ∃ j', j' ≤ j ∧ suppress_loop m da fuel (2 - (j : Int)) = 2 - (j' : Int) ∧
        (j ≤ 2 → j' = j) ∧ (2 ≤ j → 2 ≤ j') ∧
        (∀ i, j' < i → i ≤ j → m (da + i) = 0) ∧
        holds_digits m da (j' + 1) (D / 10 ^ (j - j')) ∧
        D = D / 10 ^ (j - j') * 10 ^ (j - j') := by
  intro fuel
  induction fuel with
  | zero =>
    intro j D h hf
    refine ⟨j, le_refl _, rfl, fun _ => rfl, fun h => h, fun i h1 h2 => by omega, ?_, ?_⟩
    · simpa using h
    · simp
  | succ n ih =>
    intro j D h hf
    have hneg : (2 - (j : Int)) < 0 := by omega
    unfold suppress_loop
    rw [if_pos hneg, BUF_INDEX_eq]
    obtain ⟨hpop, hlast⟩ := holds_digits_pop h
    by_cases hz : m (da + j) = 0
    · rw [if_pos hz]
      obtain ⟨i, rfl⟩ : ∃ i, j = i + 1 := ⟨j - 1, by omega⟩
      have e : (2 - ((i + 1 : Nat) : Int)) + 1 = 2 - (i : Int) := by
        push_cast
        omega
      rw [e]
      obtain ⟨j', hle, hs, _, h2, hzero, hd, hD⟩ := ih i (D / 10) hpop (by omega)
      have hD0 : D % 10 = 0 := by rw [← hlast]; exact hz
      have epow : i + 1 - j' = (i - j') + 1 := by omega
      have ediv : D / 10 ^ (i + 1 - j') = D / 10 / 10 ^ (i - j') := by
        rw [epow, pow_succ, Nat.mul_comm, Nat.div_div_eq_div_mul]
      refine ⟨j', by omega, hs, fun h => by omega, fun _ => h2 (by omega), ?_, ?_, ?_⟩
      · intro k hk1 hk2
        by_cases hk : k = i + 1
        · subst hk
          exact hz
        · exact hzero k hk1 (by omega)
      · rw [ediv]
        exact hd
      · rw [ediv, epow, pow_succ, ← Nat.mul_assoc, ← hD]
        omega
    · rw [if_neg hz]
      refine ⟨j, le_refl _, rfl, fun _ => rfl, fun h => h, fun i h1 h2 => by omega, ?_, ?_⟩
      · simpa using h
      · simp

theorem frame_of_post {mem0 : Mem} {buf B T : Nat} {place : Int} {j D u : Nat} {s : GenState}
    (post : GenPost mem0 (buf + 1) B T place j D u s) :
    ∀ q, q < buf ∨ buf + SERDES_TURN_DEG_BUF_SIZE ≤ q → s.mem q = mem0 q := by
  intro q hq
  have := post.hj
  unfold SERDES_TURN_DEG_BUF_SIZE at hq
  exact post.hframe q (by omega)

theorem near_digits_lt {B T j D : Nat} (h : near B T (10 ^ j) D) (hT : T < B) :
    D < 10 ^ (j + 1) := by
  have := near_lt h hT
  rw [pow_succ]
  omega

/-- The contract of `serialize_turn_to_deg`. -/
theorem serialize_out (mem : Mem) (buf turn bw : Nat) (h1 : 1 ≤ bw) (h22 : bw ≤ 22) :
    ∃ ds, SerOut (serialize_turn_to_deg mem buf turn bw) mem buf bw (turn % 2 ^ bw) ds ∧
      (∀ j', j' + 1 < ds.length → unresolved_at (2 ^ bw) (turn % 2 ^ bw) j') ∧
      (ds.length : Int) =
        3 - (conv_turn_to_deg_digit_array mem (buf + 1) turn bw SERDES_TURN_DEG_MAX_PLACE).2 ∧
      ds = cells (conv_turn_to_deg_digit_array mem (buf + 1) turn bw
        SERDES_TURN_DEG_MAX_PLACE).1 (buf + 1) ds.length := by
  obtain ⟨s, j, D, u, hconv, post⟩ :=
    conv_turn_spec mem (buf + 1) turn bw SERDES_TURN_DEG_MAX_PLACE
  rw [PARAM_CHECK_uint_id h1 h22] at post
  have hT : turn % 2 ^ bw < 2 ^ bw := Nat.mod_lt _ (two_pow_pos bw)
  have hpl : PARAM_CHECK_int SERDES_TURN_DEG_MAX_PLACE (-5) 2 = 2 := by decide
  rw [hpl] at post
  have hu : u ≤ 9 := by
    have h10 := post.hu
    by_contra hcon
    have := post.hu9 (by omega)
    omega
  have hdig := holds_digits_push post.hdig hu post.hlast
  unfold serialize_turn_to_deg
  simp only [hconv, post.hk]
  refine ⟨_, ser_out_of_digits mem s.mem buf j _ bw _ post.hj h22 hT hdig post.hnear
    (frame_of_post post), ?_, ?_, ?_⟩
  · intro j' hj'
    rw [cells_length] at hj'
    exact post.hmin j' (by omega) (by
      have := post.hj
      omega)
  · rw [cells_length]
    push_cast
    omega
  · rw [cells_length]

/-- The digit array after the generator and the carry pass, as
`serialize_turn_to_deg_p` and `serialize_turn_to_deg_ps` compute it. -/
theorem carried_digits (mem : Mem) (buf turn bw : Nat) (precision : Int) (h1 : 1 ≤ bw)
    (h22 : bw ≤ 22) (hp1 : -2 ≤ precision) (hp2 : precision ≤ 5) :
    ∃ (j D : Nat), j ≤ 7 ∧ 2 + precision ≤ (j : Int) ∧
      (conv_turn_to_deg_digit_array mem (buf + 1) turn bw (-precision)).2 = 2 - (j : Int) ∧
      holds_digits (carry_up_overflow
        (conv_turn_to_deg_digit_array mem (buf + 1) turn bw (-precision)).1 (buf + 1)
        (2 - (j : Int))) (buf + 1) (j + 1) D ∧
      near (2 ^ bw) (turn % 2 ^ bw) (10 ^ j) D ∧
      ∀ q, q < buf ∨ buf + SERDES_TURN_DEG_BUF_SIZE ≤ q →
        carry_up_overflow (conv_turn_to_deg_digit_array mem (buf + 1) turn bw (-precision)).1
          (buf + 1) (2 - (j : Int)) q = mem q := by
  obtain ⟨s, j, D, u, hconv, post⟩ := conv_turn_spec mem (buf + 1) turn bw (-precision)
  rw [PARAM_CHECK_uint_id h1 h22, PARAM_CHECK_int_id (by omega) (by omega)] at post
  have hT : turn % 2 ^ bw < 2 ^ bw := Nat.mod_lt _ (two_pow_pos bw)
  obtain ⟨hd, hf⟩ := carry_up_spec (buf + 1) j s.mem D u post.hdig post.hlast post.hu
    (near_digits_lt post.hnear hT)
  refine ⟨j, 10 * D + u, post.hj, ?_, ?_, ?_, post.hnear, ?_⟩
  · have := post.hplace
    omega
  · rw [hconv]
    exact post.hk
  · rw [hconv]
    exact hd
  · intro q hq
    rw [hconv]
    have hj := post.hj
    have hq' := hq
    unfold SERDES_TURN_DEG_BUF_SIZE at hq'
    rw [hf q (by omega)]
    exact frame_of_post post q hq

/-- The contract of `serialize_turn_to_deg_p`: at least `2 + precision + 1` digits
are generated. -/
theorem serialize_p_out (mem : Mem) (buf turn bw : Nat) (precision : Int) (h1 : 1 ≤ bw)
    (h22 : bw ≤ 22) (hp1 : -2 ≤ precision) (hp2 : precision ≤ 5) :
    ∃ ds, SerOut (serialize_turn_to_deg_p mem buf turn bw precision) mem buf bw
        (turn % 2 ^ bw) ds ∧ 3 + precision ≤ (ds.length : Int) := by
  obtain ⟨j, D, hj, hjp, hk, hdig, hnear, hframe⟩ :=
    carried_digits mem buf turn bw precision h1 h22 hp1 hp2
  have hT : turn % 2 ^ bw < 2 ^ bw := Nat.mod_lt _ (two_pow_pos bw)
  unfold serialize_turn_to_deg_p
  simp only [hk]
  refine ⟨_, ser_out_of_digits mem _ buf j D bw _ hj h22 hT hdig hnear hframe, ?_⟩
  rw [cells_length]
  push_cast
  omega

/-- The contract of `serialize_turn_to_deg_ps`: its digit array `ds` is that of
`serialize_turn_to_deg_p` without the zeros `zs` at its end, which are all below
place 0. -/
theorem serialize_ps_out (mem : Mem) (buf turn bw : Nat) (precision : Int) (h1 : 1 ≤ bw)
    (h22 : bw ≤ 22) (hp1 : -2 ≤ precision) (hp2 : precision ≤ 5) :
    ∃ ds zs, SerOut (serialize_turn_to_deg_ps mem buf turn bw precision) mem buf bw
        (turn % 2 ^ bw) ds ∧
      SerOut (serialize_turn_to_deg_p mem buf turn bw precision) mem buf bw
        (turn % 2 ^ bw) (ds ++ zs) ∧
      (∀ z ∈ zs, z = 0) ∧ (zs ≠ [] → 3 ≤ ds.length) ∧
      3 + precision ≤ ((ds ++ zs).length : Int) := by
  obtain ⟨j, D, hj, hjp, hk, hdig, hnear, hframe⟩ :=
    carried_digits mem buf turn bw precision h1 h22 hp1 hp2
  have hT : turn % 2 ^ bw < 2 ^ bw := Nat.mod_lt _ (two_pow_pos bw)
  unfold serialize_turn_to_deg_ps serialize_turn_to_deg_p
  simp only [hk]
  generalize carry_up_overflow (conv_turn_to_deg_digit_array mem (buf + 1) turn bw (-precision)).1
    (buf + 1) (2 - (j : Int)) = m2 at hdig hframe ⊢
  obtain ⟨j', hle, hs, hsmall, hbig, hzero, hdig', hD⟩ :=
    suppress_spec m2 (buf + 1) (-(2 - (j : Int))).toNat j D hdig (by omega)
  have hnear' : near (2 ^ bw) (turn % 2 ^ bw) (10 ^ j') (D / 10 ^ (j - j')) := by
    apply near_scale (c := 10 ^ (j - j')) (Nat.pos_pow_of_pos _ (by norm_num))
    rw [← hD, ← pow_add]
    have : j' + (j - j') = j := by omega
    rw [this]
    exact hnear
  have hsplit : j + 1 = (j' + 1) + (j - j') := by omega
  refine ⟨cells m2 (buf + 1) (j' + 1), cells m2 (buf + 1 + (j' + 1)) (j - j'), ?_, ?_, ?_, ?_, ?_⟩
  · rw [hs]
    exact ser_out_of_digits mem _ buf j' _ bw _ (by omega) h22 hT hdig' hnear' hframe
  · rw [← cells_append, ← hsplit]
    exact ser_out_of_digits mem _ buf j D bw _ hj h22 hT hdig hnear hframe
  · intro z hz
    unfold cells at hz
    rw [List.mem_map] at hz
    obtain ⟨i, hi, rfl⟩ := hz
    have := List.mem_range.1 hi
    have e : buf + 1 + (j' + 1) + i = buf + 1 + (j' + 1 + i) := by omega
    rw [e]
    exact hzero _ (by omega) (by omega)
  · intro hne
    rw [cells_length]
    by_contra hcon
    apply hne
    have : j' = j := hsmall (by omega)
    subst this
    simp [cells]
  · rw [← cells_append, ← hsplit, cells_length]
    push_cast
    omega

/-! ## The shape of the rendering -/

theorem digit_le9 {d : Nat} (h : d ≤ 9) :
    isdigit (Char.ofNat ((48 + d) % 256)) = true ∧
      (Char.ofNat ((48 + d) % 256) = '0' → d = 0) := by
  interval_cases d <;> decide

/-- The rendering is the integer part, then the point and the digits below place 0. -/
theorem render_split (ds : List Nat) :
    (render_bytes ds).map Char.ofNat =
      (fmt_int3 (ds.getD 0 0) (ds.getD 1 0) (ds.getD 2 0)).map (fun b => Char.ofNat (b % 256)) ++
        (if ds.length ≤ 3 then []
          else '.' :: (ds.drop 3).map fun d => Char.ofNat ((48 + d) % 256)) := by
  unfold render_bytes
  rw [List.map_map, List.map_append]
  congr 1
  split_ifs
  · rfl
  · rw [List.map_cons, List.map_map]
    rfl

theorem int3_shape {a b c : Nat} (ha : a ≤ 9) (hb : b ≤ 9) (hc : c ≤ 9) :
    ∀ ip, ip = (fmt_int3 a b c).map (fun b => Char.ofNat (b % 256)) →
      1 ≤ ip.length ∧ ip.length ≤ 3 ∧ (∀ x ∈ ip, isdigit x = true) ∧
        (ip.head? = some '0' → ip = ['0']) := by
  intro ip hip
  have da := digit_le9 ha
  have db := digit_le9 hb
  have dc := digit_le9 hc
  unfold fmt_int3 at hip
  split_ifs at hip with h1 h2
  · subst hip
    refine ⟨by simp, by simp, ?_, ?_⟩
    · intro x hx
      simp only [List.map_cons, List.map_nil, List.mem_cons, List.mem_singleton,
        List.not_mem_nil, or_false] at hx
      rcases hx with rfl | rfl | rfl
      · exact da.1
      · exact db.1
      · exact dc.1
    · intro h
      simp only [List.map_cons, List.head?_cons, Option.some.injEq] at h
      exact absurd (da.2 h) h1
  · subst hip
    refine ⟨by simp, by simp, ?_, ?_⟩
    · intro x hx
      simp only [List.map_cons, List.map_nil, List.mem_cons, List.mem_singleton,
        List.not_mem_nil, or_false] at hx
      rcases hx with rfl | rfl
      · exact db.1
      · exact dc.1
    · intro h
      simp only [List.map_cons, List.head?_cons, Option.some.injEq] at h
      exact absurd (db.2 h) h2
  · subst hip
    refine ⟨by simp, by simp, ?_, ?_⟩
    · intro x hx
      simp only [List.map_cons, List.map_nil, List.mem_singleton] at hx
      subst hx
      exact dc.1
    · intro h
      simp only [List.map_cons, List.head?_cons, Option.some.injEq, List.map_nil] at h
      have := dc.2 h
      subst this
      rfl

theorem frac_digits (ds : List Nat) (h9 : ∀ d ∈ ds, d ≤ 9) :
    ∀ x ∈ (ds.drop 3).map (fun d => Char.ofNat ((48 + d) % 256)), isdigit x = true := by
  intro x hx
  rw [List.mem_map] at hx
  obtain ⟨d, hd, rfl⟩ := hx
  exact (digit_le9 (h9 d (List.mem_of_mem_drop hd))).1

/-- The rendering of one to eight decimal digits is well shaped. -/
theorem render_well_shaped (ds : List Nat) (hlen : ds.length ≤ 8) (h9 : ∀ d ∈ ds, d ≤ 9) :
    well_shaped ((render_bytes ds).map Char.ofNat) := by
  obtain ⟨i1, i2, i3, i4⟩ := int3_shape (getD_le9 ds h9 0) (getD_le9 ds h9 1) (getD_le9 ds h9 2)
    _ rfl
  refine ⟨_, _, render_split ds, i1, i2, i3, i4, ?_⟩
  split_ifs with h
  · exact Or.inl rfl
  · refine Or.inr ⟨_, rfl, ?_, ?_, frac_digits ds h9⟩
    · rw [List.length_map, List.length_drop]
      omega
    · rw [List.length_map, List.length_drop]
      omega

theorem fits_of_ser_out {r : Mem × Nat} {mem0 : Mem} {buf bw T : Nat} {ds : List Nat}
    (h : SerOut r mem0 buf bw T ds) : fits_buffer r mem0 buf := by
  have hlen := render_bytes_length ds h.hlen8
  obtain ⟨hstr, hend, hnul, hframe⟩ := h.rendered
  unfold fits_buffer
  rw [hstr, List.length_map]
  refine ⟨hlen.2, hend, hnul, ?_, hframe⟩
  rw [hend]
  unfold SERDES_TURN_DEG_BUF_SIZE
  omega

theorem shape_of_ser_out {r : Mem × Nat} {mem0 : Mem} {buf bw T : Nat} {ds : List Nat}
    (h : SerOut r mem0 buf bw T ds) : well_shaped (out_str r buf) := by
  rw [h.rendered.hstr]
  exact render_well_shaped ds h.hlen8 h.h9

theorem isdigit_ne_dot {c : Char} (h : isdigit c = true) : (c != '.') = true := by
  rw [bne_iff_ne]
  intro hc
  subst hc
  exact absurd h (by decide)

theorem takeWhile_append_stop {α : Type} (p : α → Bool) (xs ys : List α)
    (hx : ∀ x ∈ xs, p x = true) (hy : ys = [] ∨ ∃ y t, ys = y :: t ∧ p y = false) :
    (xs ++ ys).takeWhile p = xs := by
  induction xs with
  | nil =>
    rcases hy with rfl | ⟨y, t, rfl, hp⟩
    · rfl
    · simp [List.takeWhile, hp]
  | cons x xs ih =>
    rw [List.cons_append, List.takeWhile_cons, if_pos (hx x (List.mem_cons_self _ _))]
    congr 1
    exact ih fun z hz => hx z (List.mem_cons_of_mem _ hz)

/-- The integer part of a rendering is the rendering of its places 2, 1 and 0. -/
theorem int_part_render (ds : List Nat) (h9 : ∀ d ∈ ds, d ≤ 9) :
    int_part ((render_bytes ds).map Char.ofNat) =
      (fmt_int3 (ds.getD 0 0) (ds.getD 1 0) (ds.getD 2 0)).map fun b => Char.ofNat (b % 256) := by
  obtain ⟨_, _, i3, _⟩ := int3_shape (getD_le9 ds h9 0) (getD_le9 ds h9 1) (getD_le9 ds h9 2)
    _ rfl
  rw [render_split]
  unfold int_part
  apply takeWhile_append_stop _ _ _ (fun x hx => isdigit_ne_dot (i3 x hx))
  split_ifs
  · exact Or.inl rfl
  · exact Or.inr ⟨_, _, rfl, by decide⟩

theorem zeros_eq_replicate (zs : List Nat) (hz : ∀ z ∈ zs, z = 0) :
    zs.map (fun d => Char.ofNat ((48 + d) % 256)) = List.replicate zs.length '0' := by
  induction zs with
  | nil => rfl
  | cons z zs ih =>
    have hz0 : z = 0 := hz z (List.mem_cons_self _ _)
    subst hz0
    rw [List.map_cons, List.length_cons, List.replicate_succ,
      ih fun x hx => hz x (List.mem_cons_of_mem _ hx)]

/-- Zeros below place 0 at the end of a digit array show as zeros at the end of its
rendering, after the point when they are all there is below place 0. -/
theorem render_append_zeros (ds zs : List Nat) (hz : ∀ z ∈ zs, z = 0) (hne : zs ≠ [])
    (h3 : 3 ≤ ds.length) :
    (render_bytes (ds ++ zs)).map Char.ofNat =
      (render_bytes ds).map Char.ofNat ++
        (if ds.length = 3 then '.' :: List.replicate zs.length '0'
          else List.replicate zs.length '0') := by
  have hzl : 0 < zs.length := List.length_pos.2 hne
  have g : ∀ i, i < 3 → (ds ++ zs).getD i 0 = ds.getD i 0 := by
    intro i hi
    rw [List.getD_eq_getElem?_getD, List.getD_eq_getElem?_getD,
      List.getElem?_append_left (by omega)]
  rw [render_split, render_split, g 0 (by omega), g 1 (by omega), g 2 (by omega),
    List.append_assoc]
  congr 1
  rw [if_neg (by rw [List.length_append]; omega), List.drop_append_of_le_length h3,
    List.map_append, zeros_eq_replicate zs hz]
  by_cases h : ds.length = 3
  · rw [if_pos (by omega), if_pos h, List.drop_eq_nil_of_le (by omega)]
    rfl
  · rw [if_neg (by omega), if_neg h]
    rfl

/-! ## The digits do not depend on what the buffer held -/

theorem gen_body_agree {b1 b2 n : Nat} (S : Nat) (place : Int) {s1 s2 : GenState}
    (h : GenAgree b1 b2 n s1 s2) :
    GenAgree b1 b2 (n + 1) (gen_body b1 S place s1) (gen_body b2 S place s2) := by
  obtain ⟨hR, hM, hk, hlow, hhigh, hn, hmem⟩ := h
  have hidx : BUF_INDEX (s2.k - 1) = n := by
    rw [← hk, hn]
    have : (3 : Int) - n - 1 = 2 - (n : Int) := by omega
    rw [this, BUF_INDEX_eq]
  unfold gen_body
  simp only [hR, hM, hk, hlow, hhigh, hidx]
  refine ⟨rfl, rfl, rfl, rfl, rfl, ?_, ?_⟩
  · rw [← hk, hn]
    push_cast
    omega
  · intro i hi
    by_cases hin : i = n
    · subst hin
      simp only [store_same]
    · simp only []
      rw [store_other _ _ (by omega), store_other _ _ (by omega)]
      exact hmem i (by omega)

theorem gen_loop_agree {b1 b2 : Nat} (S : Nat) (place : Int) :
    ∀ (fuel n : Nat) (s1 s2 : GenState), GenAgree b1 b2 n s1 s2 →
      ∃ n', GenAgree b1 b2 n' (gen_loop b1 S place fuel s1) (gen_loop b2 S place fuel s2) := by
  intro fuel
  induction fuel with
  | zero =>
    intro n s1 s2 h
    exact ⟨n, h⟩
  | succ f ih =>
    intro n s1 s2 h
    have hb := gen_body_agree S place h
    unfold gen_loop
    rw [h.hlow, h.hhigh]
    split_ifs with hc
    · simp only [hb.hk]
      split_ifs
      · exact ⟨_, hb⟩
      · exact ih _ _ _ hb
    · exact ⟨n, h⟩

/-- The place that `conv_turn_to_deg_digit_array` returns and the digits it writes
from place 2 down to that place do not depend on the memory or on where the digit
array is. -/
theorem conv_turn_indep (m1 m2 : Mem) (b1 b2 turn bit_width : Nat) (place : Int) :
    (conv_turn_to_deg_digit_array m1 b1 turn bit_width place).2 =
        (conv_turn_to_deg_digit_array m2 b2 turn bit_width place).2 ∧
      ∀ n : Nat, ((n : Int) ≤ 3 - (conv_turn_to_deg_digit_array m1 b1 turn bit_width place).2) →
        cells (conv_turn_to_deg_digit_array m1 b1 turn bit_width place).1 b1 n =
          cells (conv_turn_to_deg_digit_array m2 b2 turn bit_width place).1 b2 n := by
  unfold conv_turn_to_deg_digit_array
  simp only []
  have h0 : GenAgree b1 b2 0
      { mem := m1
        R := u32 ((u32 turn &&& sub32 (shl1 (PARAM_CHECK_uint bit_width
          SERDES_TURN_DEG_MIN_BIT_WIDTH SERDES_TURN_DEG_MAX_BIT_WIDTH)) 1) * 360)
        M := 180, k := SERDES_TURN_DEG_MAX_PLACE + 1, low := false, high := false }
      { mem := m2
        R := u32 ((u32 turn &&& sub32 (shl1 (PARAM_CHECK_uint bit_width
          SERDES_TURN_DEG_MIN_BIT_WIDTH SERDES_TURN_DEG_MAX_BIT_WIDTH)) 1) * 360)
        M := 180, k := SERDES_TURN_DEG_MAX_PLACE + 1, low := false, high := false } :=
    ⟨rfl, rfl, rfl, rfl, rfl, rfl, fun i hi => by omega⟩
  obtain ⟨n', h⟩ := gen_loop_agree
    (u32 (shl1 (PARAM_CHECK_uint bit_width SERDES_TURN_DEG_MIN_BIT_WIDTH
      SERDES_TURN_DEG_MAX_BIT_WIDTH) * 100))
    (PARAM_CHECK_int place SERDES_TURN_DEG_MIN_PLACE SERDES_TURN_DEG_MAX_PLACE) 8 0 _ _ h0
  refine ⟨h.hk, fun n hn => ?_⟩
  unfold cells
  apply List.map_congr_left
  intro i hi
  have := List.mem_range.1 hi
  apply h.hmem
  have := h.hn
  omega

/-- The text of `serialize_turn_to_deg` does not depend on what the buffer held or
on where it is. -/
theorem serialize_indep (m1 m2 : Mem) (b1 b2 turn bw : Nat) (h1 : 1 ≤ bw) (h22 : bw ≤ 22) :
    out_str (serialize_turn_to_deg m1 b1 turn bw) b1 =
      out_str (serialize_turn_to_deg m2 b2 turn bw) b2 := by
  obtain ⟨ds1, o1, _, l1, c1⟩ := serialize_out m1 b1 turn bw h1 h22
  obtain ⟨ds2, o2, _, l2, c2⟩ := serialize_out m2 b2 turn bw h1 h22
  obtain ⟨hk, hc⟩ := conv_turn_indep m1 m2 (b1 + 1) (b2 + 1) turn bw SERDES_TURN_DEG_MAX_PLACE
  have hl : ds1.length = ds2.length := by
    rw [← hk] at l2
    omega
  have : ds1 = ds2 := by
    rw [c1, c2, ← hl]
    exact hc ds1.length (by omega)
  rw [o1.rendered.hstr, o2.rendered.hstr, this]

theorem walk_fold (buf : Nat) :
    ∀ (l : List Nat) (st : Mem × Nat),
      (l.foldl (fun (st : Mem × Nat) (turn : Nat) =>
        ((serialize_turn_to_deg st.1 buf turn 9).1,
          if out_str (serialize_turn_to_deg st.1 buf turn 9) buf = Nat.toDigits 10 st.2
          then st.2 + 1 else st.2)) st).2 =
      l.foldl (fun i turn =>
        if out_str (serialize_turn_to_deg (fun _ => 0) 0 turn 9) 0 = Nat.toDigits 10 i
        then i + 1 else i) st.2 := by
  intro l
  induction l with
  | nil => intro st; rfl
  | cons t l ih =>
    intro st
    rw [List.foldl_cons, List.foldl_cons, ih]
    simp only []
    rw [serialize_indep st.1 (fun _ => 0) buf 0 t 9 (by decide) (by decide)]

theorem walk_zero :
    (List.range 512).foldl (fun i turn =>
      if out_str (serialize_turn_to_deg (fun _ => 0) 0 turn 9) 0 = Nat.toDigits 10 i
      then i + 1 else i) 0 = 360 := by
  decide!

theorem whole_degrees_zero :
    ∀ d, d < 360 →
      out_str (serialize_turn_to_deg (fun _ => 0) 0 ((d * 1024 + 360) / 720) 9) 0 =
        Nat.toDigits 10 d := by
  decide!

/-! ## What the parser returns on any text -/

theorem digit_value_le {c : Char} (h : isdigit c = true) : c.toNat - ('0').toNat ≤ 9 := by
  unfold isdigit at h
  have h' := of_decide_eq_true h
  have e0 : ('0').toNat = 48 := by decide
  have e9 : ('9').toNat = 57 := by decide
  omega

/-- The loop over the digits after the point keeps `S` a power of ten, at most
`10 ^ 5`, and `deg` below `360 * S`. -/
theorem parse_frac_spec :
    ∀ (l : List Char) (S deg g : Nat), g ≤ 5 → S = 10 ^ g → deg < 360 * S →
      ∃ g', g' ≤ 5 ∧ (parse_frac l S deg (g : Int)).1 = 10 ^ g' ∧
        (parse_frac l S deg (g : Int)).2.1 < 360 * (parse_frac l S deg (g : Int)).1 := by
  intro l
  induction l with
  | nil =>
    intro S deg g hg hS hdeg
    exact ⟨g, hg, hS, hdeg⟩
  | cons c cs ih =>
    intro S deg g hg hS hdeg
    unfold parse_frac
    by_cases hd : isdigit c = true
    · rw [if_pos hd]
      by_cases hc : (g : Int) < -SERDES_TURN_DEG_MIN_PLACE
      · rw [if_pos hc]
        have hg4 : g ≤ 4 := by
          unfold SERDES_TURN_DEG_MIN_PLACE SERDES_TURN_DEG_MAX_PRECISION at hc
          omega
        have hS4 : S ≤ 10 ^ 4 := by
          rw [hS]
          exact Nat.pow_le_pow_right (by norm_num) hg4
        have hv := digit_value_le hd
        have e1 : u32 (S * 10) = 10 ^ (g + 1) := by
          rw [u32_of_lt (by omega), hS, pow_succ]
        have e2 : u32 (u32 (deg * 10) + (c.toNat - ('0').toNat)) =
            deg * 10 + (c.toNat - ('0').toNat) := by
          rw [u32_of_lt (show deg * 10 < 4294967296 by omega), u32_of_lt (by omega)]
        have e3 : ((g : Int) + 1) = ((g + 1 : Nat) : Int) := by push_cast; rfl
        rw [e1, e2, e3]
        exact ih _ _ (g + 1) (by omega) rfl (by rw [pow_succ, ← hS]; omega)
      · rw [if_neg hc]
        exact ih S deg g hg hS hdeg
    · rw [if_neg hd]
      exact ⟨g, hg, hS, hdeg⟩

/-- On every text the parser returns a power of ten `S`, at most `10 ^ 5`, and a
number `deg` below `360 * S`. -/
theorem parse_deg_spec (text : List Char) :
    ∃ g, g ≤ 5 ∧ (parse_deg text).1 = 10 ^ g ∧
      (parse_deg text).2.1 < 360 * (parse_deg text).1 := by
  unfold parse_deg
  simp only []
  have hmod : (parse_int (skip_space text) 0 0).1 % 360 < 360 * 10 ^ 0 := by
    have := Nat.mod_lt (parse_int (skip_space text) 0 0).1 (show 0 < 360 by norm_num)
    simpa using this
  split
  · exact ⟨0, by omega, rfl, hmod⟩
  · split_ifs
    · exact parse_frac_spec _ 1 _ 0 (by omega) rfl hmod
    · exact ⟨0, by omega, rfl, hmod⟩

/-- A text that is deserialised to a turn `T` other than 0 denotes a number of
degrees within half a step of `T`. -/
theorem near_of_deserialize (force_32bit : Bool) (text : List Char) {bw T : Nat}
    (hbw : bw ≤ 22) (hT : T < 2 ^ bw) (hT0 : T ≠ 0)
    (h : (deserialize_turn_from_deg force_32bit text bw).1 = T) :
    360 * (parse_deg text).1 * T ≤ (parse_deg text).2.1 * 2 ^ bw + 180 * (parse_deg text).1 ∧
      (parse_deg text).2.1 * 2 ^ bw < 360 * (parse_deg text).1 * T + 180 * (parse_deg text).1 := by
  obtain ⟨g, hg, hS, hdeg⟩ := parse_deg_spec text
  have hS5 : (parse_deg text).1 ≤ 10 ^ 5 := by
    rw [hS]
    exact Nat.pow_le_pow_right (by norm_num) hg
  have hSpos : 0 < (parse_deg text).1 := by
    rw [hS]
    exact Nat.pos_pow_of_pos _ (by norm_num)
  have hB := two_pow_le_22 hbw
  have hBpos := two_pow_pos bw
  unfold deserialize_turn_from_deg at h
  simp only [] at h
  generalize (parse_deg text).1 = S10 at *
  generalize (parse_deg text).2.1 = deg at *
  have hK : 0 < S10 * 180 := by omega
  rw [u32_of_lt (by omega), div_paths hK (by omega) (by omega) hbw, mask_eq hbw,
    Nat.and_one_is_mod] at h
  have hq : deg * 2 ^ bw / (S10 * 180) < 2 * 2 ^ bw := by
    rw [Nat.div_lt_iff_lt_mul hK]
    nlinarith
  have hdm := Nat.div_add_mod (deg * 2 ^ bw) (S10 * 180)
  have hr := Nat.mod_lt (deg * 2 ^ bw) hK
  generalize deg * 2 ^ bw / (S10 * 180) = q at *
  generalize deg * 2 ^ bw % (S10 * 180) = r at *
  generalize deg * 2 ^ bw = X at *
  generalize 2 ^ bw = B at *
  have hq2 : 2 * T ≤ q + 1 ∧ q ≤ 2 * T := by
    split_ifs at h with hodd
    · rw [u32_of_lt (by omega)] at h
      by_cases hlt : q / 2 + 1 < B
      · rw [Nat.mod_eq_of_lt hlt] at h
        omega
      · have : q / 2 + 1 = B := by omega
        rw [this, Nat.mod_self] at h
        omega
    · rw [Nat.mod_eq_of_lt (by omega)] at h
      omega
  obtain ⟨hq3, hq4⟩ := hq2
  constructor <;> nlinarith

/-- The remainder of the generator is never exactly the margin: half a step above a
multiple of `10 ^ (2 - j)` degrees is not a turn of `bw` bits when a step is at least
two such units. -/
theorem no_half_step {bw t j Q : Nat}
    (h : 360 * (t + 1) * 10 ^ j = 100 * 2 ^ bw * Q + 180 * 10 ^ j)
    (hM : 2 * (180 * 10 ^ j) ≤ 100 * 2 ^ bw) : False := by
  have h1 : 2 ^ j * (9 * 5 ^ j * (2 * t + 1)) = 2 ^ bw * (5 * Q) := by
    have e : (10 : Nat) ^ j = 2 ^ j * 5 ^ j := by
      rw [← Nat.mul_pow]
    rw [e] at h
    nlinarith
  have hodd : Odd (9 * 5 ^ j * (2 * t + 1)) := by
    apply Odd.mul
    · apply Odd.mul
      · decide
      · exact Odd.pow (by decide)
    · exact ⟨t, rfl⟩
  have hcop : Nat.Coprime (2 ^ bw) (9 * 5 ^ j * (2 * t + 1)) :=
    Nat.Coprime.pow_left bw (Nat.coprime_two_left.2 hodd)
  have hdvd : 2 ^ bw ∣ 2 ^ j :=
    hcop.dvd_of_dvd_mul_right (Dvd.intro _ h1.symm)
  have hle : bw ≤ j := (Nat.pow_dvd_pow_iff_le_right (by norm_num)).1 hdvd
  have h2 : 2 ^ bw ≤ 2 ^ j := Nat.pow_le_pow_right (by norm_num) hle
  have h3 : 2 ^ j ≤ 10 ^ j := Nat.pow_le_pow_left (by norm_num) j
  omega

/-- Where the generator goes on at the pass `j`, no multiple of `10 ^ (2 - j)`
degrees is within half a step of the turn. -/
theorem not_near_of_unresolved {bw T j n : Nat} (hu : unresolved_at (2 ^ bw) T j)
    (hn : near (2 ^ bw) T (10 ^ j) n) : False := by
  obtain ⟨u1, u2⟩ := hu
  obtain ⟨n1, n2⟩ := hn
  have hBpos := two_pow_pos bw
  have hdm := Nat.div_add_mod (360 * T * 10 ^ j) (100 * 2 ^ bw)
  generalize 360 * T * 10 ^ j / (100 * 2 ^ bw) = Q at hdm
  generalize hr : 360 * T * 10 ^ j % (100 * 2 ^ bw) = r at *
  have hnQ : n ≤ Q := by
    by_contra hcon
    have : 100 * 2 ^ bw * (Q + 1) ≤ 100 * 2 ^ bw * n := Nat.mul_le_mul_left _ (by omega)
    nlinarith
  have hQn : Q ≤ n := by
    by_contra hcon
    have : 100 * 2 ^ bw * (n + 1) ≤ 100 * 2 ^ bw * Q := Nat.mul_le_mul_left _ (by omega)
    nlinarith
  have hQeq : Q = n := by omega
  subst hQeq
  have hrM : r = 180 * 10 ^ j := by omega
  have hT : T ≠ 0 := by
    intro h0
    subst h0
    have hpos : 0 < 10 ^ j := Nat.pos_pow_of_pos _ (by norm_num)
    simp at hr
    omega
  obtain ⟨t, rfl⟩ : ∃ t, T = t + 1 := ⟨T - 1, by omega⟩
  have e1 : 360 * (t + 1) * 10 ^ j = 100 * 2 ^ bw * Q + 180 * 10 ^ j := by omega
  have e2 : 2 * (180 * 10 ^ j) ≤ 100 * 2 ^ bw := by omega
  exact no_half_step e1 e2

/-! ## The parser on any text -/

theorem skip_space_eq (l : List Char) : skip_space l = l.dropWhile isspace := by
  induction l with
  | nil => rfl
  | cons c cs ih =>
    unfold skip_space
    by_cases h : isspace c = true
    · rw [if_pos h, List.dropWhile_cons_of_pos h, ih]
    · rw [if_neg h, List.dropWhile_cons_of_neg h]

theorem dropWhile_eq_drop {α : Type} (p : α → Bool) (l : List α) :
    l.dropWhile p = l.drop (l.takeWhile p).length := by
  induction l with
  | nil => rfl
  | cons c cs ih =>
    by_cases h : p c = true
    · rw [List.dropWhile_cons_of_pos h, List.takeWhile_cons_of_pos h, List.length_cons,
        List.drop_succ_cons, ih]
    · rw [List.dropWhile_cons_of_neg h, List.takeWhile_cons_of_neg h]
      rfl

theorem length_takeWhile_le {α : Type} (p : α → Bool) (l : List α) :
    (l.takeWhile p).length ≤ l.length := by
  induction l with
  | nil => simp
  | cons c cs ih =>
    by_cases h : p c = true
    · rw [List.takeWhile_cons_of_pos h, List.length_cons, List.length_cons]
      omega
    · rw [List.takeWhile_cons_of_neg h]
      simp

/-- The value of a run of digits read after `a`. -/
theorem foldl_digits (cs : List Char) :
    ∀ a, cs.foldl (fun a c => 10 * a + (c.toNat - ('0').toNat)) a =
      a * 10 ^ cs.length + chars_val cs := by
  induction cs with
  | nil =>
    intro a
    simp [chars_val]
  | cons c cs ih =>
    intro a
    unfold chars_val
    rw [List.foldl_cons, List.foldl_cons, ih, ih (10 * 0 + _), List.length_cons, pow_succ]
    ring

/-- The loop over the integer part reads the first `3 - c` digits of the digit run,
at most, and stops there. -/
theorem parse_int_eq :
    ∀ (l : List Char) (c deg : Nat), c ≤ 3 → deg < 10 ^ c →
      parse_int l deg (c : Int) =
        (((l.takeWhile isdigit).take (3 - c)).foldl
            (fun a x => 10 * a + (x.toNat - ('0').toNat)) deg,
          l.drop (min (3 - c) (l.takeWhile isdigit).length)) := by
  intro l
  induction l with
  | nil =>
    intro c deg _ _
    simp [parse_int]
  | cons x xs ih =>
    intro c deg hc hdeg
    unfold parse_int
    by_cases hd : isdigit x = true
    · by_cases hcount : (c : Int) ≤ SERDES_TURN_DEG_MAX_PLACE
      · have hc2 : c ≤ 2 := by
          unfold SERDES_TURN_DEG_MAX_PLACE SERDES_TURN_DEG_MIN_PRECISION at hcount
          omega
        rw [if_pos ⟨hd, hcount⟩]
        have hv := digit_value_le hd
        have h10 : (10 : Nat) ^ c ≤ 10 ^ 2 := Nat.pow_le_pow_right (by norm_num) hc2
        have e : u32 (u32 (deg * 10) + (x.toNat - ('0').toNat)) =
            10 * deg + (x.toNat - ('0').toNat) := by
          rw [u32_of_lt (show deg * 10 < 4294967296 by omega), u32_of_lt (by omega)]
          omega
        have ec : ((c : Int) + 1) = ((c + 1 : Nat) : Int) := by push_cast; rfl
        rw [e, ec, ih (c + 1) _ (by omega) (by rw [pow_succ]; omega),
          List.takeWhile_cons_of_pos hd]
        have e3 : 3 - c = (3 - (c + 1)) + 1 := by omega
        rw [e3, List.take_succ_cons, List.foldl_cons, List.length_cons]
        congr 1
        have : min (3 - (c + 1) + 1) ((List.takeWhile isdigit xs).length + 1) =
            min (3 - (c + 1)) (List.takeWhile isdigit xs).length + 1 := by omega
        rw [this, List.drop_succ_cons]
      · have hc3 : c = 3 := by
          unfold SERDES_TURN_DEG_MAX_PLACE SERDES_TURN_DEG_MIN_PRECISION at hcount
          omega
        subst hc3
        rw [if_neg (fun h => hcount h.2)]
        simp
    · rw [if_neg (fun h => hd h.1), List.takeWhile_cons_of_neg hd]
      simp

/-- The loop over the digits after the point reads the first `5 - g` digits of the
run, at most, and goes to the end of the run. -/
theorem parse_frac_eq :
    ∀ (l : List Char) (g S deg : Nat), g ≤ 5 → S = 10 ^ g → deg < 360 * S →
      parse_frac l S deg (g : Int) =
        (10 ^ (g + min (5 - g) (l.takeWhile isdigit).length),
          ((l.takeWhile isdigit).take (5 - g)).foldl
            (fun a x => 10 * a + (x.toNat - ('0').toNat)) deg,
          l.dropWhile isdigit) := by
  intro l
  induction l with
  | nil =>
    intro g S deg _ hS _
    simp [parse_frac, hS]
  | cons x xs ih =>
    intro g S deg hg hS hdeg
    unfold parse_frac
    by_cases hd : isdigit x = true
    · rw [if_pos hd, List.takeWhile_cons_of_pos hd, List.dropWhile_cons_of_pos hd]
      by_cases hc : (g : Int) < -SERDES_TURN_DEG_MIN_PLACE
      · rw [if_pos hc]
        have hg4 : g ≤ 4 := by
          unfold SERDES_TURN_DEG_MIN_PLACE SERDES_TURN_DEG_MAX_PRECISION at hc
          omega
        have hS4 : S ≤ 10 ^ 4 := by
          rw [hS]
          exact Nat.pow_le_pow_right (by norm_num) hg4
        have hv := digit_value_le hd
        have e1 : u32 (S * 10) = 10 ^ (g + 1) := by
          rw [u32_of_lt (by omega), hS, pow_succ]
        have e2 : u32 (u32 (deg * 10) + (x.toNat - ('0').toNat)) =
            10 * deg + (x.toNat - ('0').toNat) := by
          rw [u32_of_lt (show deg * 10 < 4294967296 by omega), u32_of_lt (by omega)]
          omega
        have e3 : ((g : Int) + 1) = ((g + 1 : Nat) : Int) := by push_cast; rfl
        rw [e1, e2, e3, ih (g + 1) _ _ (by omega) rfl (by rw [pow_succ]; omega)]
        have e5 : 5 - g = (5 - (g + 1)) + 1 := by omega
        rw [e5, List.take_succ_cons, List.foldl_cons, List.length_cons]
        congr 2
        omega
      · rw [if_neg hc]
        have hg5 : g = 5 := by
          unfold SERDES_TURN_DEG_MIN_PLACE SERDES_TURN_DEG_MAX_PRECISION at hc
          omega
        subst hg5
        rw [ih 5 S deg hg hS hdeg]
        simp
    · rw [if_neg hd, List.takeWhile_cons_of_neg hd, List.dropWhile_cons_of_neg hd]
      simp [hS]

theorem int_end_drop (text : List Char) :
    (parse_int (skip_space text) 0 0).2 = text.drop (int_end text) ∧
      (parse_int (skip_space text) 0 0).1 = chars_val ((int_run text).take 3) := by
  have h := parse_int_eq (skip_space text) 0 0 (by omega) (by norm_num)
  simp only [Nat.cast_zero, Nat.sub_zero] at h
  rw [h, skip_space_eq]
  constructor
  · simp only []
    rw [dropWhile_eq_drop, List.drop_drop]
    unfold int_end lead_space int_run
    rw [dropWhile_eq_drop, Nat.min_comm]
  · rfl

/-- The parser computes the `S` and the `N` of the specification and stops at the
cursor of the specification. -/
theorem parse_deg_eq (text : List Char) :
    parse_deg text = (spec_S text, spec_N text, text.drop (cursor_spec text)) := by
  obtain ⟨h2, h1⟩ := int_end_drop text
  unfold parse_deg
  simp only [h1, h2]
  unfold spec_N spec_S frac_run cursor_spec
  have hmod : chars_val ((int_run text).take 3) % 360 < 360 * 1 := by
    have := Nat.mod_lt (chars_val ((int_run text).take 3)) (show 0 < 360 by norm_num)
    omega
  cases hd : text.drop (int_end text) with
  | nil => simp [chars_val, hd]
  | cons c r =>
    simp only []
    by_cases hc : c = '.'
    · simp only [hc, if_true]
      have h := parse_frac_eq r 0 1 _ (by omega) rfl hmod
      simp only [Nat.cast_zero, Nat.zero_add, Nat.sub_zero] at h
      rw [h, foldl_digits, List.length_take, dropWhile_eq_drop]
      have : text.drop (int_end text + 1 + (r.takeWhile isdigit).length) =
          r.drop (r.takeWhile isdigit).length := by
        rw [Nat.add_assoc, ← List.drop_drop, hd, Nat.add_comm 1, List.drop_succ_cons]
      rw [this]
    · simp only [hc, if_false]
      simp [chars_val, hd]

theorem cursor_spec_le (text : List Char) : cursor_spec text ≤ text.length := by
  unfold cursor_spec
  cases hd : text.drop (int_end text) with
  | nil =>
    simp only []
    unfold int_end lead_space int_run
    have h1 := length_takeWhile_le isspace text
    have h2 := length_takeWhile_le isdigit (text.dropWhile isspace)
    have h3 : (text.dropWhile isspace).length =
        text.length - (text.takeWhile isspace).length := by
      rw [dropWhile_eq_drop, List.length_drop]
    omega
  | cons c r =>
    have hl : (text.drop (int_end text)).length = r.length + 1 := by rw [hd]; rfl
    rw [List.length_drop] at hl
    have := length_takeWhile_le isdigit r
    simp only []
    split_ifs <;> omega

/-- The cursor that `deserialize_turn_from_deg` reports is the cursor of the
specification. -/
theorem cursor_eq (force_32bit : Bool) (text : List Char) (bw : Nat) :
    (deserialize_turn_from_deg force_32bit text bw).2 = cursor_spec text := by
  unfold deserialize_turn_from_deg
  simp only [parse_deg_eq, List.length_drop]
  have := cursor_spec_le text
  omega

/-! ## The consumed prefix and the value of the deserialiser -/

theorem mem_takeWhile {α : Type} (p : α → Bool) (l : List α) :
    ∀ x ∈ l.takeWhile p, p x = true := by
  induction l with
  | nil => intro x hx; simp at hx
  | cons c cs ih =>
    intro x hx
    by_cases h : p c = true
    · rw [List.takeWhile_cons_of_pos h] at hx
      rcases List.mem_cons.1 hx with rfl | hx
      · exact h
      · exact ih x hx
    · rw [List.takeWhile_cons_of_neg h] at hx
      simp at hx

theorem head_dropWhile {α : Type} (p : α → Bool) (l : List α) (x : α)
    (h : (l.dropWhile p).head? = some x) : p x = false := by
  induction l with
  | nil => simp at h
  | cons c cs ih =>
    by_cases hc : p c = true
    · rw [List.dropWhile_cons_of_pos hc] at h
      exact ih h
    · rw [List.dropWhile_cons_of_neg hc] at h
      simp only [List.head?_cons, Option.some.injEq] at h
      subst h
      simpa using hc

/-- What is left at `int_end`: the integer digits beyond the third, then the text
after the run of integer digits. -/
theorem drop_int_end (text : List Char) :
    text.drop (int_end text) =
      (int_run text).drop 3 ++ (text.dropWhile isspace).dropWhile isdigit := by
  have h2 := List.takeWhile_append_dropWhile isdigit (text.dropWhile isspace)
  unfold int_end lead_space
  rw [← List.drop_drop]
  rw [← dropWhile_eq_drop]
  conv_lhs => rw [← h2]
  unfold int_run
  by_cases hd : ((text.dropWhile isspace).takeWhile isdigit).length ≤ 3
  · rw [Nat.min_eq_left hd, List.drop_left, List.drop_eq_nil_of_le hd, List.nil_append]
  · rw [Nat.min_eq_right (by omega), List.drop_append_of_le_length (by omega)]

/-- The text is its leading white space, the integer digits that are read, and what
is left at `int_end`. -/
theorem text_split (text : List Char) :
    text = text.takeWhile isspace ++ (int_run text).take 3 ++ text.drop (int_end text) ∧
      (text.takeWhile isspace ++ (int_run text).take 3).length = int_end text := by
  have h1 := List.takeWhile_append_dropWhile isspace text
  have h2 := List.takeWhile_append_dropWhile isdigit (text.dropWhile isspace)
  have hlen : (text.takeWhile isspace ++ (int_run text).take 3).length = int_end text := by
    rw [List.length_append, List.length_take]
    unfold int_end lead_space
    rw [Nat.min_comm]
  refine ⟨?_, hlen⟩
  rw [drop_int_end, List.append_assoc, ← List.append_assoc ((int_run text).take 3),
    List.take_append_drop]
  unfold int_run
  rw [h2, h1]

/-- The cursor in the words of the parser: the character at `int_end` decides. -/
theorem cursor_spec_eq (text : List Char) :
    cursor_spec text =
      if text.get? (int_end text) = some '.' then
        int_end text + 1 + ((text.drop (int_end text + 1)).takeWhile isdigit).length
      else int_end text := by
  unfold cursor_spec
  have hh : text.get? (int_end text) = (text.drop (int_end text)).head? := by
    rw [List.get?_eq_getElem?, List.head?_drop]
  have ht : text.drop (int_end text + 1) = (text.drop (int_end text)).tail := by
    rw [List.tail_drop]
  rw [hh, ht]
  cases text.drop (int_end text) with
  | nil => simp
  | cons c r =>
    by_cases hc : c = '.'
    · simp [hc]
    · simp [hc]

/-- The consumed prefix is white space, at most three digits and, when a `.` follows,
the `.` and the whole run of digits after it. -/
theorem consumed_text_matches (text : List Char) :
    matches_grammar 3 (text.take (cursor_spec text)) := by
  obtain ⟨hsplit, hlen⟩ := text_split text
  have hws : ∀ c ∈ text.takeWhile isspace, isspace c = true := mem_takeWhile _ _
  have hds : ∀ c ∈ (int_run text).take 3, isdigit c = true := by
    intro c hc
    exact mem_takeWhile isdigit _ c (List.mem_of_mem_take hc)
  have hdl : ((int_run text).take 3).length ≤ 3 := by
    rw [List.length_take]
    exact Nat.min_le_left _ _
  have key : ∀ n, text.take (int_end text + n) =
      text.takeWhile isspace ++ (int_run text).take 3 ++ (text.drop (int_end text)).take n := by
    intro n
    have h : List.take ((text.takeWhile isspace ++ (int_run text).take 3).length + n)
        (text.takeWhile isspace ++ (int_run text).take 3 ++ text.drop (int_end text)) =
        text.takeWhile isspace ++ (int_run text).take 3 ++
          List.take n (text.drop (int_end text)) := List.take_append n
    rw [hlen, ← hsplit] at h
    exact h
  unfold cursor_spec
  cases hd : text.drop (int_end text) with
  | nil =>
    simp only []
    have := key 0
    rw [Nat.add_zero, List.take_zero, List.append_nil] at this
    exact ⟨_, _, [], by rw [this, List.append_nil], hws, hds, hdl, Or.inl rfl⟩
  | cons c r =>
    simp only []
    by_cases hc : c = '.'
    · rw [if_pos hc]
      have := key ((r.takeWhile isdigit).length + 1)
      rw [hd, List.take_succ_cons] at this
      rw [Nat.add_assoc, Nat.add_comm 1]
      refine ⟨_, _, _, this, hws, hds, hdl, Or.inr ⟨r.take (r.takeWhile isdigit).length, ?_, ?_⟩⟩
      · rw [hc]
      · intro x hx
        have e : r.take (r.takeWhile isdigit).length = r.takeWhile isdigit := by
          have h5 : List.take (r.takeWhile isdigit).length
              (r.takeWhile isdigit ++ r.dropWhile isdigit) = r.takeWhile isdigit :=
            List.take_left _ _
          rw [List.takeWhile_append_dropWhile] at h5
          exact h5
        rw [e] at hx
        exact mem_takeWhile isdigit _ x hx
    · rw [if_neg hc]
      have := key 0
      rw [Nat.add_zero, List.take_zero, List.append_nil] at this
      exact ⟨_, _, [], by rw [this, List.append_nil], hws, hds, hdl, Or.inl rfl⟩

/-- The end pointer designates a digit only when the integer part has more than
three digits. -/
theorem digit_at_cursor (text : List Char) (c : Char)
    (h : (text.drop (cursor_spec text)).head? = some c) (hc : isdigit c = true) :
    3 < (int_run text).length := by
  by_contra hcon
  have hdrop := drop_int_end text
  have e3 : (int_run text).drop 3 = [] := List.drop_eq_nil_of_le (by omega)
  rw [e3, List.nil_append] at hdrop
  unfold cursor_spec at h
  cases hd : text.drop (int_end text) with
  | nil =>
    rw [hd] at h
    simp only [] at h
    rw [hd] at h
    simp at h
  | cons x r =>
    rw [hd] at h
    simp only [] at h
    by_cases hx : x = '.'
    · rw [if_pos hx, Nat.add_assoc, ← List.drop_drop, hd, Nat.add_comm 1,
        List.drop_succ_cons, ← dropWhile_eq_drop] at h
      have := head_dropWhile isdigit r c h
      rw [hc] at this
      exact Bool.noConfusion this
    · rw [if_neg hx, hd] at h
      simp only [List.head?_cons, Option.some.injEq] at h
      have h2 : ((text.dropWhile isspace).dropWhile isdigit).head? = some x := by
        rw [← hdrop, hd]
        rfl
      have := head_dropWhile isdigit _ x h2
      rw [h, hc] at this
      exact Bool.noConfusion this

theorem spec_S_range (text : List Char) : 0 < spec_S text ∧ spec_S text ≤ 100000 := by
  have h := parse_deg_spec text
  rw [parse_deg_eq] at h
  obtain ⟨g, hg, hS, _⟩ := h
  simp only [] at hS
  rw [hS]
  constructor
  · exact Nat.pos_pow_of_pos _ (by norm_num)
  · calc 10 ^ g ≤ 10 ^ 5 := Nat.pow_le_pow_right (by norm_num) hg
      _ = 100000 := by norm_num

theorem spec_N_lt (text : List Char) : spec_N text < 360 * spec_S text := by
  have h := parse_deg_spec text
  rw [parse_deg_eq] at h
  obtain ⟨g, _, _, hN⟩ := h
  exact hN

/-- The turn of the deserialiser: the quotient by `180 * S`, rounded down, is halved
and rounded half up, and the result is reduced to `bit_width` bits. -/
theorem deserialize_value (force_32bit : Bool) (text : List Char) {bw : Nat} (hbw : bw ≤ 22) :
    (deserialize_turn_from_deg force_32bit text bw).1 =
      (spec_N text * 2 ^ bw / (180 * spec_S text) + 1) / 2 % 2 ^ bw := by
  obtain ⟨hS0, hS5⟩ := spec_S_range text
  have hN := spec_N_lt text
  have hB := two_pow_le_22 hbw
  have hBpos := two_pow_pos bw
  unfold deserialize_turn_from_deg
  simp only [parse_deg_eq]
  have hK : 0 < spec_S text * 180 := by omega
  rw [u32_of_lt (by omega), div_paths hK (by omega) (by omega) hbw, mask_eq hbw,
    Nat.and_one_is_mod, Nat.mul_comm 180]
  have hq : spec_N text * 2 ^ bw / (spec_S text * 180) < 2 * 2 ^ bw := by
    rw [Nat.div_lt_iff_lt_mul hK]
    nlinarith
  generalize spec_N text * 2 ^ bw / (spec_S text * 180) = q at *
  split_ifs with hodd
  · rw [u32_of_lt (by omega)]
    congr 1
    omega
  · congr 1
    omega

/-- The division of zero degrees is zero on both paths, whatever the bit width. -/
theorem div_zero (S bw : Nat) (force_32bit : Bool) :
    (if force_32bit then div_serial 0 S bw else div_wide 0 S bw) = 0 := by
  have hloop : ∀ n, div_serial_loop S n 0 0 = 0 := by
    intro n
    induction n with
    | zero => rfl
    | succ n ih =>
      unfold div_serial_loop
      simp only [Nat.zero_div, Nat.zero_mul]
      exact ih
  cases force_32bit with
  | true => exact hloop _
  | false =>
    simp only [Bool.false_eq_true, if_false]
    unfold div_wide u64 u32
    simp

/-- A text that starts with a character that is neither white space, a digit nor a
point is not read at all. -/
theorem parse_deg_stop (c : Char) (rest : List Char) (hs : isspace c = false)
    (hd : isdigit c = false) (hp : c ≠ '.') : parse_deg (c :: rest) = (1, 0, c :: rest) := by
  unfold parse_deg
  simp [skip_space, parse_int, hs, hd, hp]

/-! ## Texts with five fractional digits -/

theorem isspace_of_isdigit {c : Char} (h : isdigit c = true) : isspace c = false := by
  by_contra hs
  have hs' : isspace c = true := by simpa using hs
  unfold isspace at hs'
  simp only [Bool.or_eq_true, decide_eq_true_eq] at hs'
  rcases hs' with ((((rfl | rfl) | rfl) | rfl) | rfl) | rfl <;> exact absurd h (by decide)

theorem takeWhile_append_all {α : Type} (p : α → Bool) (xs ys : List α)
    (hx : ∀ x ∈ xs, p x = true) : (xs ++ ys).takeWhile p = xs ++ ys.takeWhile p := by
  induction xs with
  | nil => rfl
  | cons x xs ih =>
    rw [List.cons_append, List.takeWhile_cons, if_pos (hx x (List.mem_cons_self _ _)),
      ih fun z hz => hx z (List.mem_cons_of_mem _ hz), List.cons_append]

theorem skip_space_append (ws l : List Char) (hws : ∀ c ∈ ws, isspace c = true) :
    skip_space (ws ++ l) = skip_space l := by
  induction ws with
  | nil => rfl
  | cons x xs ih =>
    rw [List.cons_append]
    conv_lhs => unfold skip_space
    rw [if_pos (hws x (List.mem_cons_self _ _))]
    exact ih fun z hz => hws z (List.mem_cons_of_mem _ hz)

/-- A text made of white space, at most three digits, a point, five digits and
anything else is read as the integer part modulo 360 followed by the five digits,
with `S = 10 ^ 5`. -/
theorem parse_five (ws ds f5 t : List Char) (hws : ∀ c ∈ ws, isspace c = true)
    (hds : ∀ c ∈ ds, isdigit c = true) (hlen : ds.length ≤ 3)
    (hf : ∀ c ∈ f5, isdigit c = true) (hf5 : f5.length = 5) :
    (parse_deg (ws ++ (ds ++ '.' :: (f5 ++ t)))).1 = 10 ^ 5 ∧
      (parse_deg (ws ++ (ds ++ '.' :: (f5 ++ t)))).2.1 =
        chars_val ds % 360 * 10 ^ 5 + chars_val f5 := by
  have h1 : skip_space (ws ++ (ds ++ '.' :: (f5 ++ t))) = ds ++ '.' :: (f5 ++ t) := by
    rw [skip_space_append ws _ hws]
    cases ds with
    | nil =>
      rw [List.nil_append]
      unfold skip_space
      rw [if_neg (by decide)]
    | cons d ds =>
      rw [List.cons_append]
      unfold skip_space
      rw [if_neg (by rw [isspace_of_isdigit (hds d (List.mem_cons_self _ _))]; decide)]
  have h2 : (ds ++ '.' :: (f5 ++ t)).takeWhile isdigit = ds :=
    takeWhile_append_stop isdigit ds _ hds (Or.inr ⟨_, _, rfl, by decide⟩)
  have h3 : parse_int (ds ++ '.' :: (f5 ++ t)) 0 0 = (chars_val ds, '.' :: (f5 ++ t)) := by
    have h := parse_int_eq (ds ++ '.' :: (f5 ++ t)) 0 0 (by omega) (by norm_num)
    rw [h2, Nat.sub_zero, List.take_of_length_le hlen, Nat.min_eq_right hlen,
      List.drop_left] at h
    exact h
  have hv : chars_val ds % 360 < 360 * 1 := by
    have := Nat.mod_lt (chars_val ds) (show 0 < 360 by norm_num)
    omega
  have h4 : (f5 ++ t).takeWhile isdigit = f5 ++ t.takeWhile isdigit :=
    takeWhile_append_all isdigit f5 t hf
  have h5 := parse_frac_eq (f5 ++ t) 0 1 (chars_val ds % 360) (by omega) (by norm_num) hv
  rw [h4, Nat.sub_zero, List.length_append, hf5, ← hf5, List.take_left, foldl_digits, hf5,
    Nat.min_eq_left (by omega)] at h5
  unfold parse_deg
  simp only [h1, h3, if_true]
  have h6 : parse_frac (f5 ++ t) 1 (chars_val ds % 360) 0 =
      parse_frac (f5 ++ t) 1 (chars_val ds % 360) ((0 : Nat) : Int) := rfl
  rw [h6, h5]
  exact ⟨rfl, rfl⟩

/-- The turn depends on the text through `S` and `deg` only. -/
theorem deserialize_congr (force_32bit : Bool) (t1 t2 : List Char) (bw : Nat)
    (hS : (parse_deg t1).1 = (parse_deg t2).1) (hdeg : (parse_deg t1).2.1 = (parse_deg t2).2.1) :
    (deserialize_turn_from_deg force_32bit t1 bw).1 =
      (deserialize_turn_from_deg force_32bit t2 bw).1 := by
  unfold deserialize_turn_from_deg
  simp only [hS, hdeg]

/-! ## The passes of the bit-serial division -/

theorem div_serial_trace_length (S : Nat) :
    ∀ (n R t : Nat), (div_serial_trace S n R t).length = n := by
  intro n
  induction n with
  | zero => intro R t; rfl
  | succ n ih =>
    intro R t
    unfold div_serial_trace
    simp only [List.length_cons, ih]

/-- Every pass of the bit-serial division stays within 32 bits. -/
theorem div_serial_trace_fits {S : Nat} (hS : 0 < S) (hS32 : 2 * S < 4294967296) :
    ∀ (n R t : Nat), R < 2 * S → (t + 1) * 2 ^ n ≤ 4294967296 →
      ∀ p ∈ div_serial_trace S n R t, p.fits := by
  intro n
  induction n with
  | zero =>
    intro R t _ _ p hp
    simp [div_serial_trace] at hp
  | succ n ih =>
    intro R t hR ht p hp
    have hU : R / S ≤ 1 := by
      have : R / S < 2 := (Nat.div_lt_iff_lt_mul hS).2 hR
      omega
    have hmod : R % S < S := Nat.mod_lt _ hS
    have hdm : S * (R / S) + R % S = R := Nat.div_add_mod _ _
    have hUS : R / S * S ≤ R := Nat.div_mul_le_self _ _
    have e1 : u32 (R / S * S) = R / S * S := u32_of_lt (by omega)
    have e2 : sub32 R (R / S * S) = R % S := by
      rw [sub32_of_le (by omega) hUS]
      have : S * (R / S) = R / S * S := Nat.mul_comm _ _
      omega
    have hpow : 1 ≤ 2 ^ n := Nat.one_le_two_pow
    have ht2 : (t + 1) * 2 ≤ 4294967296 := by
      rw [pow_succ] at ht
      nlinarith
    have e3 : u32 ((R % S) <<< 1) = 2 * (R % S) := by
      rw [Nat.shiftLeft_eq, pow_one, u32_of_lt (by omega), Nat.mul_comm]
    have e4 : u32 (t <<< 1) ||| R / S = 2 * t + R / S := by
      rw [Nat.shiftLeft_eq, pow_one, u32_of_lt (by omega), Nat.mul_comm t 2]
      have := Nat.mul_add_lt_is_or (show R / S < 2 ^ 1 by omega) t
      rw [pow_one] at this
      exact this.symm
    unfold div_serial_trace at hp
    simp only [e1, e2, e3, e4, List.mem_cons] at hp
    rcases hp with rfl | hp
    · unfold DivPass.fits
      simp only []
      omega
    · exact ih _ _ (by omega) (by
        rw [pow_succ] at ht
        nlinarith) p hp

/-- The two branches of the `#if` give the same result on every text. -/
theorem deserialize_paths (text : List Char) {bw : Nat} (hbw : bw ≤ 22) :
    deserialize_turn_from_deg true text bw = deserialize_turn_from_deg false text bw := by
  obtain ⟨hS0, hS5⟩ := spec_S_range text
  have hN := spec_N_lt text
  have hK : 0 < spec_S text * 180 := by omega
  have h1 := @div_paths (spec_N text) (spec_S text * 180) bw hK (by omega) (by omega) hbw true
  have h2 := @div_paths (spec_N text) (spec_S text * 180) bw hK (by omega) (by omega) hbw false
  simp only [if_true, Bool.false_eq_true, if_false] at h1 h2
  unfold deserialize_turn_from_deg
  simp only [parse_deg_eq, if_true, Bool.false_eq_true, if_false]
  rw [u32_of_lt (by omega), h1, h2]

/-! ## Parameters out of range -/

/-- The generator depends on its bit width and place through their clamped values
only. -/
theorem conv_turn_congr (mem : Mem) (buf turn : Nat) {bw1 bw2 : Nat} {p1 p2 : Int}
    (hb : PARAM_CHECK_uint bw1 1 22 = PARAM_CHECK_uint bw2 1 22)
    (hp : PARAM_CHECK_int p1 (-5) 2 = PARAM_CHECK_int p2 (-5) 2) :
    conv_turn_to_deg_digit_array mem buf turn bw1 p1 =
      conv_turn_to_deg_digit_array mem buf turn bw2 p2 := by
  unfold conv_turn_to_deg_digit_array
  simp only [SERDES_TURN_DEG_MIN_PLACE, SERDES_TURN_DEG_MAX_PLACE,
    SERDES_TURN_DEG_MAX_PRECISION, SERDES_TURN_DEG_MIN_PRECISION,
    SERDES_TURN_DEG_MIN_BIT_WIDTH, SERDES_TURN_DEG_MAX_BIT_WIDTH, Int.neg_neg] at *
  rw [hb, hp]

theorem clamp_width_high {bw : Nat} (h : 22 < bw) :
    PARAM_CHECK_uint bw 1 22 = PARAM_CHECK_uint 22 1 22 := by
  unfold PARAM_CHECK_uint
  simp only [if_pos h]
  rfl

theorem clamp_width_zero : PARAM_CHECK_uint 0 1 22 = PARAM_CHECK_uint 1 1 22 := rfl

theorem clamp_place_low {p : Int} (h : 5 < p) :
    PARAM_CHECK_int (-p) (-5) 2 = PARAM_CHECK_int (-5) (-5) 2 := by
  unfold PARAM_CHECK_int
  simp only []
  split_ifs <;> omega

theorem clamp_place_high {p : Int} (h : p < -2) :
    PARAM_CHECK_int (-p) (-5) 2 = PARAM_CHECK_int (-(-2)) (-5) 2 := by
  unfold PARAM_CHECK_int
  simp only []
  split_ifs <;> omega

/-- The three serialisers depend on the bit width and the precision through their
clamped values only. -/
theorem serialize_congr (mem : Mem) (buf turn : Nat) {bw1 bw2 : Nat} {p1 p2 : Int}
    (hb : PARAM_CHECK_uint bw1 1 22 = PARAM_CHECK_uint bw2 1 22)
    (hp : PARAM_CHECK_int (-p1) (-5) 2 = PARAM_CHECK_int (-p2) (-5) 2) :
    serialize_turn_to_deg mem buf turn bw1 = serialize_turn_to_deg mem buf turn bw2 ∧
      serialize_turn_to_deg_p mem buf turn bw1 p1 =
        serialize_turn_to_deg_p mem buf turn bw2 p2 ∧
      serialize_turn_to_deg_ps mem buf turn bw1 p1 =
        serialize_turn_to_deg_ps mem buf turn bw2 p2 := by
  unfold serialize_turn_to_deg serialize_turn_to_deg_p serialize_turn_to_deg_ps
  simp only [conv_turn_congr mem (buf + 1) turn hb hp,
    conv_turn_congr mem (buf + 1) turn hb (rfl : PARAM_CHECK_int SERDES_TURN_DEG_MAX_PLACE (-5) 2 = _)]
  exact ⟨trivial, trivial, trivial⟩

theorem clamp_width_range (bw : Nat) : PARAM_CHECK_uint bw 1 22 ≤ 22 := by
  unfold PARAM_CHECK_uint
  simp only []
  split_ifs <;> omega

/-- The generator sees the turn through its lowest bits only, as many as the clamped
bit width. -/
theorem conv_turn_mask (mem : Mem) (buf turn bw : Nat) (p : Int) :
    conv_turn_to_deg_digit_array mem buf turn bw p =
      conv_turn_to_deg_digit_array mem buf (turn % 2 ^ PARAM_CHECK_uint bw 1 22) bw p := by
  have hw := clamp_width_range bw
  have hB := two_pow_le_22 hw
  have e : ∀ t, u32 t &&& sub32 (shl1 (PARAM_CHECK_uint bw 1 22)) 1 =
      t % 2 ^ PARAM_CHECK_uint bw 1 22 := by
    intro t
    rw [mask_eq hw]
    unfold u32
    apply Nat.mod_mod_of_dvd
    exact (Nat.pow_dvd_pow_iff_le_right (by norm_num)).2 (by omega : PARAM_CHECK_uint bw 1 22 ≤ 32)
  unfold conv_turn_to_deg_digit_array
  simp only [SERDES_TURN_DEG_MIN_BIT_WIDTH, SERDES_TURN_DEG_MAX_BIT_WIDTH]
  rw [e turn, e (turn % 2 ^ PARAM_CHECK_uint bw 1 22), Nat.mod_mod]

/-- The three serialisers see the turn through its lowest bits only. -/
theorem serialize_mask (mem : Mem) (buf turn bw : Nat) (p : Int) :
    serialize_turn_to_deg mem buf turn bw =
        serialize_turn_to_deg mem buf (turn % 2 ^ PARAM_CHECK_uint bw 1 22) bw ∧
      serialize_turn_to_deg_p mem buf turn bw p =
        serialize_turn_to_deg_p mem buf (turn % 2 ^ PARAM_CHECK_uint bw 1 22) bw p ∧
      serialize_turn_to_deg_ps mem buf turn bw p =
        serialize_turn_to_deg_ps mem buf (turn % 2 ^ PARAM_CHECK_uint bw 1 22) bw p := by
  unfold serialize_turn_to_deg serialize_turn_to_deg_p serialize_turn_to_deg_ps
  simp only [← conv_turn_mask]
  exact ⟨trivial, trivial, trivial⟩

/-! ## The direct converter -/

/-- Truncation of a quotient of natural numbers is the division of natural numbers. -/
theorem trunc_nat_div (n d : Nat) : trunc ((n : ℚ) / (d : ℚ)) = ((n / d : Nat) : Int) := by
  have hx : (0 : ℚ) ≤ (n : ℚ) / (d : ℚ) := by positivity
  unfold trunc
  rw [Int.tdiv_eq_ediv (Rat.num_nonneg.2 hx) (by positivity), ← Rat.floor_def,
    ← Int.cast_natCast n, Rat.floor_intCast_div_natCast]
  push_cast
  rfl

/-- The direct converter on the number `deg / S10` of degrees, when that number is
within half a step of the turn `T`. -/
theorem conv_deg_of_near {bw T S10 deg : Nat} (hS10 : 0 < S10) (hb1 : 1 ≤ bw) (hbw : bw ≤ 22)
    (hT : T < 2 ^ bw)
    (h1 : 360 * S10 * T ≤ deg * 2 ^ bw + 180 * S10)
    (h2 : deg * 2 ^ bw < 360 * S10 * T + 180 * S10) :
    conv_deg_to_turn ((deg : ℚ) / (S10 : ℚ)) bw = T := by
  have hB := two_pow_le_22 hbw
  have hBpos := two_pow_pos bw
  have hdeg : deg < S10 * 360 := by
    by_contra hcon
    have : 360 * S10 * 2 ^ bw ≤ deg * 2 ^ bw := by nlinarith
    have : 360 * S10 * (T + 1) ≤ 360 * S10 * 2 ^ bw := Nat.mul_le_mul_left _ (by omega)
    nlinarith
  have hS10q : (S10 : ℚ) ≠ 0 := by
    have : (0 : ℚ) < (S10 : ℚ) := by exact_mod_cast hS10
    exact ne_of_gt this
  have e0 : (deg : ℚ) / (S10 : ℚ) / 360 = ((deg : Nat) : ℚ) / ((S10 * 360 : Nat) : ℚ) := by
    push_cast
    field_simp
  have e1 : fmod ((deg : ℚ) / (S10 : ℚ)) 360 = (deg : ℚ) / (S10 : ℚ) := by
    unfold fmod
    rw [e0, trunc_nat_div, Nat.div_eq_of_lt hdeg]
    simp
  have e2 : (deg : ℚ) / (S10 : ℚ) * ((2 ^ bw : Nat) : ℚ) =
      ((deg * 2 ^ bw : Nat) : ℚ) / (S10 : ℚ) := by
    push_cast
    field_simp
  have hq : deg * 2 ^ bw / S10 / 180 < 2 * 2 ^ bw := by
    rw [Nat.div_div_eq_div_mul, Nat.div_lt_iff_lt_mul (by omega)]
    nlinarith
  have e3 : int_to_u32 (Int.tdiv ((deg * 2 ^ bw / S10 : Nat) : Int) 180) =
      deg * 2 ^ bw / (S10 * 180) := by
    rw [Int.tdiv_eq_ediv (by positivity) (by norm_num)]
    unfold int_to_u32
    rw [← Nat.div_div_eq_div_mul]
    have : ((deg * 2 ^ bw / S10 : Nat) : Int) / 180 = ((deg * 2 ^ bw / S10 / 180 : Nat) : Int) := by
      push_cast
      rfl
    rw [this]
    generalize deg * 2 ^ bw / S10 / 180 = q at hq
    omega
  have hP : PARAM_CHECK_uint bw 1 22 = bw := by
    unfold PARAM_CHECK_uint
    simp only []
    split_ifs <;> omega
  unfold conv_deg_to_turn
  simp only [SERDES_TURN_DEG_MIN_BIT_WIDTH, SERDES_TURN_DEG_MAX_BIT_WIDTH, hP, e1,
    shl1_eq hbw, e2, trunc_nat_div, e3]
  exact round_half_eq (X := deg * 2 ^ bw) (K := S10 * 180) (T := T) (by omega)
    (by nlinarith) (by nlinarith) (by omega)

theorem digit_char_val {d : Nat} (h : d ≤ 9) :
    (Char.ofNat ((48 + d) % 256)).toNat - ('0').toNat = d := by
  interval_cases d <;> decide

theorem digit_char_nat {d : Nat} (h : d ≤ 9) : (Char.ofNat ((48 + d) % 256)).toNat = 48 + d := by
  interval_cases d <;> decide

theorem foldl_dval (xs : List Nat) :
    ∀ a, xs.foldl (fun a d => 10 * a + d) a = a * 10 ^ xs.length + dval xs := by
  induction xs with
  | nil =>
    intro a
    simp [dval]
  | cons x xs ih =>
    intro a
    unfold dval
    rw [List.foldl_cons, List.foldl_cons, ih, ih (10 * 0 + x), List.length_cons, pow_succ]
    ring

/-- The characters of a run of digits denote the number the digits denote. -/
theorem chars_val_digits (xs : List Nat) (h9 : ∀ d ∈ xs, d ≤ 9) :
    chars_val (xs.map fun d => Char.ofNat ((48 + d) % 256)) = dval xs := by
  unfold chars_val dval
  generalize (0 : Nat) = a
  induction xs generalizing a with
  | nil => rfl
  | cons x xs ih =>
    rw [List.map_cons, List.foldl_cons, List.foldl_cons,
      digit_char_val (h9 x (List.mem_cons_self _ _))]
    exact ih (fun d hd => h9 d (List.mem_cons_of_mem _ hd)) _

/-- The integer part without its leading zeros denotes the number of its three
digits. -/
theorem chars_val_int3 {a b c : Nat} (ha : a ≤ 9) (hb : b ≤ 9) (hc : c ≤ 9) :
    chars_val ((fmt_int3 a b c).map fun b => Char.ofNat (b % 256)) = 100 * a + 10 * b + c := by
  have e : ('0').toNat = 48 := rfl
  unfold fmt_int3 chars_val
  rw [e]
  split_ifs with h1 h2
  · simp only [List.map_cons, List.map_nil, List.foldl_cons, List.foldl_nil,
      digit_char_nat ha, digit_char_nat hb, digit_char_nat hc]
    omega
  · simp only [List.map_cons, List.map_nil, List.foldl_cons, List.foldl_nil,
      digit_char_nat hb, digit_char_nat hc]
    have : a = 0 := by simpa using h1
    omega
  · simp only [List.map_cons, List.map_nil, List.foldl_cons, List.foldl_nil,
      digit_char_nat hc]
    have : a = 0 := by simpa using h1
    have : b = 0 := by simpa using h2
    omega

/-- The number a rendering denotes is the number of its digit array, the first digit
at the place 2. -/
theorem decimal_render (ds : List Nat) (h9 : ∀ d ∈ ds, d ≤ 9) :
    decimal_value ((render_bytes ds).map Char.ofNat) =
      ((dval ds * 10 ^ (3 - ds.length) : Nat) : ℚ) / ((10 ^ (ds.length - 3) : Nat) : ℚ) := by
  have ha := getD_le9 ds h9 0
  have hb := getD_le9 ds h9 1
  have hc := getD_le9 ds h9 2
  have hip := int_part_render ds h9
  have hipl : ((fmt_int3 (ds.getD 0 0) (ds.getD 1 0) (ds.getD 2 0)).map
      fun b => Char.ofNat (b % 256)).length =
      (fmt_int3 (ds.getD 0 0) (ds.getD 1 0) (ds.getD 2 0)).length := List.length_map _ _
  unfold decimal_value
  rw [hip, chars_val_int3 ha hb hc, render_split, List.drop_append_eq_append_drop,
    List.drop_of_length_le (by omega), List.nil_append, hipl,
    show (fmt_int3 (ds.getD 0 0) (ds.getD 1 0) (ds.getD 2 0)).length + 1 -
      (fmt_int3 (ds.getD 0 0) (ds.getD 1 0) (ds.getD 2 0)).length = 1 by omega]
  by_cases hl : ds.length ≤ 3
  · rw [if_pos hl, Nat.sub_eq_zero_of_le hl]
    simp only [List.drop_nil, chars_val, List.foldl_nil, List.length_nil, pow_zero,
      Nat.cast_zero, zero_div, add_zero, Nat.cast_one, div_one]
    congr 1
    rcases ds with _ | ⟨d0, _ | ⟨d1, _ | ⟨d2, _ | ⟨d3, r⟩⟩⟩⟩
    · simp [dval]
    · simp [dval]
      omega
    · simp [dval]
      omega
    · simp [dval]
      omega
    · simp at hl
  · rw [if_neg hl]
    rcases ds with _ | ⟨d0, _ | ⟨d1, _ | ⟨d2, r⟩⟩⟩
    · simp at hl
    · simp at hl
    · simp at hl
    · have hr : ∀ d ∈ r, d ≤ 9 := fun d hd =>
        h9 d (List.mem_cons_of_mem _ (List.mem_cons_of_mem _ (List.mem_cons_of_mem _ hd)))
      have hv : dval (d0 :: d1 :: d2 :: r) =
          (100 * d0 + 10 * d1 + d2) * 10 ^ r.length + dval r := by
        unfold dval
        simp only [List.foldl_cons]
        rw [foldl_dval]
        unfold dval
        ring
      simp only [List.drop_succ_cons, List.drop_zero, List.getD_cons_zero, List.getD_cons_succ,
        List.length_cons, List.length_map]
      rw [chars_val_digits r hr, hv]
      have e1 : r.length + 1 + 1 + 1 - 3 = r.length := by omega
      have e2 : 3 - (r.length + 1 + 1 + 1) = 0 := by omega
      rw [e1, e2]
      have hpos : ((10 : ℚ) ^ r.length) ≠ 0 := by positivity
      push_cast
      field_simp

/-- The direct converter reads the number that the text of a serialiser denotes back
as the turn. -/
theorem conv_of_ser_out {r : Mem × Nat} {mem0 : Mem} {buf bw T : Nat} {ds : List Nat}
    (h : SerOut r mem0 buf bw T ds) (hb1 : 1 ≤ bw) (hbw : bw ≤ 22) (hT : T < 2 ^ bw) :
    conv_deg_to_turn (decimal_value (out_str r buf)) bw = T := by
  rw [h.rendered.hstr, decimal_render ds h.h9]
  have hl1 := h.hlen1
  have hl8 := h.hlen8
  have hnear := h.hnear
  generalize ds.length = n at hl1 hl8 hnear ⊢
  generalize dval ds = D at hnear ⊢
  have hpos : 0 < 10 ^ (n - 3) := Nat.pos_pow_of_pos _ (by norm_num)
  apply conv_deg_of_near hpos hb1 hbw hT
  · obtain ⟨h1, _⟩ := hnear
    interval_cases n <;> simp at h1 ⊢ <;> nlinarith
  · obtain ⟨_, h2⟩ := hnear
    interval_cases n <;> simp at h2 ⊢ <;> nlinarith

/-! ## The rounding rule of the deserialiser -/

/-- Halving the quotient by `K` with rounding half up is rounding the quotient by
`2 * K` half up. -/
theorem half_quotient (X K : Nat) (hK : 0 < K) :
    (X / K + 1) / 2 = round_half_up X (2 * K) := by
  unfold round_half_up
  have e1 : 2 * X + 2 * K = 2 * (X + K) := by ring
  rw [e1, Nat.mul_div_mul_left _ _ (by norm_num : 0 < 2), Nat.mul_comm 2 K,
    ← Nat.div_div_eq_div_mul, Nat.add_div_right _ hK]

/-- Rounding half up is the floor of the quotient plus one half. -/
theorem round_half_up_floor (a b : Nat) (hb : 0 < b) :
    round_half_up a b = ⌊((a : ℚ) / (b : ℚ) + 1 / 2)⌋₊ := by
  unfold round_half_up
  have hbq : (b : ℚ) ≠ 0 := by
    have : (0 : ℚ) < (b : ℚ) := by exact_mod_cast hb
    exact ne_of_gt this
  have e : (a : ℚ) / (b : ℚ) + 1 / 2 = ((2 * a + b : Nat) : ℚ) / ((2 * b : Nat) : ℚ) := by
    push_cast
    field_simp
    ring
  rw [e, Nat.floor_div_eq_div]

/-! ## Texts that end at a coarser place -/

/-- A text that denotes a multiple of `10 ^ (2 - j)` degrees, for a place `2 - j`
above the lowest place of the digits generated for the turn from the place 2, is
not deserialised to that turn. -/
theorem coarser_not_deserialized (force_32bit : Bool) (mem : Mem)
    (buf turn bw : Nat) (hb1 : 1 ≤ bw) (hb2 : bw ≤ 22)
    (hturn : turn < 2 ^ bw) (text : List Char) (j n : Nat)
    (hplace : (conv_turn_to_deg_digit_array mem (buf + 1) turn bw
      SERDES_TURN_DEG_MAX_PLACE).2 < 2 - (j : Int))
    (hmult : (parse_deg text).2.1 * 10 ^ j = 100 * (parse_deg text).1 * n) :
    (deserialize_turn_from_deg force_32bit text bw).1 ≠ turn := by
  obtain ⟨ds, _, hmin, hlen, _⟩ := serialize_out mem buf turn bw hb1 hb2
  rw [Nat.mod_eq_of_lt hturn] at hmin
  have hu := hmin j (by omega)
  have hT0 : turn ≠ 0 := by
    intro h0
    subst h0
    obtain ⟨u1, _⟩ := hu
    have hpos : 0 < 10 ^ j := Nat.pos_pow_of_pos _ (by norm_num)
    simp at u1
  intro hdes
  obtain ⟨h1, h2⟩ := near_of_deserialize force_32bit text hb2 hturn hT0 hdes
  obtain ⟨g, _, hS, _⟩ := parse_deg_spec text
  have hSpos : 0 < (parse_deg text).1 := by
    rw [hS]
    exact Nat.pos_pow_of_pos _ (by norm_num)
  generalize (parse_deg text).1 = S10 at *
  generalize (parse_deg text).2.1 = deg at *
  have h1P := Nat.mul_le_mul_right (10 ^ j) h1
  have h2P := Nat.mul_lt_mul_of_pos_right h2 (Nat.pos_pow_of_pos j (show 0 < 10 by norm_num))
  apply @not_near_of_unresolved bw turn j n hu
  constructor
  · apply Nat.le_of_mul_le_mul_left _ hSpos
    nlinarith
  · apply @Nat.lt_of_mul_lt_mul_left S10
    nlinarith

/-- The digits of `n` as the cells of a memory. -/
theorem digits_to_cells (n p : Nat) :
    digits_to n p = cells (fun i => n / 10 ^ (p - i) % 10) 0 (p + 1) := by
  unfold digits_to cells
  simp

/-- The parser reads the decimal text of `n * 10 ^ (2 - p)` degrees, below 360, as
this number. -/
theorem parse_decimal_text (n p : Nat) (hp : p ≤ 7) (hn : 100 * n < 360 * 10 ^ p) :
    parse_deg (decimal_text n p) = (10 ^ (p - 2), n * 10 ^ (2 - p), []) := by
  have hlt : n < 10 ^ (p + 1) := by
    rw [pow_succ]
    omega
  have hdig : holds_digits (fun i => n / 10 ^ (p - i) % 10) 0 (p + 1) n := by
    intro i _
    simp
  obtain ⟨hval, h9⟩ := dval_cells _ 0 (p + 1) n hdig hlt
  have h := parse_render (fun i => n / 10 ^ (p - i) % 10) 0 p hp
    (fun i hi => h9 i (by omega)) (by rw [hval]; exact hn)
  rw [hval, ← digits_to_cells] at h
  exact h

/-! ## The contract of the carry pass -/

/-- Cells that hold decimal digits hold the digits of the number they denote. -/
theorem holds_digits_of_le9 (m : Mem) (da : Nat) :
    ∀ n, (∀ i, i < n → m (da + i) ≤ 9) →
      holds_digits m da n (dval (cells m da n)) ∧ dval (cells m da n) < 10 ^ n := by
  intro n
  induction n with
  | zero =>
    intro _
    refine ⟨fun i hi => by omega, ?_⟩
    simp [cells, dval]
  | succ n ih =>
    intro h9
    obtain ⟨hd, hlt⟩ := ih fun i hi => h9 i (by omega)
    rw [cells_snoc, dval_snoc]
    refine ⟨holds_digits_push hd (h9 n (by omega)) rfl, ?_⟩
    have := h9 n (by omega)
    rw [pow_succ]
    omega

/-- The carry loop changes a cell only along the chain of carries: the last cell
held 10 and every cell between held 9. -/
theorem carry_loop_chain (da : Nat) :
    ∀ (j : Nat) (k : Int) (m : Mem), k = 2 - (j : Int) → (∀ i, i < j → m (da + i) ≤ 9) →
      ∀ q, carry_loop da j m k q ≠ m q →
        ∃ i, i ≤ j ∧ q = da + i ∧ m (da + j) = 10 ∧ ∀ l, i < l → l < j → m (da + l) = 9 := by
  intro j
  induction j with
  | zero =>
    intro k m _ _ q hq
    exact absurd rfl hq
  | succ j ih =>
    intro k m hk h9 q hq
    have hk2 : k < SERDES_TURN_DEG_MAX_PLACE := by
      unfold SERDES_TURN_DEG_MAX_PLACE SERDES_TURN_DEG_MIN_PRECISION
      push_cast at hk
      omega
    have hi1 : BUF_INDEX k = j + 1 := by rw [hk, BUF_INDEX_eq]
    have hk1 : k + 1 = 2 - (j : Int) := by
      push_cast at hk
      omega
    have hi2 : BUF_INDEX (k + 1) = j := by rw [hk1, BUF_INDEX_eq]
    unfold carry_loop at hq
    rw [if_pos hk2, hi1, hi2] at hq
    by_cases h10 : m (da + (j + 1)) = 10
    · rw [if_pos h10] at hq
      have e1 : store m (da + (j + 1)) 0 (da + j) = m (da + j) := store_other _ _ (by omega)
      rw [e1] at hq
      have hmj := h9 j (by omega)
      by_cases hch : carry_loop da j (store (store m (da + (j + 1)) 0) (da + j) (m (da + j) + 1))
          (k + 1) q = store (store m (da + (j + 1)) 0) (da + j) (m (da + j) + 1) q
      · rw [hch] at hq
        by_cases hq1 : q = da + j
        · exact ⟨j, by omega, hq1, h10, fun l h1 h2 => by omega⟩
        · by_cases hq2 : q = da + (j + 1)
          · exact ⟨j + 1, by omega, hq2, h10, fun l h1 h2 => by omega⟩
          · rw [store_other _ _ hq1, store_other _ _ hq2] at hq
            exact absurd rfl hq
      · obtain ⟨i, hi, hqi, hlast, hbetween⟩ := ih (k + 1) _ hk1
          (fun i hi => by
            rw [store_other _ _ (by omega), store_other _ _ (by omega)]
            exact h9 i (by omega)) q hch
        rw [store_same] at hlast
        refine ⟨i, by omega, hqi, h10, fun l h1 h2 => ?_⟩
        by_cases hl : l = j
        · subst hl
          omega
        · have := hbetween l h1 (by omega)
          rw [store_other _ _ (by omega), store_other _ _ (by omega)] at this
          exact this
    · rw [if_neg h10] at hq
      exact absurd rfl hq

/-- Digits that denote less than 360 do not start with 3 and 6. -/
theorem not_36 {m : Mem} {da j V : Nat} (hj : 1 ≤ j) (hd : holds_digits m da (j + 1) V)
    (h360 : 100 * V < 360 * 10 ^ j) : ¬ (m (da + 0) = 3 ∧ m (da + 1) = 6) := by
  obtain ⟨p, rfl⟩ : ∃ p, j = p + 1 := ⟨j - 1, by omega⟩
  have h0 := hd 0 (by omega)
  have h1 := hd 1 (by omega)
  simp only [Nat.add_sub_cancel, Nat.sub_zero] at h0 h1
  have hP : 0 < 10 ^ p := Nat.pos_pow_of_pos _ (by norm_num)
  rw [pow_succ] at h0 h360
  rw [← Nat.div_div_eq_div_mul] at h0
  have hb := Nat.div_mul_le_self V (10 ^ p)
  have hlt : V / 10 ^ p < 100 := by
    rw [Nat.div_lt_iff_lt_mul hP]
    omega
  rintro ⟨e0, e1⟩
  rw [e0] at h0
  rw [e1] at h1
  generalize V / 10 ^ p = b at *
  have : b = 36 := by omega
  subst this
  omega

/-! ## The assertions of the generator -/

theorem gen_loop_assert_stop (buf S : Nat) (place : Int) (fuel : Nat) (s : GenState) (n : Nat)
    (h : s.low = true ∨ s.high = true) : gen_loop_assert buf S place fuel s n = some (s, n) := by
  have hn : ¬ (s.low = false ∧ s.high = false) := by
    intro hh
    rcases h with h | h
    · rw [hh.1] at h
      exact Bool.noConfusion h
    · rw [hh.2] at h
      exact Bool.noConfusion h
  cases fuel with
  | zero =>
    unfold gen_loop_assert
    rw [if_neg hn]
  | succ f =>
    unfold gen_loop_assert
    rw [if_neg hn]

/-- The loop with assertions, started before the pass `j` with fuel for the passes
that are left, ends without a failed assertion in the state in which the loop
without assertions ends, after the pass `j'`. -/
theorem gen_loop_assert_spec {mem0 : Mem} {da B T : Nat} {place : Int}
    (hB : 0 < B) (hB22 : B ≤ 4194304) (hplace : -5 ≤ place) :
    ∀ (fuel j D : Nat) (s : GenState) (n : Nat), j ≤ 7 → 8 ≤ j + fuel →
      GenInv mem0 da B T place j D s →
      ∃ j' D' u, j ≤ j' ∧
        gen_loop_assert da (100 * B) place fuel s n =
          some (gen_loop da (100 * B) place fuel s, n + (j' + 1 - j)) ∧
        GenPost mem0 da B T place j' D' u (gen_loop da (100 * B) place fuel s) := by
  intro fuel
  induction fuel with
  | zero =>
    intro j D s n hj hf _
    omega
  | succ f ih =>
    intro j D s n hj hf inv
    obtain ⟨hk, hstep⟩ := gen_step hB hB22 hplace hj inv
    have hge : (gen_body da (100 * B) place s).k ≥ SERDES_TURN_DEG_MIN_PLACE := by
      rw [hk]
      unfold SERDES_TURN_DEG_MIN_PLACE SERDES_TURN_DEG_MAX_PRECISION
      omega
    have hc : s.low = false ∧ s.high = false := ⟨inv.hlow, inv.hhigh⟩
    unfold gen_loop gen_loop_assert
    rw [if_pos hc, if_pos hc]
    simp only []
    rw [if_pos hge]
    by_cases hmin : (gen_body da (100 * B) place s).k = SERDES_TURN_DEG_MIN_PLACE
    · rw [if_pos hmin, if_pos hmin]
      rcases hstep with ⟨_, _, hj7, _⟩ | ⟨hres, u, post⟩
      · rw [hk] at hmin
        unfold SERDES_TURN_DEG_MIN_PLACE SERDES_TURN_DEG_MAX_PRECISION at hmin
        omega
      · rw [if_pos hres]
        refine ⟨j, D, u, by omega, ?_, post⟩
        have e : j + 1 - j = 1 := by omega
        rw [e]
    · rw [if_neg hmin, if_neg hmin]
      rcases hstep with ⟨_, _, hj7, inv'⟩ | ⟨hres, u, post⟩
      · obtain ⟨j', D', u, hjj, hrun, post⟩ := ih (j + 1) _ _ (n + 1) (by omega) (by omega) inv'
        refine ⟨j', D', u, by omega, ?_, post⟩
        rw [hrun]
        have e : n + 1 + (j' + 1 - (j + 1)) = n + (j' + 1 - j) := by omega
        rw [e]
      · rw [gen_loop_stop _ _ _ _ _ hres, gen_loop_assert_stop _ _ _ _ _ _ hres]
        refine ⟨j, D, u, by omega, ?_, post⟩
        have e : j + 1 - j = 1 := by omega
        rw [e]

/-! ## The rounding of the generator -/

/-- The pass that ends the loop rounds half up: the digits then denote the angle
rounded half up at their last place. -/
theorem gen_step_round {mem0 : Mem} {da B T : Nat} {place : Int} {j D u : Nat} {s : GenState}
    (hB : 0 < B) (hB22 : B ≤ 4194304) (hj : j ≤ 7)
    (inv : GenInv mem0 da B T place j D s)
    (hres : (gen_body da (100 * B) place s).low = true ∨
      (gen_body da (100 * B) place s).high = true)
    (hlast : (gen_body da (100 * B) place s).mem (da + j) = u) :
    10 * D + u = (360 * T * 10 ^ j + 50 * B) / (100 * B) ∧
      360 * T * 10 ^ j < 100 * B * (10 * D + u) + 180 * 10 ^ j := by
  obtain ⟨hk, hM, hlow, hhigh, hR, hRlt, hR0, hdig, hframe, hprev, hmin⟩ := inv
  have hP7 : 10 ^ j ≤ 10 ^ 7 := Nat.pow_le_pow_right (by norm_num) hj
  have hS : 0 < 100 * B := by omega
  have hbody := gen_body_eq da (100 * B) place s hS (by omega) (by omega) (by rw [hM]; omega)
  have hk1 : s.k - 1 = 2 - (j : Int) := by omega
  have hdm : 100 * B * (s.R / (100 * B)) + s.R % (100 * B) = s.R := Nat.div_add_mod _ _
  have hr : s.R % (100 * B) < 100 * B := Nat.mod_lt _ hS
  have hU : s.R / (100 * B) ≤ 9 := by
    have : s.R / (100 * B) < 10 := (Nat.div_lt_iff_lt_mul hS).2 (by omega)
    omega
  rw [hk1, BUF_INDEX_eq] at hbody
  rw [hbody] at hres hlast
  simp only [store_same] at hlast
  simp only [] at hres
  generalize s.R / (100 * B) = U at *
  generalize s.R % (100 * B) = r at *
  by_cases hc : 2 - (j : Int) ≤ place
  · simp only [hc, if_true, true_and, decide_eq_true_eq] at hres hlast
    refine ⟨?_, ?_⟩
    rotate_left
    · rw [hM] at hres hlast
      split_ifs at hlast with h
      · have e : (U + 1) % 256 = U + 1 := by omega
        rw [e] at hlast
        subst hlast
        have e2 : 100 * B * (10 * D + (U + 1)) = 100 * B * (10 * D) + 100 * B * U + 100 * B := by
          ring
        rw [e2]
        linarith
      · have e : U % 256 = U := by omega
        rw [e] at hlast
        subst hlast
        have hlo : r < 180 * 10 ^ j := by
          rcases hres with h1 | h1
          · exact h1
          · by_contra h2
            exact h ⟨h1, Or.inl h2⟩
        have e2 : 100 * B * (10 * D + U) = 100 * B * (10 * D) + 100 * B * U := by ring
        rw [e2]
        linarith
    symm
    apply Nat.div_eq_of_lt_le
    · split_ifs at hlast with h
      · have e : (U + 1) % 256 = U + 1 := by omega
        rw [e] at hlast
        subst hlast
        have hr50 : 50 * B ≤ r := by omega
        nlinarith
      · have e : U % 256 = U := by omega
        rw [e] at hlast
        subst hlast
        nlinarith
    · split_ifs at hlast with h
      · have e : (U + 1) % 256 = U + 1 := by omega
        rw [e] at hlast
        subst hlast
        nlinarith
      · have e : U % 256 = U := by omega
        rw [e] at hlast
        subst hlast
        have hr50 : r < 50 * B := by omega
        nlinarith
  · simp only [hc, if_false] at hres
    rw [hlow, hhigh] at hres
    rcases hres with h | h <;> exact Bool.noConfusion h

/-- The loop of the generator ends with digits that denote the angle rounded half up
at the last place. -/
theorem gen_loop_round {mem0 : Mem} {da B T : Nat} {place : Int}
    (hB : 0 < B) (hB22 : B ≤ 4194304) (hplace : -5 ≤ place) :
    ∀ (fuel j D : Nat) (s : GenState), j ≤ 7 → 8 ≤ j + fuel →
      GenInv mem0 da B T place j D s →
      ∃ j' D' u, GenPost mem0 da B T place j' D' u (gen_loop da (100 * B) place fuel s) ∧
        10 * D' + u = (360 * T * 10 ^ j' + 50 * B) / (100 * B) ∧
        360 * T * 10 ^ j' < 100 * B * (10 * D' + u) + 180 * 10 ^ j' := by
  intro fuel
  induction fuel with
  | zero =>
    intro j D s hj hf _
    omega
  | succ n ih =>
    intro j D s hj hf inv
    obtain ⟨hk, hstep⟩ := gen_step hB hB22 hplace hj inv
    unfold gen_loop
    rw [if_pos ⟨inv.hlow, inv.hhigh⟩]
    simp only []
    by_cases hmin : (gen_body da (100 * B) place s).k = SERDES_TURN_DEG_MIN_PLACE
    · rw [if_pos hmin]
      rcases hstep with ⟨_, _, hj7, _⟩ | ⟨hres, u, post⟩
      · rw [hk] at hmin
        unfold SERDES_TURN_DEG_MIN_PLACE SERDES_TURN_DEG_MAX_PRECISION at hmin
        omega
      · exact ⟨j, D, u, post, gen_step_round hB hB22 hj inv hres post.hlast⟩
    · rw [if_neg hmin]
      rcases hstep with ⟨_, _, hj7, inv'⟩ | ⟨hres, u, post⟩
      · exact ih (j + 1) _ _ (by omega) (by omega) inv'
      · rw [gen_loop_stop _ _ _ _ _ hres]
        exact ⟨j, D, u, post, gen_step_round hB hB22 hj inv hres post.hlast⟩

/-- The contract of `conv_turn_to_deg_digit_array` with the rounding: the digits
written denote the angle rounded half up at the returned place. -/
theorem conv_turn_round (mem : Mem) (da turn bw : Nat) (place : Int) (hb1 : 1 ≤ bw)
    (hb2 : bw ≤ 22) (hp1 : -5 ≤ place) (hp2 : place ≤ 2) :
    ∃ (s : GenState) (j D u : Nat),
      conv_turn_to_deg_digit_array mem da turn bw place = (s.mem, s.k) ∧
      GenPost mem da (2 ^ bw) (turn % 2 ^ bw) place j D u s ∧
      10 * D + u = (360 * (turn % 2 ^ bw) * 10 ^ j + 50 * 2 ^ bw) / (100 * 2 ^ bw) ∧
      360 * (turn % 2 ^ bw) * 10 ^ j < 100 * 2 ^ bw * (10 * D + u) + 180 * 10 ^ j := by
  have hB := two_pow_pos bw
  have hB22 := two_pow_le_22 hb2
  have hmask : u32 turn &&& sub32 (shl1 bw) 1 = turn % 2 ^ bw := by
    rw [mask_eq hb2]
    unfold u32
    exact Nat.mod_mod_of_dvd _ (by
      have : (4294967296 : Nat) = 2 ^ 32 := by norm_num
      rw [this]
      exact Nat.pow_dvd_pow 2 (by omega))
  have hT : turn % 2 ^ bw < 2 ^ bw := Nat.mod_lt _ hB
  unfold conv_turn_to_deg_digit_array
  simp only [SERDES_TURN_DEG_MIN_PLACE, SERDES_TURN_DEG_MAX_PLACE, SERDES_TURN_DEG_MAX_PRECISION,
    SERDES_TURN_DEG_MIN_PRECISION, SERDES_TURN_DEG_MIN_BIT_WIDTH, SERDES_TURN_DEG_MAX_BIT_WIDTH,
    neg_neg]
  rw [PARAM_CHECK_uint_id hb1 hb2, PARAM_CHECK_int_id hp1 hp2, hmask, shl1_eq hb2]
  generalize turn % 2 ^ bw = T at *
  generalize 2 ^ bw = B at *
  have e1 : u32 (T * 360) = T * 360 := u32_of_lt (by omega)
  have e2 : u32 (B * 100) = 100 * B := by rw [u32_of_lt (by omega), Nat.mul_comm]
  rw [e1, e2]
  have inv : GenInv mem da B T place 0 0
      { mem := mem, R := T * 360, M := 180, k := 2 + 1, low := false, high := false } := by
    refine ⟨by simp, by simp, rfl, rfl, ?_, ?_, ?_, ?_, ?_, ?_, ?_⟩
    · simp only [pow_zero]
      omega
    · simp only []
      omega
    · intro _
      simp only []
      omega
    · intro i hi
      omega
    · intro q _
      rfl
    · intro h
      omega
    · intro j' hj'
      omega
  obtain ⟨j, D, u, post, hround⟩ := gen_loop_round hB hB22 hp1 8 0 0 _ (by omega) (by omega) inv
  exact ⟨_, j, D, u, rfl, post, hround⟩

theorem floor_nat_div (n d : Nat) : ⌊(n : ℚ) / (d : ℚ)⌋ = ((n / d : Nat) : Int) := by
  rw [← Int.cast_natCast n, Rat.floor_intCast_div_natCast]
  push_cast
  rfl

theorem ten_zpow (j : Nat) : (10 : ℚ) ^ ((2 : Int) - (j : Int)) = 100 / (10 : ℚ) ^ j := by
  rw [zpow_sub₀ (by norm_num : (10 : ℚ) ≠ 0), zpow_natCast]
  norm_num

/-! ## The generator without wrap-around -/

/-- The start of the loop satisfies the invariant. -/
theorem gen_inv_init (mem : Mem) (da B T : Nat) (place : Int) (hT : T < B) :
    GenInv mem da B T place 0 0
      { mem := mem, R := T * 360, M := 180, k := 2 + 1, low := false, high := false } := by
  refine ⟨by simp, by simp, rfl, rfl, ?_, ?_, ?_, ?_, ?_, ?_, ?_⟩
  · simp only [pow_zero]
    omega
  · simp only []
    omega
  · intro _
    simp only []
    omega
  · intro i hi
    omega
  · intro q _
    rfl
  · intro h
    omega
  · intro j' hj'
    omega

/-- The fields of the state after one pass with unbounded integers. -/
theorem gen_body_ideal_eq (buf S : Nat) (place : Int) (s : GenState) :
    gen_body_ideal buf S place s =
      { mem := store s.mem (buf + BUF_INDEX (s.k - 1))
          (if s.k - 1 ≤ place ∧ S < s.R % S + s.M ∧ (¬ s.R % S < s.M ∨ S / 2 ≤ s.R % S)
            then s.R / S + 1 else s.R / S)
        R := s.R % S * 10
        M := s.M * 10
        k := s.k - 1
        low := if s.k - 1 ≤ place then decide (s.R % S < s.M) else s.low
        high := if s.k - 1 ≤ place then decide (S < s.R % S + s.M) else s.high } := by
  have e2 : s.R - s.R / S * S = s.R % S := by
    have hdm : S * (s.R / S) + s.R % S = s.R := Nat.div_add_mod _ _
    have : S * (s.R / S) = s.R / S * S := Nat.mul_comm _ _
    omega
  unfold gen_body_ideal
  simp only [e2]
  congr 2
  by_cases hc : s.k - 1 ≤ place
  · by_cases h1 : S < s.R % S + s.M <;> by_cases h2 : s.R % S < s.M <;> simp [hc, h1, h2]
  · simp [hc]

theorem gen_loop_ideal_stop (buf S : Nat) (place : Int) (fuel : Nat) (s : GenState)
    (h : s.low = true ∨ s.high = true) : gen_loop_ideal buf S place fuel s = s := by
  cases fuel with
  | zero => rfl
  | succ n =>
    unfold gen_loop_ideal
    rw [if_neg]
    intro hh
    rcases h with h | h
    · rw [hh.1] at h
      exact Bool.noConfusion h
    · rw [hh.2] at h
      exact Bool.noConfusion h

/-- A pass from a state that satisfies the invariant gives the same state with and
without wrap-around, but for `M` after the pass of the lowest place. -/
theorem gen_body_agrees {mem0 : Mem} {da B T : Nat} {place : Int} {j D : Nat} {s : GenState}
    (hB : 0 < B) (hB22 : B ≤ 4194304) (hj : j ≤ 7) (inv : GenInv mem0 da B T place j D s) :
    (gen_body da (100 * B) place s).mem = (gen_body_ideal da (100 * B) place s).mem ∧
      (gen_body da (100 * B) place s).k = (gen_body_ideal da (100 * B) place s).k ∧
      (gen_body da (100 * B) place s).low = (gen_body_ideal da (100 * B) place s).low ∧
      (gen_body da (100 * B) place s).high = (gen_body_ideal da (100 * B) place s).high ∧
      (j < 7 → gen_body da (100 * B) place s = gen_body_ideal da (100 * B) place s) := by
  have hP7 : 10 ^ j ≤ 10 ^ 7 := Nat.pow_le_pow_right (by norm_num) hj
  have hS : 0 < 100 * B := by omega
  have hM := inv.hM
  have hRlt := inv.hRlt
  have hbody := gen_body_eq da (100 * B) place s hS (by omega) (by omega) (by rw [hM]; omega)
  rw [hbody, gen_body_ideal_eq]
  refine ⟨rfl, rfl, rfl, rfl, fun h7 => ?_⟩
  have hP6 : 10 ^ j ≤ 10 ^ 6 := Nat.pow_le_pow_right (by norm_num) (by omega)
  rw [u32_of_lt (by rw [hM]; omega)]

/-- The loop ends with the same digit array, place and flags with and without
wrap-around. -/
theorem gen_loop_agrees {mem0 : Mem} {da B T : Nat} {place : Int}
    (hB : 0 < B) (hB22 : B ≤ 4194304) (hplace : -5 ≤ place) :
    ∀ (fuel j D : Nat) (s : GenState), j ≤ 7 → GenInv mem0 da B T place j D s →
      (gen_loop da (100 * B) place fuel s).mem = (gen_loop_ideal da (100 * B) place fuel s).mem ∧
      (gen_loop da (100 * B) place fuel s).k = (gen_loop_ideal da (100 * B) place fuel s).k := by
  intro fuel
  induction fuel with
  | zero =>
    intro j D s _ _
    exact ⟨rfl, rfl⟩
  | succ n ih =>
    intro j D s hj inv
    obtain ⟨hk, hstep⟩ := gen_step hB hB22 hplace hj inv
    obtain ⟨am, ak, al, ah, aeq⟩ := gen_body_agrees hB hB22 hj inv
    have hc : s.low = false ∧ s.high = false := ⟨inv.hlow, inv.hhigh⟩
    unfold gen_loop gen_loop_ideal
    rw [if_pos hc, if_pos hc]
    simp only []
    by_cases hmin : (gen_body da (100 * B) place s).k = SERDES_TURN_DEG_MIN_PLACE
    · rw [if_pos hmin, if_pos (by rw [← ak]; exact hmin)]
      exact ⟨am, ak⟩
    · rw [if_neg hmin, if_neg (by rw [← ak]; exact hmin)]
      have hj7 : j < 7 := by
        rw [hk] at hmin
        unfold SERDES_TURN_DEG_MIN_PLACE SERDES_TURN_DEG_MAX_PRECISION at hmin
        omega
      rw [← aeq hj7]
      rcases hstep with ⟨_, _, _, inv'⟩ | ⟨hres, _⟩
      · exact ih (j + 1) _ _ (by omega) inv'
      · rw [gen_loop_stop _ _ _ _ _ hres, gen_loop_ideal_stop _ _ _ _ _ hres]
        exact ⟨rfl, rfl⟩

/-- Every pass of the generator stays within 32 bits. -/
theorem gen_trace_fits {mem0 : Mem} {da B T : Nat} {place : Int}
    (hB : 0 < B) (hB22 : B ≤ 4194304) (hplace : -5 ≤ place) :
    ∀ (fuel j D : Nat) (s : GenState), j ≤ 7 → GenInv mem0 da B T place j D s →
      ∀ p ∈ gen_trace da (100 * B) place fuel s, p.fits := by
  intro fuel
  induction fuel with
  | zero =>
    intro j D s _ _ p hp
    simp [gen_trace] at hp
  | succ n ih =>
    intro j D s hj inv p hp
    obtain ⟨hk, hstep⟩ := gen_step hB hB22 hplace hj inv
    have hc : s.low = false ∧ s.high = false := ⟨inv.hlow, inv.hhigh⟩
    have hP7 : 10 ^ j ≤ 10 ^ 7 := Nat.pow_le_pow_right (by norm_num) hj
    have hS : 0 < 100 * B := by omega
    have hM := inv.hM
    have hRlt := inv.hRlt
    have hmod : s.R % (100 * B) < 100 * B := Nat.mod_lt _ hS
    have hdm : 100 * B * (s.R / (100 * B)) + s.R % (100 * B) = s.R := Nat.div_add_mod _ _
    have hUS : s.R / (100 * B) * (100 * B) ≤ s.R := Nat.div_mul_le_self _ _
    have e1 : u32 (s.R / (100 * B) * (100 * B)) = s.R / (100 * B) * (100 * B) :=
      u32_of_lt (by omega)
    have e2 : sub32 s.R (s.R / (100 * B) * (100 * B)) = s.R % (100 * B) := by
      rw [sub32_of_le (by omega) hUS]
      have : 100 * B * (s.R / (100 * B)) = s.R / (100 * B) * (100 * B) := Nat.mul_comm _ _
      omega
    unfold gen_trace at hp
    rw [if_pos hc] at hp
    simp only [e1, e2, List.mem_cons] at hp
    rcases hp with rfl | hp
    · unfold GenPass.fits
      simp only [decide_eq_true_eq]
      refine ⟨hUS, by omega, by omega, by omega, fun hmore => ?_⟩
      have hj7 : j < 7 := by
        have h1 := hmore.1
        rw [hk] at h1
        unfold SERDES_TURN_DEG_MIN_PLACE SERDES_TURN_DEG_MAX_PRECISION at h1
        omega
      have hP6 : 10 ^ j ≤ 10 ^ 6 := Nat.pow_le_pow_right (by norm_num) (by omega)
      omega
    · by_cases hmin : (gen_body da (100 * B) place s).k = SERDES_TURN_DEG_MIN_PLACE
      · rw [if_pos hmin] at hp
        simp at hp
      · rw [if_neg hmin] at hp
        rcases hstep with ⟨_, _, hj7, inv'⟩ | ⟨hres, _⟩
        · exact ih (j + 1) _ _ (by omega) inv' p hp
        · have hstop : gen_trace da (100 * B) place n (gen_body da (100 * B) place s) = [] := by
            cases n with
            | zero => rfl
            | succ n =>
              unfold gen_trace
              rw [if_neg]
              intro hh
              rcases hres with h | h
              · rw [hh.1] at h
                exact Bool.noConfusion h
              · rw [hh.2] at h
                exact Bool.noConfusion h
          rw [hstop] at hp
          simp at hp

/-! ## The formatter on a digit array apart from the text -/

set_option maxRecDepth 8000 in
set_option maxHeartbeats 3200000 in
/-- The contract of `conv_deg_digit_array_to_string` on a digit array at `src` that
does not overlap the 10 cells of the text at `dest`. -/
theorem fmt_bytes_sep (m : Mem) (dest src j : Nat) (hj : j ≤ 7)
    (hsep : src + 8 ≤ dest ∨ dest + 10 ≤ src) :
    cells (conv_deg_digit_array_to_string m dest src (2 - (j : Int))).1 dest
        (render_bytes (cells m src (j + 1))).length =
        render_bytes (cells m src (j + 1)) ∧
      (conv_deg_digit_array_to_string m dest src (2 - (j : Int))).2 =
        dest + (render_bytes (cells m src (j + 1))).length ∧
      (conv_deg_digit_array_to_string m dest src (2 - (j : Int))).1
        (conv_deg_digit_array_to_string m dest src (2 - (j : Int))).2 = 0 ∧
      ∀ q, q < dest ∨ dest + SERDES_TURN_DEG_BUF_SIZE ≤ q →
        (conv_deg_digit_array_to_string m dest src (2 - (j : Int))).1 q = m q := by
  generalize hr : conv_deg_digit_array_to_string m dest src (2 - (j : Int)) = r
  interval_cases j <;> by_cases hz0 : m src = 0 <;> by_cases hz1 : m (src + 1) = 0 <;>
    simp (disch := omega) [conv_deg_digit_array_to_string, PARAM_CHECK_int,
        SERDES_TURN_DEG_MIN_PLACE, SERDES_TURN_DEG_MAX_PLACE, SERDES_TURN_DEG_MAX_PRECISION,
        SERDES_TURN_DEG_MIN_PRECISION, fmt_loop, fill_loop, store_other, Nat.add_assoc, hz0,
        hz1] at hr <;>
    subst hr <;>
    simp [store_apply, Nat.add_assoc, SERDES_TURN_DEG_BUF_SIZE,
        render_bytes, cells, List.range_succ, fmt_int3, hz0, hz1] <;>
    intro q hq <;>
    repeat rw [if_neg (by omega)]

/-- The C string depends on the cells up to its NUL only. -/
theorem c_str_congr (m1 m2 : Mem) :
    ∀ (n N p : Nat), cells m1 p n = cells m2 p n → m1 (p + n) = 0 → m2 (p + n) = 0 →
      c_str m1 N p = c_str m2 N p := by
  intro n
  induction n with
  | zero =>
    intro N p _ h1 h2
    cases N with
    | zero => rfl
    | succ N =>
      unfold c_str
      rw [if_pos (by simpa using h1), if_pos (by simpa using h2)]
  | succ n ih =>
    intro N p hc h1 h2
    cases N with
    | zero => rfl
    | succ N =>
      rw [cells_succ, cells_succ] at hc
      obtain ⟨hb, hrest⟩ := List.cons.inj hc
      unfold c_str
      rw [hb, ih N (p + 1) hrest (by rw [← h1]; congr 1; omega) (by rw [← h2]; congr 1; omega)]

set_option maxRecDepth 8000 in
set_option maxHeartbeats 3200000 in
/-- In place, with the digit array one cell behind the text, every store of the
first loop is made below the next digit that has not been read. -/
theorem fmt_writes_in_place (m : Mem) (buf j : Nat) (hj : j ≤ 7) :
    ∀ w ∈ conv_deg_digit_array_to_string_writes m buf (buf + 1) (2 - (j : Int)), w.1 < w.2 := by
  interval_cases j <;> by_cases hz0 : m (buf + 1) = 0 <;> by_cases hz1 : m (buf + 2) = 0 <;>
    simp [conv_deg_digit_array_to_string_writes, PARAM_CHECK_int, SERDES_TURN_DEG_MIN_PLACE,
        SERDES_TURN_DEG_MAX_PLACE, SERDES_TURN_DEG_MAX_PRECISION, SERDES_TURN_DEG_MIN_PRECISION,
        fmt_writes, store_apply, Nat.add_assoc, hz0, hz1]

/-- The text that `conv_deg_digit_array_to_string` writes for a digit array of
decimal digits, in place or apart from the text: the rendering of the array. -/
theorem fmt_string (m : Mem) (dest src j : Nat) (hj : j ≤ 7)
    (hsrc : src = dest + 1 ∨ src + 8 ≤ dest ∨ dest + 10 ≤ src)
    (h9 : ∀ i, i ≤ j → m (src + i) ≤ 9) :
    out_str (conv_deg_digit_array_to_string m dest src (2 - (j : Int))) dest =
      (render_bytes (cells m src (j + 1))).map Char.ofNat := by
  have hd9 : ∀ d ∈ cells m src (j + 1), d ≤ 9 := by
    intro d hd
    unfold cells at hd
    rw [List.mem_map] at hd
    obtain ⟨i, hi, rfl⟩ := hd
    exact h9 i (by have := List.mem_range.1 hi; omega)
  have hlen := render_bytes_length (cells m src (j + 1)) (by rw [cells_length]; omega)
  have hnz := render_bytes_ne_zero (cells m src (j + 1)) hd9
  have key : cells (conv_deg_digit_array_to_string m dest src (2 - (j : Int))).1 dest
        (render_bytes (cells m src (j + 1))).length = render_bytes (cells m src (j + 1)) ∧
      (conv_deg_digit_array_to_string m dest src (2 - (j : Int))).1
        (dest + (render_bytes (cells m src (j + 1))).length) = 0 := by
    rcases hsrc with rfl | hsep
    · obtain ⟨hc, hend, hnul, _⟩ := fmt_bytes m dest j hj
      rw [hend] at hnul
      exact ⟨hc, hnul⟩
    · obtain ⟨hc, hend, hnul, _⟩ := fmt_bytes_sep m dest src j hj hsep
      rw [hend] at hnul
      exact ⟨hc, hnul⟩
  unfold out_str
  exact c_str_eq _ _ _ _ (by unfold SERDES_TURN_DEG_BUF_SIZE; omega) key.1 hnz key.2

/-- The value of a digit array is the number its digits denote, scaled to the place
of the last digit. -/
theorem array_value_eq (m : Mem) (src j : Nat) (hj : j ≤ 7) :
    array_value m src j =
      ((dval (cells m src (j + 1)) * 10 ^ (3 - (j + 1)) : Nat) : ℚ) /
        ((10 ^ (j + 1 - 3) : Nat) : ℚ) := by
  unfold array_value
  simp only [ten_zpow]
  interval_cases j <;> simp [cells, dval, List.range_succ] <;> ring
/-! ## Texts of the grammar and the numbers they denote -/

theorem chars_val_append (a b : List Char) :
    chars_val (a ++ b) = chars_val a * 10 ^ b.length + chars_val b := by
  have h := foldl_digits b (chars_val a)
  unfold chars_val at h ⊢
  rw [List.foldl_append, h]

theorem isdigit_val {c : Char} (h : isdigit c = true) : c.toNat - ('0').toNat ≤ 9 := by
  unfold isdigit at h
  simp only [decide_eq_true_eq] at h
  have h0 : ('0').toNat = 48 := rfl
  have h9 : ('9').toNat = 57 := rfl
  omega

theorem chars_val_lt (cs : List Char) (h : ∀ c ∈ cs, isdigit c = true) :
    chars_val cs < 10 ^ cs.length := by
  induction cs using List.reverseRecOn with
  | nil => simp [chars_val]
  | append_singleton cs c ih =>
    have hcs := ih fun x hx => h x (List.mem_append_left _ hx)
    have hc := isdigit_val (h c (List.mem_append_right _ (List.mem_singleton_self c)))
    have e : chars_val [c] = c.toNat - ('0').toNat := by simp [chars_val]
    have e1 : 10 ^ [c].length = 10 := rfl
    rw [chars_val_append, e, e1, List.length_append, List.length_singleton, pow_succ]
    omega

theorem skip_space_stop (l : List Char)
    (h : l = [] ∨ ∃ c t, l = c :: t ∧ isspace c = false) : skip_space l = l := by
  rcases h with rfl | ⟨c, t, rfl, hc⟩
  · rfl
  · unfold skip_space
    rw [if_neg (by rw [hc]; decide)]

/-- What the parser reads of a text of the grammar with at most three integer
digits `ds` and the fractional digits `fd`: the integer part modulo 360 and the
first five fractional digits. -/
theorem parse_grammar (ws ds tail fd : List Char) (hws : ∀ c ∈ ws, isspace c = true)
    (hds : ∀ c ∈ ds, isdigit c = true) (hlen : ds.length ≤ 3)
    (hfd : ∀ c ∈ fd, isdigit c = true) (htail : (tail = [] ∧ fd = []) ∨ tail = '.' :: fd) :
    (parse_deg (ws ++ ds ++ tail)).1 = 10 ^ (fd.take 5).length ∧
      (parse_deg (ws ++ ds ++ tail)).2.1 =
        chars_val ds % 360 * 10 ^ (fd.take 5).length + chars_val (fd.take 5) := by
  have hstop : tail = [] ∨ ∃ y t, tail = y :: t ∧ isdigit y = false := by
    rcases htail with ⟨h, _⟩ | h
    · exact Or.inl h
    · exact Or.inr ⟨_, _, h, by decide⟩
  have h1 : skip_space (ws ++ ds ++ tail) = ds ++ tail := by
    rw [List.append_assoc, skip_space_append ws _ hws]
    apply skip_space_stop
    cases ds with
    | nil =>
      rcases htail with ⟨h, _⟩ | h
      · exact Or.inl (by rw [h]; rfl)
      · exact Or.inr ⟨_, _, by rw [h]; rfl, by decide⟩
    | cons d ds =>
      exact Or.inr ⟨_, _, rfl, isspace_of_isdigit (hds d (List.mem_cons_self _ _))⟩
  have h2 : (ds ++ tail).takeWhile isdigit = ds := takeWhile_append_stop isdigit ds _ hds hstop
  have h3 : parse_int (ds ++ tail) 0 0 = (chars_val ds, tail) := by
    have h := parse_int_eq (ds ++ tail) 0 0 (by omega) (by norm_num)
    rw [h2, Nat.sub_zero, List.take_of_length_le hlen, Nat.min_eq_right hlen,
      List.drop_left] at h
    exact h
  have hv : chars_val ds % 360 < 360 * 1 := by
    have := Nat.mod_lt (chars_val ds) (show 0 < 360 by norm_num)
    omega
  unfold parse_deg
  simp only [h1, h3]
  rcases htail with ⟨ht, hf⟩ | ht
  · subst ht hf
    simp [chars_val]
  · subst ht
    simp only [if_true]
    have h4 : fd.takeWhile isdigit = fd := by
      have := takeWhile_append_stop isdigit fd [] hfd (Or.inl rfl)
      rwa [List.append_nil] at this
    have h5 := parse_frac_eq fd 0 1 (chars_val ds % 360) (by omega) (by norm_num) hv
    rw [h4, Nat.sub_zero, foldl_digits, Nat.zero_add, ← List.length_take] at h5
    have h6 : parse_frac fd 1 (chars_val ds % 360) 0 =
        parse_frac fd 1 (chars_val ds % 360) ((0 : Nat) : Int) := rfl
    rw [h6, h5]
    exact ⟨rfl, rfl⟩

/-- The number a text of the grammar denotes. -/
theorem text_value_grammar (ws ds tail fd : List Char) (hws : ∀ c ∈ ws, isspace c = true)
    (hds : ∀ c ∈ ds, isdigit c = true)
    (htail : (tail = [] ∧ fd = []) ∨ tail = '.' :: fd) :
    text_value (ws ++ ds ++ tail) =
      (chars_val ds : ℚ) + (chars_val fd : ℚ) / (10 : ℚ) ^ fd.length := by
  have h1 : (ws ++ ds ++ tail).dropWhile isspace = ds ++ tail := by
    rw [← skip_space_eq, List.append_assoc, skip_space_append ws _ hws]
    apply skip_space_stop
    cases ds with
    | nil =>
      rcases htail with ⟨h, _⟩ | h
      · exact Or.inl (by rw [h]; rfl)
      · exact Or.inr ⟨_, _, by rw [h]; rfl, by decide⟩
    | cons d ds =>
      exact Or.inr ⟨_, _, rfl, isspace_of_isdigit (hds d (List.mem_cons_self _ _))⟩
  have h2 : int_part (ds ++ tail) = ds := by
    unfold int_part
    apply takeWhile_append_stop _ ds _ fun c hc => isdigit_ne_dot (hds c hc)
    rcases htail with ⟨h, _⟩ | h
    · exact Or.inl h
    · exact Or.inr ⟨_, _, h, by decide⟩
  have h3 : (ds ++ tail).drop (ds.length + 1) = fd := by
    rcases htail with ⟨ht, hf⟩ | ht
    · subst ht hf
      simp
    · subst ht
      rw [← List.drop_drop, List.drop_left]
      rfl
  unfold text_value decimal_value
  rw [h1, h2, h3]

/-- A number with `L` fractional digits that is a multiple of `10 ^ (2 - j)`, for
`j ≤ 7`, has zeros after its fifth fractional digit: it is the number that its first
five fractional digits give. -/
theorem coarse_value_read (I j n : Nat) (fd : List Char) (hfd : ∀ c ∈ fd, isdigit c = true)
    (hj : j ≤ 7)
    (hmult : (I : ℚ) + (chars_val fd : ℚ) / (10 : ℚ) ^ fd.length =
      (n : ℚ) * (10 : ℚ) ^ ((2 : Int) - (j : Int))) :
    (I * 10 ^ (fd.take 5).length + chars_val (fd.take 5)) * 10 ^ j =
      100 * 10 ^ (fd.take 5).length * n := by
  rw [ten_zpow] at hmult
  have hL : (0 : ℚ) < (10 : ℚ) ^ fd.length := by positivity
  have hJ : (0 : ℚ) < (10 : ℚ) ^ j := by positivity
  have e0 : (I * 10 ^ fd.length + chars_val fd) * 10 ^ j = 100 * 10 ^ fd.length * n := by
    have : (((I * 10 ^ fd.length + chars_val fd) * 10 ^ j : Nat) : ℚ) =
        ((100 * 10 ^ fd.length * n : Nat) : ℚ) := by
      push_cast
      field_simp at hmult
      linarith
    exact_mod_cast this
  by_cases h5 : fd.length ≤ 5
  · rw [List.take_of_length_le h5]
    exact e0
  · have hsplit : fd = fd.take 5 ++ fd.drop 5 := (List.take_append_drop 5 fd).symm
    have hlt : (fd.take 5).length = 5 := by rw [List.length_take]; omega
    have hld : (fd.drop 5).length = fd.length - 5 := List.length_drop 5 fd
    have hF : chars_val fd = chars_val (fd.take 5) * 10 ^ (fd.length - 5) +
        chars_val (fd.drop 5) := by
      conv_lhs => rw [hsplit]
      rw [chars_val_append, hld]
    have hr : chars_val (fd.drop 5) < 10 ^ (fd.length - 5) := by
      have := chars_val_lt (fd.drop 5) fun c hc => hfd c (List.mem_of_mem_drop hc)
      rwa [hld] at this
    have hpL : 10 ^ fd.length = 10 ^ 5 * 10 ^ (fd.length - 5) := by
      rw [← pow_add]
      congr 1
      omega
    have hp7 : 10 ^ 7 = 10 ^ j * 10 ^ (7 - j) := by
      rw [← pow_add]
      congr 1
      omega
    have hp7' : 10 ^ 7 = 10 ^ (7 - j) * 10 ^ j := by rw [hp7, Nat.mul_comm]
    have e1 : (I * 10 ^ fd.length + chars_val fd) * 10 ^ 7 =
        100 * 10 ^ fd.length * n * 10 ^ (7 - j) := by
      rw [hp7, ← Nat.mul_assoc, e0]
    have e2 : I * 10 ^ fd.length + chars_val fd = 10 ^ (fd.length - 5) * (n * 10 ^ (7 - j)) := by
      apply Nat.eq_of_mul_eq_mul_right (show 0 < 10 ^ 7 by norm_num)
      rw [e1, hpL]
      ring
    rw [hF, hpL] at e2
    have hdvd : 10 ^ (fd.length - 5) ∣ chars_val (fd.drop 5) := by
      have hd1 : 10 ^ (fd.length - 5) ∣
          (I * 10 ^ 5 + chars_val (fd.take 5)) * 10 ^ (fd.length - 5) + chars_val (fd.drop 5) :=
        ⟨n * 10 ^ (7 - j), by rw [← e2]; ring⟩
      exact (Nat.dvd_add_right (Nat.dvd_mul_left _ _)).1 hd1
    have hr0 : chars_val (fd.drop 5) = 0 := Nat.eq_zero_of_dvd_of_lt hdvd hr
    rw [hr0, Nat.add_zero] at e2
    have e3 : I * 10 ^ 5 + chars_val (fd.take 5) = n * 10 ^ (7 - j) := by
      apply Nat.eq_of_mul_eq_mul_right (show 0 < 10 ^ (fd.length - 5) by positivity)
      rw [Nat.mul_comm (n * 10 ^ (7 - j)), ← e2]
      ring
    rw [hlt, e3, Nat.mul_assoc, ← hp7']
    ring

/-- At bit width 3 the text of the turn 1 is "50", which ends at the place 1, and
two texts that denote multiples of `10 ^ 2` degrees are read as the turn 1: "400",
which is not below 360, and "0300", of which the first three digits are read. -/
theorem coarse_texts_read_as_turn :
    out_str (serialize_turn_to_deg (fun _ => 0) 0 1 3) 0 = ['5', '0'] ∧
      (deserialize_turn_from_deg false ['4', '0', '0'] 3).1 = 1 ∧
      (deserialize_turn_from_deg false ['0', '3', '0', '0'] 3).1 = 1 := by
  decide


/-! ## Round trips (C1, C2, C3) -/

/-- C1: round trip of the suppressed serialiser.  For every bit width in [1,22],
every turn below `2 ^ bit_width` and every precision in [-2,5], the text that
`serialize_turn_to_deg_ps` leaves in the buffer is deserialised by
`deserialize_turn_from_deg`, at the same bit width and on either division path, to
that turn. -/
theorem C1_roundtrip_serialize_turn_to_deg_ps (force_32bit : Bool) (mem : Mem)
    (buf turn bit_width : Nat) (precision : Int) (hb1 : 1 ≤ bit_width) (hb2 : bit_width ≤ 22)
    (hturn : turn < 2 ^ bit_width) (hp1 : -2 ≤ precision) (hp2 : precision ≤ 5) :
    (deserialize_turn_from_deg force_32bit
      (out_str (serialize_turn_to_deg_ps mem buf turn bit_width precision) buf) bit_width).1 =
      turn := by
  obtain ⟨ds, _, h, _⟩ := serialize_ps_out mem buf turn bit_width precision hb1 hb2 hp1 hp2
  rw [h.rendered.hstr, h.hdes force_32bit, Nat.mod_eq_of_lt hturn]

/-- C1 at bit width 4, turn 2 and precision 1 (the text is "45"). -/
theorem C1_roundtrip_serialize_turn_to_deg_ps_witness :
    (deserialize_turn_from_deg false
      (out_str (serialize_turn_to_deg_ps (fun _ => 0) 0 2 4 1) 0) 4).1 = 2 :=
  C1_roundtrip_serialize_turn_to_deg_ps false (fun _ => 0) 0 2 4 1 (by decide) (by decide)
    (by decide) (by decide) (by decide)

/-- C2: round trip of the plain serialiser.  For every bit width in [1,22] and every
turn below `2 ^ bit_width`, the text that `serialize_turn_to_deg` leaves in the
buffer is deserialised by `deserialize_turn_from_deg`, at the same bit width and on
either division path, to that turn. -/
theorem C2_roundtrip_serialize_turn_to_deg (force_32bit : Bool) (mem : Mem)
    (buf turn bit_width : Nat) (hb1 : 1 ≤ bit_width) (hb2 : bit_width ≤ 22)
    (hturn : turn < 2 ^ bit_width) :
    (deserialize_turn_from_deg force_32bit
      (out_str (serialize_turn_to_deg mem buf turn bit_width) buf) bit_width).1 = turn := by
  obtain ⟨ds, h, _⟩ := serialize_out mem buf turn bit_width hb1 hb2
  rw [h.rendered.hstr, h.hdes force_32bit, Nat.mod_eq_of_lt hturn]

/-- C2 at bit width 3 and turn 3 (the text is "140"). -/
theorem C2_roundtrip_serialize_turn_to_deg_witness :
    (deserialize_turn_from_deg false
      (out_str (serialize_turn_to_deg (fun _ => 0) 0 3 3) 0) 3).1 = 3 :=
  C2_roundtrip_serialize_turn_to_deg false (fun _ => 0) 0 3 3 (by decide) (by decide)
    (by decide)

/-- C3: round trip of the serialiser with a minimum precision (carry applied, no
zero suppression).  For every bit width in [1,22], every turn below `2 ^ bit_width`
and every precision in [-2,5], the text that `serialize_turn_to_deg_p` leaves in the
buffer is deserialised by `deserialize_turn_from_deg`, at the same bit width and on
either division path, to that turn. -/
theorem C3_roundtrip_serialize_turn_to_deg_p (force_32bit : Bool) (mem : Mem)
    (buf turn bit_width : Nat) (precision : Int) (hb1 : 1 ≤ bit_width) (hb2 : bit_width ≤ 22)
    (hturn : turn < 2 ^ bit_width) (hp1 : -2 ≤ precision) (hp2 : precision ≤ 5) :
    (deserialize_turn_from_deg force_32bit
      (out_str (serialize_turn_to_deg_p mem buf turn bit_width precision) buf) bit_width).1 =
      turn := by
  obtain ⟨ds, h, _⟩ := serialize_p_out mem buf turn bit_width precision hb1 hb2 hp1 hp2
  rw [h.rendered.hstr, h.hdes force_32bit, Nat.mod_eq_of_lt hturn]

/-- C3 at bit width 4, turn 2 and precision 1 (the text is "45.0"). -/
theorem C3_roundtrip_serialize_turn_to_deg_p_witness :
    (deserialize_turn_from_deg true
      (out_str (serialize_turn_to_deg_p (fun _ => 0) 0 2 4 1) 0) 4).1 = 2 :=
  C3_roundtrip_serialize_turn_to_deg_p true (fun _ => 0) 0 2 4 1 (by decide) (by decide)
    (by decide) (by decide) (by decide)

/-! ## Shortest string (C4) -/

/-- C4 as stated fails: at bit width 3 the text of `serialize_turn_to_deg` for the
turn 2 is "100", and the text "90", which is one character shorter, is deserialised
to the turn 2 as well. -/
theorem C4_counterexample :
    out_str (serialize_turn_to_deg (fun _ => 0) 0 2 3) 0 = ['1', '0', '0'] ∧
      (['9', '0'] : List Char).length <
        (out_str (serialize_turn_to_deg (fun _ => 0) 0 2 3) 0).length ∧
      (deserialize_turn_from_deg false ['9', '0'] 3).1 = 2 := by
  decide

/-- C4 as amended: the text of `serialize_turn_to_deg` is the shortest in decimal
places, not in characters.  For every bit width in [1,22] and every turn below
`2 ^ bit_width`, no decimal text (white space, at most three integer digits, then
nothing or a point and any number of digits) that denotes a number of degrees below
360 which is a multiple `n * 10 ^ (2 - j)` of `10 ^ (2 - j)`, for a place `2 - j ≤ 2`
above the lowest place of the digits that `serialize_turn_to_deg` generates, is
deserialised to that turn, on either division path. -/
theorem C4_shortest_in_places_amended (force_32bit : Bool) (mem : Mem)
    (buf turn bit_width : Nat) (hb1 : 1 ≤ bit_width) (hb2 : bit_width ≤ 22)
    (hturn : turn < 2 ^ bit_width) (text : List Char) (j n : Nat)
    (hplace : (conv_turn_to_deg_digit_array mem (buf + 1) turn bit_width
      SERDES_TURN_DEG_MAX_PLACE).2 < 2 - (j : Int))
    (hgram : matches_grammar 3 text) (h360 : text_value text < 360)
    (hmult : text_value text = (n : ℚ) * (10 : ℚ) ^ ((2 : Int) - (j : Int))) :
    (deserialize_turn_from_deg force_32bit text bit_width).1 ≠ turn := by
  obtain ⟨s, k, D, u, hconv, post⟩ :=
    conv_turn_spec mem (buf + 1) turn bit_width SERDES_TURN_DEG_MAX_PLACE
  have hj : j ≤ 7 := by
    rw [hconv] at hplace
    have hk1 := post.hj
    have hk2 := post.hk
    simp only [] at hplace
    omega
  obtain ⟨ws, ds, tail, rfl, hws, hds, hlen, htail⟩ := hgram
  obtain ⟨fd, hfd, ht⟩ : ∃ fd, (∀ c ∈ fd, isdigit c = true) ∧
      ((tail = [] ∧ fd = []) ∨ tail = '.' :: fd) := by
    rcases htail with h | ⟨fd, h, hfd⟩
    · exact ⟨[], by simp, Or.inl ⟨h, rfl⟩⟩
    · exact ⟨fd, hfd, Or.inr h⟩
  have hv := text_value_grammar ws ds tail fd hws hds ht
  obtain ⟨hS, hN⟩ := parse_grammar ws ds tail fd hws hds hlen hfd ht
  rw [hv] at h360 hmult
  have hI : chars_val ds < 360 := by
    have h0 : (0 : ℚ) ≤ (chars_val fd : ℚ) / (10 : ℚ) ^ fd.length := by positivity
    have : (chars_val ds : ℚ) < 360 := by linarith
    exact_mod_cast this
  apply coarser_not_deserialized force_32bit mem buf turn bit_width hb1 hb2 hturn _ j n hplace
  rw [hS, hN, Nat.mod_eq_of_lt hI]
  exact coarse_value_read (chars_val ds) j n fd hfd hj hmult

/-- C4 as amended, at bit width 3 and turn 1: the digits of "50" end at place 1, and
"100", which denotes a multiple of `10 ^ 2` below 360, is not deserialised to the
turn 1. -/
theorem C4_shortest_in_places_amended_witness :
    (deserialize_turn_from_deg false ['1', '0', '0'] 3).1 ≠ 1 :=
  C4_shortest_in_places_amended false (fun _ => 0) 0 1 3 (by decide) (by decide) (by decide)
    ['1', '0', '0'] 0 1 (by decide)
    ⟨[], ['1', '0', '0'], [], rfl, by decide, by decide, by decide, Or.inl rfl⟩
    (by decide!) (by decide!)

/-! ## Zero suppression and precision (C5, C6, C7) -/

/-- C5: prefix property of zero suppression.  For every bit width in [1,22], turn
and precision in [-2,5], the text of `serialize_turn_to_deg_ps` is a prefix of the
text of `serialize_turn_to_deg_p` for the same arguments, and what is missing is
nothing, or one or more `'0'`, or a point and one or more `'0'`. -/
theorem C5_suppressed_is_prefix (mem : Mem) (buf turn bit_width : Nat) (precision : Int)
    (hb1 : 1 ≤ bit_width) (hb2 : bit_width ≤ 22) (hp1 : -2 ≤ precision)
    (hp2 : precision ≤ 5) :
    ∃ rest, out_str (serialize_turn_to_deg_p mem buf turn bit_width precision) buf =
        out_str (serialize_turn_to_deg_ps mem buf turn bit_width precision) buf ++ rest ∧
      (rest = [] ∨ ∃ n, 1 ≤ n ∧
        (rest = List.replicate n '0' ∨ rest = '.' :: List.replicate n '0')) := by
  obtain ⟨ds, zs, hps, hp, hz, h3, _⟩ :=
    serialize_ps_out mem buf turn bit_width precision hb1 hb2 hp1 hp2
  rw [hps.rendered.hstr, hp.rendered.hstr]
  by_cases hne : zs = []
  · subst hne
    exact ⟨[], by simp, Or.inl rfl⟩
  · have hzl : 0 < zs.length := List.length_pos.2 hne
    refine ⟨_, render_append_zeros ds zs hz hne (h3 hne), Or.inr ⟨zs.length, hzl, ?_⟩⟩
    split_ifs
    · exact Or.inr rfl
    · exact Or.inl rfl

/-- C5 at bit width 4, turn 2 and precision 1: "45" and "45.0". -/
theorem C5_suppressed_is_prefix_witness :
    ∃ rest, out_str (serialize_turn_to_deg_p (fun _ => 0) 0 2 4 1) 0 =
        out_str (serialize_turn_to_deg_ps (fun _ => 0) 0 2 4 1) 0 ++ rest ∧
      (rest = [] ∨ ∃ n, 1 ≤ n ∧
        (rest = List.replicate n '0' ∨ rest = '.' :: List.replicate n '0')) :=
  C5_suppressed_is_prefix (fun _ => 0) 0 2 4 1 (by decide) (by decide) (by decide) (by decide)

/-- C6: the minimum precision is honoured.  For every bit width in [1,22], turn and
precision in [1,5], the text of `serialize_turn_to_deg_p` is a run of digits, a
point and a run of at least `precision` digits. -/
theorem C6_minimum_precision (mem : Mem) (buf turn bit_width : Nat) (precision : Int)
    (hb1 : 1 ≤ bit_width) (hb2 : bit_width ≤ 22) (hp1 : 1 ≤ precision)
    (hp2 : precision ≤ 5) :
    ∃ ip fd, out_str (serialize_turn_to_deg_p mem buf turn bit_width precision) buf =
        ip ++ '.' :: fd ∧ (∀ c ∈ ip, isdigit c = true) ∧ (∀ c ∈ fd, isdigit c = true) ∧
      precision ≤ (fd.length : Int) := by
  obtain ⟨ds, h, hlen⟩ :=
    serialize_p_out mem buf turn bit_width precision hb1 hb2 (by omega) hp2
  obtain ⟨_, _, i3, _⟩ := int3_shape (getD_le9 ds h.h9 0) (getD_le9 ds h.h9 1)
    (getD_le9 ds h.h9 2) _ rfl
  rw [h.rendered.hstr, render_split, if_neg (by omega)]
  refine ⟨_, _, rfl, i3, frac_digits ds h.h9, ?_⟩
  rw [List.length_map, List.length_drop]
  omega

/-- C6 at bit width 4, turn 2 and precision 1 (the text is "45.0"). -/
theorem C6_minimum_precision_witness :
    ∃ ip fd, out_str (serialize_turn_to_deg_p (fun _ => 0) 0 2 4 1) 0 = ip ++ '.' :: fd ∧
      (∀ c ∈ ip, isdigit c = true) ∧ (∀ c ∈ fd, isdigit c = true) ∧
      (1 : Int) ≤ (fd.length : Int) :=
  C6_minimum_precision (fun _ => 0) 0 2 4 1 (by decide) (by decide) (by decide) (by decide)

/-- C7 as stated fails: at bit width 4, turn 0 and precision -2 the text of
`serialize_turn_to_deg_p` is "0", whose integer part has one digit, not two. -/
theorem C7_counterexample :
    out_str (serialize_turn_to_deg_p (fun _ => 0) 0 0 4 (-2)) 0 = ['0'] ∧
      ¬ (-(-2 : Int) ≤
        ((int_part (out_str (serialize_turn_to_deg_p (fun _ => 0) 0 0 4 (-2)) 0)).length : Int)) := by
  decide

/-- C7 as amended: for every bit width in [1,22], turn and precision in [-2,0], the
integer part of the text of `serialize_turn_to_deg_p` has at least one digit, so at
least `min (-precision) 1` digits, and `-precision` is the highest place at which
the generation of digits may stop: the lowest place generated is at most
`-precision`. -/
theorem C7_integer_digits_amended (mem : Mem) (buf turn bit_width : Nat) (precision : Int)
    (hb1 : 1 ≤ bit_width) (hb2 : bit_width ≤ 22) (hp1 : -2 ≤ precision)
    (hp2 : precision ≤ 0) :
    min (-precision) 1 ≤
        ((int_part (out_str (serialize_turn_to_deg_p mem buf turn bit_width precision)
          buf)).length : Int) ∧
      (conv_turn_to_deg_digit_array mem (buf + 1) turn bit_width (-precision)).2 ≤
        -precision := by
  obtain ⟨ds, h, _⟩ :=
    serialize_p_out mem buf turn bit_width precision hb1 hb2 hp1 (by omega)
  obtain ⟨j, D, _, hjp, hk, _⟩ :=
    carried_digits mem buf turn bit_width precision hb1 hb2 hp1 (by omega)
  have hl := fmt_int3_length (ds.getD 0 0) (ds.getD 1 0) (ds.getD 2 0)
  rw [h.rendered.hstr, int_part_render ds h.h9, List.length_map, hk]
  omega

/-- C7 as amended, at bit width 4, turn 1 and precision -2 (the text is "20"). -/
theorem C7_integer_digits_amended_witness :
    min (-(-2 : Int)) 1 ≤
        ((int_part (out_str (serialize_turn_to_deg_p (fun _ => 0) 0 1 4 (-2)) 0)).length : Int) ∧
      (conv_turn_to_deg_digit_array (fun _ => 0) (0 + 1) 1 4 (-(-2))).2 ≤ -(-2) :=
  C7_integer_digits_amended (fun _ => 0) 0 1 4 (-2) (by decide) (by decide) (by decide)
    (by decide)

/-! ## Integer resolution (C8) -/

/-- C8: integer resolution at bit width 9.  For every integer `d` below 360 there is
a turn `t` below 512 such that the text of `serialize_turn_to_deg` for `t` at bit
width 9 is exactly the decimal text of `d`, and the walk of the test through the
turns 0 to 511 in increasing order, which counts up each time it meets the decimal
text of its counter, ends at 360: it meets "0", "1", ..., "359" in this order. -/
theorem C8_integer_resolution_at_9_bits (mem : Mem) (buf : Nat) :
    (∀ d, d < 360 → ∃ t, t < 512 ∧
        out_str (serialize_turn_to_deg mem buf t 9) buf = Nat.toDigits 10 d) ∧
      test_deg_is_just_integer mem buf = 360 := by
  constructor
  · intro d hd
    refine ⟨(d * 1024 + 360) / 720, by omega, ?_⟩
    rw [serialize_indep mem (fun _ => 0) buf 0 _ 9 (by decide) (by decide)]
    exact whole_degrees_zero d hd
  · unfold test_deg_is_just_integer
    have h := walk_fold buf (List.range 512) (mem, 0)
    have e : (1 <<< 9 : Nat) = 512 := by decide
    rw [e]
    simp only [] at h ⊢
    rw [h]
    exact walk_zero

/-! ## Buffer and shape (C9, C10) -/

/-- C9: the output fits the buffer.  For every bit width in [1,22], turn and
precision in [-2,5], each of `serialize_turn_to_deg`, `serialize_turn_to_deg_p` and
`serialize_turn_to_deg_ps` leaves a text of at most 9 characters, returns the
position of its end, where the terminating NUL stands, below
`SERDES_TURN_DEG_BUF_SIZE`, and changes no cell outside the buffer. -/
theorem C9_output_fits_buffer (mem : Mem) (buf turn bit_width : Nat) (precision : Int)
    (hb1 : 1 ≤ bit_width) (hb2 : bit_width ≤ 22) (hp1 : -2 ≤ precision)
    (hp2 : precision ≤ 5) :
    fits_buffer (serialize_turn_to_deg mem buf turn bit_width) mem buf ∧
      fits_buffer (serialize_turn_to_deg_p mem buf turn bit_width precision) mem buf ∧
      fits_buffer (serialize_turn_to_deg_ps mem buf turn bit_width precision) mem buf := by
  obtain ⟨_, h0, _⟩ := serialize_out mem buf turn bit_width hb1 hb2
  obtain ⟨_, h1, _⟩ := serialize_p_out mem buf turn bit_width precision hb1 hb2 hp1 hp2
  obtain ⟨_, _, h2, _⟩ := serialize_ps_out mem buf turn bit_width precision hb1 hb2 hp1 hp2
  exact ⟨fits_of_ser_out h0, fits_of_ser_out h1, fits_of_ser_out h2⟩

/-- C9 at bit width 22, turn 4194303 and precision 5 (the texts are "359.9999",
"359.99991" and "359.99991"). -/
theorem C9_output_fits_buffer_witness :
    fits_buffer (serialize_turn_to_deg (fun _ => 0) 0 4194303 22) (fun _ => 0) 0 ∧
      fits_buffer (serialize_turn_to_deg_p (fun _ => 0) 0 4194303 22 5) (fun _ => 0) 0 ∧
      fits_buffer (serialize_turn_to_deg_ps (fun _ => 0) 0 4194303 22 5) (fun _ => 0) 0 :=
  C9_output_fits_buffer (fun _ => 0) 0 4194303 22 5 (by decide) (by decide) (by decide)
    (by decide)

/-- C10: the shape of the serialised text.  For every bit width in [1,22], turn and
precision in [-2,5], the text of each of the three serialisers (also of
`serialize_turn_to_deg`, which has no carry pass) consists of an integer part of one
to three digits without a leading zero, unless it is "0", and then nothing else, or
one point and one to five digits. -/
theorem C10_text_is_well_shaped (mem : Mem) (buf turn bit_width : Nat) (precision : Int)
    (hb1 : 1 ≤ bit_width) (hb2 : bit_width ≤ 22) (hp1 : -2 ≤ precision)
    (hp2 : precision ≤ 5) :
    well_shaped (out_str (serialize_turn_to_deg mem buf turn bit_width) buf) ∧
      well_shaped (out_str (serialize_turn_to_deg_p mem buf turn bit_width precision) buf) ∧
      well_shaped (out_str (serialize_turn_to_deg_ps mem buf turn bit_width precision) buf) := by
  obtain ⟨_, h0, _⟩ := serialize_out mem buf turn bit_width hb1 hb2
  obtain ⟨_, h1, _⟩ := serialize_p_out mem buf turn bit_width precision hb1 hb2 hp1 hp2
  obtain ⟨_, _, h2, _⟩ := serialize_ps_out mem buf turn bit_width precision hb1 hb2 hp1 hp2
  exact ⟨shape_of_ser_out h0, shape_of_ser_out h1, shape_of_ser_out h2⟩

/-- C10 at bit width 4, turn 1 and precision 1 (the texts are "20", "22.5" and
"22.5"). -/
theorem C10_text_is_well_shaped_witness :
    well_shaped (out_str (serialize_turn_to_deg (fun _ => 0) 0 1 4) 0) ∧
      well_shaped (out_str (serialize_turn_to_deg_p (fun _ => 0) 0 1 4 1) 0) ∧
      well_shaped (out_str (serialize_turn_to_deg_ps (fun _ => 0) 0 1 4 1) 0) :=
  C10_text_is_well_shaped (fun _ => 0) 0 1 4 1 (by decide) (by decide) (by decide) (by decide)

/-! ## The parser (C11, C12, C13, C14) -/

/-- C11: cursor of the parser.  For every text, with `w` the number of leading white
space characters, `d` the length of the run of decimal digits that follows and
`i = w + min d 3`, the cursor reported by `deserialize_turn_from_deg` is `i` when the
character at `i` is not a point, and `i + 1 + f` when it is, `f` being the length of
the whole run of decimal digits after the point. -/
theorem C11_parser_cursor (force_32bit : Bool) (text : List Char) (bit_width : Nat) :
    (deserialize_turn_from_deg force_32bit text bit_width).2 =
      (let w := (text.takeWhile isspace).length
       let d := ((text.drop w).takeWhile isdigit).length
       let i := w + min d 3
       if text.get? i = some '.' then i + 1 + ((text.drop (i + 1)).takeWhile isdigit).length
       else i) := by
  rw [cursor_eq, cursor_spec_eq]
  simp only [int_end, lead_space, int_run, dropWhile_eq_drop]

/-- C12 as stated fails: of the text "123" the deserialiser consumes all three
characters, three integer digits, and they do not match the expression of the
header, which has at most two. -/
theorem C12_counterexample :
    (deserialize_turn_from_deg false ['1', '2', '3'] 1).2 = 3 ∧
      ¬ matches_grammar 2
        (['1', '2', '3'].take (deserialize_turn_from_deg false ['1', '2', '3'] 1).2) := by
  refine ⟨by decide, ?_⟩
  have e : (deserialize_turn_from_deg false ['1', '2', '3'] 1).2 = 3 := by decide
  rw [e]
  rintro ⟨ws, ds, tail, hs, hws, hds, hlen, htail⟩
  have hl := congrArg List.length hs
  simp only [List.take, List.length_cons, List.length_nil, List.length_append] at hl
  have hw : ws = [] := by
    cases ws with
    | nil => rfl
    | cons x xs =>
      simp only [List.take, List.cons_append, List.cons.injEq] at hs
      have := hws x (List.mem_cons_self _ _)
      rw [← hs.1] at this
      exact absurd this (by decide)
  subst hw
  rcases htail with rfl | ⟨fd, rfl, _⟩
  · simp only [List.length_nil] at hl
    omega
  · have hmem : '.' ∈ ['1', '2', '3'].take 3 := by
      rw [hs]
      simp
    simp at hmem

/-- C12 as amended: for every text, the prefix that `deserialize_turn_from_deg`
consumes is white space, then at most three decimal digits, then nothing or a point
and decimal digits; and when the end pointer designates a digit, the run of integer
digits is longer than three. -/
theorem C12_accepted_grammar_amended (force_32bit : Bool) (text : List Char)
    (bit_width : Nat) :
    matches_grammar 3 (text.take (deserialize_turn_from_deg force_32bit text bit_width).2) ∧
      ∀ c, (text.drop (deserialize_turn_from_deg force_32bit text bit_width).2).head? = some c →
        isdigit c = true → 3 < (int_run text).length := by
  rw [cursor_eq]
  exact ⟨consumed_text_matches text, digit_at_cursor text⟩

/-- C13: no sign is accepted.  For every bit width and every text whose first
character is neither white space, a decimal digit nor a point, as `'+'` and `'-'`
are, `deserialize_turn_from_deg` returns the turn 0 and the cursor 0. -/
theorem C13_no_sign_is_accepted (force_32bit : Bool) (c : Char) (rest : List Char)
    (bit_width : Nat) (hs : isspace c = false) (hd : isdigit c = false) (hp : c ≠ '.') :
    deserialize_turn_from_deg force_32bit (c :: rest) bit_width = (0, 0) := by
  unfold deserialize_turn_from_deg
  simp only [parse_deg_stop c rest hs hd hp, div_zero, Nat.sub_self]
  simp

/-- C13 on the texts "+180.0" and "-180.0" of the test table, at bit width 2. -/
theorem C13_no_sign_is_accepted_witness :
    deserialize_turn_from_deg false ['+', '1', '8', '0', '.', '0'] 2 = (0, 0) ∧
      deserialize_turn_from_deg true ['-', '1', '8', '0', '.', '0'] 2 = (0, 0) :=
  ⟨C13_no_sign_is_accepted false '+' ['1', '8', '0', '.', '0'] 2 (by decide) (by decide)
      (by decide),
    C13_no_sign_is_accepted true '-' ['1', '8', '0', '.', '0'] 2 (by decide) (by decide)
      (by decide)⟩

/-- C14: only the first five fractional digits count.  For every bit width and
every text made of white space, at most three integer digits, a point and five
fractional digits, what follows the fifth fractional digit (`t1`, more digits or
anything else, or nothing) can be replaced by any other `t2` without a change of
the turn that `deserialize_turn_from_deg` returns. -/
theorem C14_only_five_fractional_digits_count (force_32bit : Bool)
    (ws ds f5 t1 t2 : List Char) (bit_width : Nat) (hws : ∀ c ∈ ws, isspace c = true)
    (hds : ∀ c ∈ ds, isdigit c = true) (hlen : ds.length ≤ 3)
    (hf : ∀ c ∈ f5, isdigit c = true) (hf5 : f5.length = 5) :
    (deserialize_turn_from_deg force_32bit (ws ++ (ds ++ '.' :: (f5 ++ t1))) bit_width).1 =
      (deserialize_turn_from_deg force_32bit (ws ++ (ds ++ '.' :: (f5 ++ t2))) bit_width).1 := by
  obtain ⟨a1, a2⟩ := parse_five ws ds f5 t1 hws hds hlen hf hf5
  obtain ⟨b1, b2⟩ := parse_five ws ds f5 t2 hws hds hlen hf hf5
  exact deserialize_congr force_32bit _ _ bit_width (by rw [a1, b1]) (by rw [a2, b2])

/-- C14 on "1.234567890" of the test table and "1.23456", at bit width 1. -/
theorem C14_only_five_fractional_digits_count_witness :
    (deserialize_turn_from_deg false
        ([] ++ (['1'] ++ '.' :: (['2', '3', '4', '5', '6'] ++ ['7', '8', '9', '0']))) 1).1 =
      (deserialize_turn_from_deg false
        ([] ++ (['1'] ++ '.' :: (['2', '3', '4', '5', '6'] ++ []))) 1).1 :=
  C14_only_five_fractional_digits_count false [] ['1'] ['2', '3', '4', '5', '6']
    ['7', '8', '9', '0'] [] 1 (by decide) (by decide) (by decide) (by decide) (by decide)

/-! ## The value of the deserialiser (C15, C16) -/

/-- C15 as stated fails: the text "180" is read at bit width 2 as the turn 2, half
a turn, while `N * 2 ^ bit_width / (180 * S)` rounded half up is 4, which the mask
of two bits turns into 0. -/
theorem C15_counterexample :
    (deserialize_turn_from_deg false ['1', '8', '0'] 2).1 = 2 ∧
      spec_N ['1', '8', '0'] = 180 ∧ spec_S ['1', '8', '0'] = 1 ∧
      round_half_up (spec_N ['1', '8', '0'] * 2 ^ 2) (180 * spec_S ['1', '8', '0']) % 2 ^ 2 = 0 := by
  decide

/-- C15 as amended: for every bit width up to 22 and every text, with `N` the
integer of the digits read (the integer part modulo 360, then the up to five
fractional digits) and `S` ten to the number of fractional digits used,
`deserialize_turn_from_deg` returns the quotient of `N * 2 ^ bit_width` by
`180 * S`, rounded down, then halved with rounding half up, reduced to `bit_width`
bits. -/
theorem C15_numeric_reconstruction_amended (force_32bit : Bool) (text : List Char)
    (bit_width : Nat) (hb : bit_width ≤ 22) :
    (deserialize_turn_from_deg force_32bit text bit_width).1 =
      round_half_up (spec_N text * 2 ^ bit_width / (180 * spec_S text)) 2 % 2 ^ bit_width := by
  rw [deserialize_value force_32bit text hb]
  unfold round_half_up
  congr 1
  omega

/-- C15 as amended, on the text "180" at bit width 2: the turn is 2. -/
theorem C15_numeric_reconstruction_amended_witness :
    (deserialize_turn_from_deg false ['1', '8', '0'] 2).1 =
      round_half_up (spec_N ['1', '8', '0'] * 2 ^ 2 / (180 * spec_S ['1', '8', '0'])) 2 % 2 ^ 2 :=
  C15_numeric_reconstruction_amended false ['1', '8', '0'] 2 (by decide)

/-- C16: the two division paths agree.  For every bit width up to 22, every `S10`
among 1, 10, ..., 100000 and every `deg` below `360 * S10`, with `S = 180 * S10`:
the bit-serial loop makes `bit_width + 1` passes, in each of which `U` is 0 or 1 and
no product, difference or shift leaves the range of 32 bits; it computes the
quotient `deg * 2 ^ bit_width / S`, rounded down, as the widened division does; and
`deserialize_turn_from_deg` returns the same turn and cursor on both paths, for
every text. -/
theorem C16_division_paths_agree (deg S10 bit_width : Nat) (hb2 : bit_width ≤ 22)
    (hS : S10 ∈ [1, 10, 100, 1000, 10000, 100000])
    (hdeg : deg < 360 * S10) :
    (div_serial_trace (180 * S10) (bit_width + 1) deg 0).length = bit_width + 1 ∧
      (∀ p ∈ div_serial_trace (180 * S10) (bit_width + 1) deg 0, p.fits) ∧
      div_serial deg (180 * S10) bit_width = deg * 2 ^ bit_width / (180 * S10) ∧
      div_wide deg (180 * S10) bit_width = deg * 2 ^ bit_width / (180 * S10) ∧
      ∀ text, deserialize_turn_from_deg true text bit_width =
        deserialize_turn_from_deg false text bit_width := by
  have hS1 : 0 < S10 ∧ S10 ≤ 100000 := by
    simp only [List.mem_cons, List.mem_singleton, List.not_mem_nil, or_false] at hS
    omega
  have hB := two_pow_le_22 hb2
  have h1 := @div_paths deg (180 * S10) bit_width (by omega) (by omega) (by omega) hb2 true
  have h2 := @div_paths deg (180 * S10) bit_width (by omega) (by omega) (by omega) hb2 false
  simp only [if_true, Bool.false_eq_true, if_false] at h1 h2
  refine ⟨div_serial_trace_length _ _ _ _, ?_, h1, h2, fun text => deserialize_paths text hb2⟩
  exact div_serial_trace_fits (by omega) (by omega) _ _ _ (by omega) (by
    rw [pow_succ]
    omega)

/-- C16 at bit width 22 for 359.99999 degrees. -/
theorem C16_division_paths_agree_witness :
    (div_serial_trace (180 * 100000) (22 + 1) 35999999 0).length = 22 + 1 ∧
      (∀ p ∈ div_serial_trace (180 * 100000) (22 + 1) 35999999 0, p.fits) ∧
      div_serial 35999999 (180 * 100000) 22 = 35999999 * 2 ^ 22 / (180 * 100000) ∧
      div_wide 35999999 (180 * 100000) 22 = 35999999 * 2 ^ 22 / (180 * 100000) ∧
      ∀ text, deserialize_turn_from_deg true text 22 =
        deserialize_turn_from_deg false text 22 :=
  C16_division_paths_agree 35999999 100000 22 (by decide) (by decide) (by decide)

/-! ## The direct converter (C17, C18) -/

/-- C17: round trip through the direct converter.  For every bit width in [1,22],
turn below `2 ^ bit_width` and precision in [-2,5], `conv_deg_to_turn`, applied to
the number that the text of `serialize_turn_to_deg_ps` denotes, returns the turn,
and likewise for the texts of `serialize_turn_to_deg` and `serialize_turn_to_deg_p`;
the argument of `conv_deg_to_turn` is an exact rational number. -/
theorem C17_roundtrip_conv_deg_to_turn (mem : Mem) (buf turn bit_width : Nat)
    (precision : Int) (hb1 : 1 ≤ bit_width) (hb2 : bit_width ≤ 22)
    (ht : turn < 2 ^ bit_width) (hp1 : -2 ≤ precision) (hp2 : precision ≤ 5) :
    conv_deg_to_turn (decimal_value
        (out_str (serialize_turn_to_deg_ps mem buf turn bit_width precision) buf)) bit_width =
        turn ∧
      conv_deg_to_turn (decimal_value
        (out_str (serialize_turn_to_deg mem buf turn bit_width) buf)) bit_width = turn ∧
      conv_deg_to_turn (decimal_value
        (out_str (serialize_turn_to_deg_p mem buf turn bit_width precision) buf)) bit_width =
        turn := by
  have hm : turn % 2 ^ bit_width = turn := Nat.mod_eq_of_lt ht
  obtain ⟨ds1, zs, h1, _⟩ := serialize_ps_out mem buf turn bit_width precision hb1 hb2 hp1 hp2
  obtain ⟨ds2, h2, _⟩ := serialize_out mem buf turn bit_width hb1 hb2
  obtain ⟨ds3, h3, _⟩ := serialize_p_out mem buf turn bit_width precision hb1 hb2 hp1 hp2
  rw [hm] at h1 h2 h3
  exact ⟨conv_of_ser_out h1 hb1 hb2 ht, conv_of_ser_out h2 hb1 hb2 ht,
    conv_of_ser_out h3 hb1 hb2 ht⟩

/-- C17 at bit width 4, turn 5 and precision 1: the texts are "112.5", "110" and
"112.5". -/
theorem C17_roundtrip_conv_deg_to_turn_witness :
    conv_deg_to_turn (decimal_value
        (out_str (serialize_turn_to_deg_ps (fun _ => 0) 0 5 4 1) 0)) 4 = 5 ∧
      conv_deg_to_turn (decimal_value
        (out_str (serialize_turn_to_deg (fun _ => 0) 0 5 4) 0)) 4 = 5 ∧
      conv_deg_to_turn (decimal_value
        (out_str (serialize_turn_to_deg_p (fun _ => 0) 0 5 4 1) 0)) 4 = 5 :=
  C17_roundtrip_conv_deg_to_turn (fun _ => 0) 0 5 4 1 (by decide) (by decide) (by decide)
    (by decide) (by decide)

/-- C18: the code at the failing inputs.  At bit width 1 `conv_deg_to_turn` returns
2 for 359.5 degrees, which is `2 ^ bit_width` and so above the documented range,
and 2147483648 for -90 degrees; `deserialize_turn_from_deg`, which masks its
result, returns 0 for the text "359.5". -/
theorem C18_conv_deg_to_turn_leaves_range :
    conv_deg_to_turn (719 / 2) 1 = 2 ∧ ¬ (conv_deg_to_turn (719 / 2) 1 ≤ 2 ^ 1 - 1) ∧
      conv_deg_to_turn (-90) 1 = 2147483648 ∧
      (deserialize_turn_from_deg false ['3', '5', '9', '.', '5'] 1).1 = 0 := by
  decide!

/-! ## Parameters out of range (C19, C20) -/

/-- C19: the serialisers clamp a configuration out of range (build with `NDEBUG`).
For every memory, buffer, turn, bit width and precision: with a precision above 5
`serialize_turn_to_deg_p` and `serialize_turn_to_deg_ps` return what they return
with the precision 5, and with a precision below -2 what they return with -2; with
a bit width above 22 every serialiser returns what it returns with 22, and with the
bit width 0 what it returns with 1; and the turn counts through its lowest bits
only, as many as the clamped bit width.  The results are equal as a whole: the
memory, with the text in it, and the returned pointer. -/
theorem C19_serializers_clamp_out_of_range (mem : Mem) (buf turn bit_width : Nat)
    (precision : Int) :
    (5 < precision →
      serialize_turn_to_deg_p mem buf turn bit_width precision =
          serialize_turn_to_deg_p mem buf turn bit_width 5 ∧
        serialize_turn_to_deg_ps mem buf turn bit_width precision =
          serialize_turn_to_deg_ps mem buf turn bit_width 5) ∧
      (precision < -2 →
        serialize_turn_to_deg_p mem buf turn bit_width precision =
            serialize_turn_to_deg_p mem buf turn bit_width (-2) ∧
          serialize_turn_to_deg_ps mem buf turn bit_width precision =
            serialize_turn_to_deg_ps mem buf turn bit_width (-2)) ∧
      (22 < bit_width →
        serialize_turn_to_deg mem buf turn bit_width = serialize_turn_to_deg mem buf turn 22 ∧
          serialize_turn_to_deg_p mem buf turn bit_width precision =
            serialize_turn_to_deg_p mem buf turn 22 precision ∧
          serialize_turn_to_deg_ps mem buf turn bit_width precision =
            serialize_turn_to_deg_ps mem buf turn 22 precision) ∧
      (serialize_turn_to_deg mem buf turn 0 = serialize_turn_to_deg mem buf turn 1 ∧
        serialize_turn_to_deg_p mem buf turn 0 precision =
          serialize_turn_to_deg_p mem buf turn 1 precision ∧
        serialize_turn_to_deg_ps mem buf turn 0 precision =
          serialize_turn_to_deg_ps mem buf turn 1 precision) ∧
      (serialize_turn_to_deg mem buf turn bit_width =
          serialize_turn_to_deg mem buf (turn % 2 ^ PARAM_CHECK_uint bit_width 1 22) bit_width ∧
        serialize_turn_to_deg_p mem buf turn bit_width precision =
          serialize_turn_to_deg_p mem buf (turn % 2 ^ PARAM_CHECK_uint bit_width 1 22)
            bit_width precision ∧
        serialize_turn_to_deg_ps mem buf turn bit_width precision =
          serialize_turn_to_deg_ps mem buf (turn % 2 ^ PARAM_CHECK_uint bit_width 1 22)
            bit_width precision) := by
  refine ⟨fun h => ?_, fun h => ?_, fun h => ?_, ?_, serialize_mask mem buf turn bit_width precision⟩
  · exact (serialize_congr mem buf turn rfl (clamp_place_low h)).2
  · exact (serialize_congr mem buf turn rfl (clamp_place_high h)).2
  · exact serialize_congr mem buf turn (clamp_width_high h) rfl
  · exact serialize_congr mem buf turn clamp_width_zero rfl

/-- C19 at the turn 5 with the bit width 40 and the precision 9: the texts are those
of the bit width 22 and of the precision 5. -/
theorem C19_serializers_clamp_out_of_range_witness :
    serialize_turn_to_deg_p (fun _ => 0) 0 5 40 9 = serialize_turn_to_deg_p (fun _ => 0) 0 5 40 5 ∧
      serialize_turn_to_deg (fun _ => 0) 0 5 40 = serialize_turn_to_deg (fun _ => 0) 0 5 22 :=
  ⟨((C19_serializers_clamp_out_of_range (fun _ => 0) 0 5 40 9).1 (by decide)).1,
    ((C19_serializers_clamp_out_of_range (fun _ => 0) 0 5 40 9).2.2.1 (by decide)).1⟩

/-- C20: the code at the failing inputs.  `deserialize_turn_from_deg` does not clamp
the bit width: the text "180" is read as 4194304 at the bit width 23 and as 2097152
at 22, and as 0 at the bit width 0 and as 1 at 1, on both division paths. -/
theorem C20_deserializer_does_not_clamp :
    (deserialize_turn_from_deg false ['1', '8', '0'] 23).1 = 4194304 ∧
      (deserialize_turn_from_deg false ['1', '8', '0'] 22).1 = 2097152 ∧
      (deserialize_turn_from_deg false ['1', '8', '0'] 0).1 = 0 ∧
      (deserialize_turn_from_deg false ['1', '8', '0'] 1).1 = 1 ∧
      (deserialize_turn_from_deg true ['1', '8', '0'] 23).1 = 4194304 ∧
      (deserialize_turn_from_deg true ['1', '8', '0'] 22).1 = 2097152 ∧
      (deserialize_turn_from_deg true ['1', '8', '0'] 0).1 = 0 ∧
      (deserialize_turn_from_deg true ['1', '8', '0'] 1).1 = 1 := by
  decide

/-! ## The digit generator (C21, C22) -/

/-- C21: the digit generator always resolves.  For every bit width in [1,22], every
turn and every requested place in [-5,2], the generator with its assertions checked
and 8 passes allowed ends without a failed assertion, after `n ≤ 8` passes, with
the digit array and the place `k` that `conv_turn_to_deg_digit_array` returns,
`-5 ≤ k ≤ place`, and with `low` or `high` true. -/
theorem C21_generator_always_resolves (mem : Mem) (buf turn bit_width : Nat) (place : Int)
    (hb1 : 1 ≤ bit_width) (hb2 : bit_width ≤ 22) (hp1 : -5 ≤ place) (hp2 : place ≤ 2) :
    ∃ s n, conv_turn_to_deg_digit_array_assert mem buf turn bit_width place = some (s, n) ∧
      1 ≤ n ∧ n ≤ 8 ∧
      conv_turn_to_deg_digit_array mem buf turn bit_width place = (s.mem, s.k) ∧
      -5 ≤ s.k ∧ s.k ≤ place ∧ (s.low = true ∨ s.high = true) := by
  have hB := two_pow_pos bit_width
  have hB22 := two_pow_le_22 hb2
  have hmask : u32 turn &&& sub32 (shl1 bit_width) 1 = turn % 2 ^ bit_width := by
    rw [mask_eq hb2]
    unfold u32
    exact Nat.mod_mod_of_dvd _ (by
      have : (4294967296 : Nat) = 2 ^ 32 := by norm_num
      rw [this]
      exact Nat.pow_dvd_pow 2 (by omega))
  have hT : turn % 2 ^ bit_width < 2 ^ bit_width := Nat.mod_lt _ hB
  unfold conv_turn_to_deg_digit_array_assert conv_turn_to_deg_digit_array
  simp only [SERDES_TURN_DEG_MIN_PLACE, SERDES_TURN_DEG_MAX_PLACE, SERDES_TURN_DEG_MAX_PRECISION,
    SERDES_TURN_DEG_MIN_PRECISION, SERDES_TURN_DEG_MIN_BIT_WIDTH, SERDES_TURN_DEG_MAX_BIT_WIDTH,
    neg_neg]
  rw [if_pos ⟨⟨hp1, hp2⟩, hb1, hb2⟩, PARAM_CHECK_uint_id hb1 hb2, PARAM_CHECK_int_id hp1 hp2,
    hmask, shl1_eq hb2]
  generalize turn % 2 ^ bit_width = T at *
  generalize 2 ^ bit_width = B at *
  have e1 : u32 (T * 360) = T * 360 := u32_of_lt (by omega)
  have e2 : u32 (B * 100) = 100 * B := by rw [u32_of_lt (by omega), Nat.mul_comm]
  rw [e1, e2]
  have inv : GenInv mem buf B T place 0 0
      { mem := mem, R := T * 360, M := 180, k := 2 + 1, low := false, high := false } := by
    refine ⟨by simp, by simp, rfl, rfl, ?_, ?_, ?_, ?_, ?_, ?_, ?_⟩
    · simp only [pow_zero]
      omega
    · simp only []
      omega
    · intro _
      simp only []
      omega
    · intro i hi
      omega
    · intro q _
      rfl
    · intro h
      omega
    · intro j' hj'
      omega
  obtain ⟨j, D, u, _, hrun, post⟩ :=
    gen_loop_assert_spec hB hB22 hp1 8 0 0 _ 0 (by omega) (by omega) inv
  have hj := post.hj
  have hk := post.hk
  have hpl := post.hplace
  refine ⟨_, _, hrun, by omega, by omega, rfl, by omega, by omega, post.hres⟩

/-- C21 at bit width 22, turn 1 and the requested place 2: the loop makes 7 passes
and ends at the place -4. -/
theorem C21_generator_always_resolves_witness :
    ∃ s n, conv_turn_to_deg_digit_array_assert (fun _ => 0) 0 1 22 2 = some (s, n) ∧
      1 ≤ n ∧ n ≤ 8 ∧
      conv_turn_to_deg_digit_array (fun _ => 0) 0 1 22 2 = (s.mem, s.k) ∧
      -5 ≤ s.k ∧ s.k ≤ 2 ∧ (s.low = true ∨ s.high = true) :=
  C21_generator_always_resolves (fun _ => 0) 0 1 22 2 (by decide) (by decide) (by decide)
    (by decide)

/-- C22: no 32-bit overflow in the digit generation.  For every bit width in [1,22],
turn below `2 ^ bit_width` and requested place in [-5,2]: `turn * 360` and
`S = 2 ^ bit_width * 100` are below `2 ^ 32`; in every pass of the loop `U * S` is
at most `R`, and `U * S`, `R + M` and `R * 10` are below `2 ^ 32`, and so is
`M * 10` when a further pass follows; and the digit array and the place returned
are those of the generator computed with unbounded integers. -/
theorem C22_no_overflow_in_generation (mem : Mem) (buf turn bit_width : Nat) (place : Int)
    (hb1 : 1 ≤ bit_width) (hb2 : bit_width ≤ 22) (ht : turn < 2 ^ bit_width)
    (hp1 : -5 ≤ place) (hp2 : place ≤ 2) :
    turn * 360 < 4294967296 ∧ 2 ^ bit_width * 100 < 4294967296 ∧
      conv_turn_trace mem buf turn bit_width place ≠ [] ∧
      (∀ p ∈ conv_turn_trace mem buf turn bit_width place, p.fits) ∧
      conv_turn_to_deg_digit_array mem buf turn bit_width place =
        conv_turn_to_deg_digit_array_ideal mem buf turn bit_width place := by
  have hB := two_pow_pos bit_width
  have hB22 := two_pow_le_22 hb2
  have hmask : u32 turn &&& sub32 (shl1 bit_width) 1 = turn := by
    rw [mask_eq hb2, u32_of_lt (by omega), Nat.mod_eq_of_lt ht]
  have hmask2 : turn &&& (1 <<< bit_width - 1) = turn := by
    rw [Nat.one_shiftLeft, Nat.and_pow_two_sub_one_eq_mod, Nat.mod_eq_of_lt ht]
  have e1 : u32 (turn * 360) = turn * 360 := u32_of_lt (by omega)
  have e2 : u32 (2 ^ bit_width * 100) = 100 * 2 ^ bit_width := by
    rw [u32_of_lt (by omega), Nat.mul_comm]
  have e3 : 1 <<< bit_width * 100 = 100 * 2 ^ bit_width := by
    rw [Nat.one_shiftLeft, Nat.mul_comm]
  have inv := gen_inv_init mem buf (2 ^ bit_width) turn place ht
  refine ⟨by omega, by omega, ?_, ?_, ?_⟩
  · unfold conv_turn_trace
    simp only [SERDES_TURN_DEG_MIN_PLACE, SERDES_TURN_DEG_MAX_PLACE,
      SERDES_TURN_DEG_MAX_PRECISION, SERDES_TURN_DEG_MIN_PRECISION,
      SERDES_TURN_DEG_MIN_BIT_WIDTH, SERDES_TURN_DEG_MAX_BIT_WIDTH, neg_neg]
    rw [PARAM_CHECK_uint_id hb1 hb2, PARAM_CHECK_int_id hp1 hp2, hmask, shl1_eq hb2, e1, e2]
    unfold gen_trace
    simp
  · unfold conv_turn_trace
    simp only [SERDES_TURN_DEG_MIN_PLACE, SERDES_TURN_DEG_MAX_PLACE,
      SERDES_TURN_DEG_MAX_PRECISION, SERDES_TURN_DEG_MIN_PRECISION,
      SERDES_TURN_DEG_MIN_BIT_WIDTH, SERDES_TURN_DEG_MAX_BIT_WIDTH, neg_neg]
    rw [PARAM_CHECK_uint_id hb1 hb2, PARAM_CHECK_int_id hp1 hp2, hmask, shl1_eq hb2, e1, e2]
    exact gen_trace_fits hB hB22 hp1 8 0 0 _ (by omega) inv
  · unfold conv_turn_to_deg_digit_array conv_turn_to_deg_digit_array_ideal
    simp only [SERDES_TURN_DEG_MIN_PLACE, SERDES_TURN_DEG_MAX_PLACE,
      SERDES_TURN_DEG_MAX_PRECISION, SERDES_TURN_DEG_MIN_PRECISION,
      SERDES_TURN_DEG_MIN_BIT_WIDTH, SERDES_TURN_DEG_MAX_BIT_WIDTH, neg_neg]
    rw [PARAM_CHECK_uint_id hb1 hb2, PARAM_CHECK_int_id hp1 hp2, hmask, hmask2, shl1_eq hb2,
      e1, e2, e3]
    obtain ⟨hm, hk⟩ := gen_loop_agrees hB hB22 hp1 8 0 0 _ (by omega) inv
    rw [hm, hk]

/-- C22 at bit width 22 for the turn 4194303 and the requested place -5. -/
theorem C22_no_overflow_in_generation_witness :
    4194303 * 360 < 4294967296 ∧ 2 ^ 22 * 100 < 4294967296 ∧
      conv_turn_trace (fun _ => 0) 0 4194303 22 (-5) ≠ [] ∧
      (∀ p ∈ conv_turn_trace (fun _ => 0) 0 4194303 22 (-5), p.fits) ∧
      conv_turn_to_deg_digit_array (fun _ => 0) 0 4194303 22 (-5) =
        conv_turn_to_deg_digit_array_ideal (fun _ => 0) 0 4194303 22 (-5) :=
  C22_no_overflow_in_generation (fun _ => 0) 0 4194303 22 (-5) (by decide) (by decide)
    (by decide) (by decide) (by decide)

/-! ## The carry pass (C23, C24) -/

/-- C23: the contract of the carry pass.  For every digit array of `j + 1` cells,
from the place 2 down to the lowest place `2 - j` (in [-5,2], or lower), whose
digits above the lowest place are in [0,9], whose digit at the lowest place is in
[0,10] and whose value (a 10 counting as ten units) is below 360: after
`carry_up_overflow` every digit is in [0,9], the array denotes the same value, and a
cell has changed only if it lies on the chain of carries, the lowest place having
held 10 and every place between having held 9 (so a 10 after the carry from
below). -/
theorem C23_carry_pass_contract (m : Mem) (da j : Nat)
    (h9 : ∀ i, i < j → m (da + i) ≤ 9) (h10 : m (da + j) ≤ 10)
    (h360 : 100 * dval (cells m da (j + 1)) < 360 * 10 ^ j) :
    (∀ i, i ≤ j → carry_up_overflow m da (2 - (j : Int)) (da + i) ≤ 9) ∧
      dval (cells (carry_up_overflow m da (2 - (j : Int))) da (j + 1)) =
        dval (cells m da (j + 1)) ∧
      ∀ q, carry_up_overflow m da (2 - (j : Int)) q ≠ m q →
        ∃ i, i ≤ j ∧ q = da + i ∧ m (da + j) = 10 ∧ ∀ l, i < l → l < j → m (da + l) = 9 := by
  obtain ⟨hd, _⟩ := holds_digits_of_le9 m da j h9
  have hv : dval (cells m da (j + 1)) = 10 * dval (cells m da j) + m (da + j) := by
    rw [cells_snoc, dval_snoc]
  have hlt : 10 * dval (cells m da j) + m (da + j) < 10 ^ (j + 1) := by
    rw [hv] at h360
    rw [pow_succ]
    omega
  obtain ⟨hd2, _⟩ := carry_up_spec da j m _ _ hd rfl h10 hlt
  obtain ⟨hval, hle⟩ := dval_cells _ da (j + 1) _ hd2 hlt
  refine ⟨fun i hi => hle i (by omega), by rw [hval, hv], ?_⟩
  unfold carry_up_overflow
  have e : (SERDES_TURN_DEG_MAX_PLACE - (2 - (j : Int))).toNat = j := BUF_INDEX_eq j
  rw [e]
  exact carry_loop_chain da j _ m rfl h9

/-- C23 on the digit array 1, 9, 9, 10 (lowest place -1): the result is 2, 0, 0, 0. -/
theorem C23_carry_pass_contract_witness :
    (∀ i, i ≤ 3 → carry_up_overflow (fun q => if q = 0 then 1 else if q = 3 then 10 else 9)
        0 (2 - ((3 : Nat) : Int)) (0 + i) ≤ 9) ∧
      dval (cells (carry_up_overflow (fun q => if q = 0 then 1 else if q = 3 then 10 else 9)
        0 (2 - ((3 : Nat) : Int))) 0 (3 + 1)) =
        dval (cells (fun q => if q = 0 then 1 else if q = 3 then 10 else 9) 0 (3 + 1)) ∧
      ∀ q, carry_up_overflow (fun q => if q = 0 then 1 else if q = 3 then 10 else 9)
          0 (2 - ((3 : Nat) : Int)) q ≠ (fun q => if q = 0 then 1 else if q = 3 then 10 else 9) q →
        ∃ i, i ≤ 3 ∧ q = 0 + i ∧
          (fun q => if q = 0 then 1 else if q = 3 then 10 else 9) (0 + 3) = 10 ∧
          ∀ l, i < l → l < 3 →
            (fun q => if q = 0 then 1 else if q = 3 then 10 else 9) (0 + l) = 9 :=
  C23_carry_pass_contract (fun q => if q = 0 then 1 else if q = 3 then 10 else 9) 0 3
    (by decide) (by decide) (by decide)

/-- C24: the output of the generator satisfies the precondition of the carry pass
and is below 360.  For every bit width in [1,22], turn and requested place in
[-5,2], with `2 - j` the place that `conv_turn_to_deg_digit_array` returns: the
digits above the returned place are in [0,9], the digit at the returned place is in
[0,10] and is 10 only when the returned place is the requested one, below 2; the
value denoted (a 10 counting as ten units) is below 360; and after
`carry_up_overflow` the assertion of that function holds: the digits at the places
2 and 1 are not 3 and 6. -/
theorem C24_generator_output_invariant (mem : Mem) (da turn bit_width : Nat) (place : Int)
    (hb1 : 1 ≤ bit_width) (hb2 : bit_width ≤ 22) (hp1 : -5 ≤ place) (hp2 : place ≤ 2) :
    ∃ j : Nat, j ≤ 7 ∧
      (conv_turn_to_deg_digit_array mem da turn bit_width place).2 = 2 - (j : Int) ∧
      (∀ i, i < j → (conv_turn_to_deg_digit_array mem da turn bit_width place).1 (da + i) ≤ 9) ∧
      (conv_turn_to_deg_digit_array mem da turn bit_width place).1 (da + j) ≤ 10 ∧
      ((conv_turn_to_deg_digit_array mem da turn bit_width place).1 (da + j) = 10 →
        (conv_turn_to_deg_digit_array mem da turn bit_width place).2 = place ∧ place < 2) ∧
      100 * dval (cells (conv_turn_to_deg_digit_array mem da turn bit_width place).1 da (j + 1)) <
        360 * 10 ^ j ∧
      carry_up_overflow_assertion
        (carry_up_overflow (conv_turn_to_deg_digit_array mem da turn bit_width place).1 da
          (conv_turn_to_deg_digit_array mem da turn bit_width place).2) da
        (conv_turn_to_deg_digit_array mem da turn bit_width place).2 := by
  obtain ⟨s, j, D, u, hconv, post⟩ := conv_turn_spec mem da turn bit_width place
  rw [PARAM_CHECK_uint_id hb1 hb2, PARAM_CHECK_int_id hp1 hp2] at post
  have hT : turn % 2 ^ bit_width < 2 ^ bit_width := Nat.mod_lt _ (two_pow_pos bit_width)
  have h360 := near_lt post.hnear hT
  have hu := post.hu
  have hD : D < 10 ^ j := by omega
  have hlt : 10 * D + u < 10 ^ (j + 1) := by
    rw [pow_succ]
    omega
  obtain ⟨hval, h9⟩ := dval_cells s.mem da j D post.hdig hD
  rw [hconv]
  simp only []
  refine ⟨j, post.hj, post.hk, h9, by rw [post.hlast]; exact hu, ?_, ?_, ?_⟩
  · intro h10
    rw [post.hlast] at h10
    obtain ⟨e1, e2⟩ := post.hu9 h10
    rw [post.hk]
    exact ⟨e1, by omega⟩
  · rw [cells_snoc, dval_snoc, hval, post.hlast]
    exact h360
  · intro hk
    rw [post.hk] at hk ⊢
    obtain ⟨hd2, _⟩ := carry_up_spec da j s.mem D u post.hdig post.hlast hu hlt
    exact not_36 (by omega) hd2 h360

/-- C24 at bit width 7, turn 71 and the requested place 0: the digits generated are
1, 9, 10 and the carry pass makes 2, 0, 0 of them. -/
theorem C24_generator_output_invariant_witness :
    ∃ j : Nat, j ≤ 7 ∧
      (conv_turn_to_deg_digit_array (fun _ => 0) 0 71 7 0).2 = 2 - (j : Int) ∧
      (∀ i, i < j → (conv_turn_to_deg_digit_array (fun _ => 0) 0 71 7 0).1 (0 + i) ≤ 9) ∧
      (conv_turn_to_deg_digit_array (fun _ => 0) 0 71 7 0).1 (0 + j) ≤ 10 ∧
      ((conv_turn_to_deg_digit_array (fun _ => 0) 0 71 7 0).1 (0 + j) = 10 →
        (conv_turn_to_deg_digit_array (fun _ => 0) 0 71 7 0).2 = 0 ∧ (0 : Int) < 2) ∧
      100 * dval (cells (conv_turn_to_deg_digit_array (fun _ => 0) 0 71 7 0).1 0 (j + 1)) <
        360 * 10 ^ j ∧
      carry_up_overflow_assertion
        (carry_up_overflow (conv_turn_to_deg_digit_array (fun _ => 0) 0 71 7 0).1 0
          (conv_turn_to_deg_digit_array (fun _ => 0) 0 71 7 0).2) 0
        (conv_turn_to_deg_digit_array (fun _ => 0) 0 71 7 0).2 :=
  C24_generator_output_invariant (fun _ => 0) 0 71 7 0 (by decide) (by decide) (by decide)
    (by decide)

/-! ## The formatter (C25) -/

/-- C25: the formatter preserves the value.  For every digit array of `j + 1` cells
with digits in [0,9], from the place 2 down to the lowest place `2 - j` in [-5,2],
read in place (one cell behind the text) or apart from the text: the text of
`conv_deg_digit_array_to_string`, read as a decimal number, is the sum of
`digit * 10 ^ place`; it has a point exactly when the lowest place is below 0, and
then exactly `-lowest_place` digits after the point; and when the lowest place is
above 0 the text is "0" if every digit is zero, and otherwise the digits without
leading zeros followed by a `'0'` for each place below the lowest, down to 0. -/
theorem C25_formatter_preserves_value (m : Mem) (dest src j : Nat) (hj : j ≤ 7)
    (hsrc : src = dest + 1 ∨ src + 8 ≤ dest ∨ dest + 10 ≤ src)
    (h9 : ∀ i, i ≤ j → m (src + i) ≤ 9) :
    decimal_value (out_str (conv_deg_digit_array_to_string m dest src (2 - (j : Int))) dest) =
        array_value m src j ∧
      ('.' ∈ out_str (conv_deg_digit_array_to_string m dest src (2 - (j : Int))) dest ↔
        (2 : Int) - (j : Int) < 0) ∧
      ((2 : Int) - (j : Int) < 0 → ∃ fd,
        out_str (conv_deg_digit_array_to_string m dest src (2 - (j : Int))) dest =
          int_part (out_str (conv_deg_digit_array_to_string m dest src (2 - (j : Int))) dest) ++
            '.' :: fd ∧
        (fd.length : Int) = -((2 : Int) - (j : Int)) ∧ ∀ c ∈ fd, isdigit c = true) ∧
      ((0 : Int) < (2 : Int) - (j : Int) →
        ((∀ i, i ≤ j → m (src + i) = 0) →
          out_str (conv_deg_digit_array_to_string m dest src (2 - (j : Int))) dest = ['0']) ∧
        (¬ (∀ i, i ≤ j → m (src + i) = 0) →
          out_str (conv_deg_digit_array_to_string m dest src (2 - (j : Int))) dest =
            ((cells m src (j + 1)).dropWhile fun d => d == 0).map
                (fun d => Char.ofNat (('0').toNat + d)) ++
              List.replicate (2 - j) '0')) := by
  have hd9 : ∀ d ∈ cells m src (j + 1), d ≤ 9 := by
    intro d hd
    unfold cells at hd
    rw [List.mem_map] at hd
    obtain ⟨i, hi, rfl⟩ := hd
    exact h9 i (by have := List.mem_range.1 hi; omega)
  have hlen := cells_length m src (j + 1)
  obtain ⟨_, _, i3, _⟩ := int3_shape (getD_le9 _ hd9 0) (getD_le9 _ hd9 1) (getD_le9 _ hd9 2)
    _ rfl
  have hfd := frac_digits (cells m src (j + 1)) hd9
  rw [fmt_string m dest src j hj hsrc h9]
  refine ⟨?_, ?_, ?_, ?_⟩
  · rw [decimal_render _ hd9, array_value_eq m src j hj, hlen]
  · rw [render_split, hlen]
    constructor
    · intro hmem
      by_contra hcon
      rw [if_pos (by omega), List.append_nil] at hmem
      exact absurd (i3 _ hmem) (by decide)
    · intro hlt
      rw [if_neg (by omega)]
      simp
  · intro hlt
    rw [int_part_render _ hd9]
    refine ⟨(List.drop 3 (cells m src (j + 1))).map fun d => Char.ofNat ((48 + d) % 256), ?_, ?_,
      hfd⟩
    · conv_lhs => rw [render_split]
      rw [hlen, if_neg (by omega)]
    · rw [List.length_map, List.length_drop, hlen]
      omega
  · intro hpos
    have hj1 : j ≤ 1 := by omega
    clear i3 hfd hd9 hlen
    have c0 : cells m src (0 + 1) = [m src] := rfl
    have c1 : cells m src (1 + 1) = [m src, m (src + 1)] := rfl
    have e0 : (48 + m src) % 256 = 48 + m src := by
      have := h9 0 (by omega)
      simp only [Nat.add_zero] at this
      omega
    constructor
    · intro hz
      have z0 : m src = 0 := hz 0 (by omega)
      interval_cases j
      · rw [c0]
        simp [render_bytes, fmt_int3, z0]
      · have z1 : m (src + 1) = 0 := hz 1 (by omega)
        rw [c1]
        simp [render_bytes, fmt_int3, z0, z1]
    · intro hnz
      interval_cases j
      · have h0 : m src ≠ 0 := fun h => hnz fun i hi => by
          have : i = 0 := by omega
          subst this
          exact h
        rw [c0]
        simp [render_bytes, fmt_int3, h0, e0]
      · have e1 : (48 + m (src + 1)) % 256 = 48 + m (src + 1) := by
          have := h9 1 (by omega)
          omega
        rw [c1]
        by_cases h0 : m src = 0
        · have h1 : m (src + 1) ≠ 0 := fun h => hnz fun i hi => by
            have : i = 0 ∨ i = 1 := by omega
            rcases this with rfl | rfl
            · exact h0
            · exact h
          simp [render_bytes, fmt_int3, h0, h1, e1]
        · simp [render_bytes, fmt_int3, h0, e0, e1]

/-- C25 on the digit array 0, 9 with the lowest place 1, in place: the text is
"90". -/
theorem C25_formatter_preserves_value_witness :
    decimal_value (out_str (conv_deg_digit_array_to_string
        (fun q => if q = 1 then 0 else 9) 0 1 (2 - ((1 : Nat) : Int))) 0) =
        array_value (fun q => if q = 1 then 0 else 9) 1 1 ∧
      ('.' ∈ out_str (conv_deg_digit_array_to_string
        (fun q => if q = 1 then 0 else 9) 0 1 (2 - ((1 : Nat) : Int))) 0 ↔
        (2 : Int) - ((1 : Nat) : Int) < 0) ∧
      ((2 : Int) - ((1 : Nat) : Int) < 0 → ∃ fd,
        out_str (conv_deg_digit_array_to_string
            (fun q => if q = 1 then 0 else 9) 0 1 (2 - ((1 : Nat) : Int))) 0 =
          int_part (out_str (conv_deg_digit_array_to_string
            (fun q => if q = 1 then 0 else 9) 0 1 (2 - ((1 : Nat) : Int))) 0) ++
            '.' :: fd ∧
        (fd.length : Int) = -((2 : Int) - ((1 : Nat) : Int)) ∧ ∀ c ∈ fd, isdigit c = true) ∧
      ((0 : Int) < (2 : Int) - ((1 : Nat) : Int) →
        ((∀ i, i ≤ 1 → (fun q => if q = 1 then 0 else 9) (1 + i) = 0) →
          out_str (conv_deg_digit_array_to_string
            (fun q => if q = 1 then 0 else 9) 0 1 (2 - ((1 : Nat) : Int))) 0 = ['0']) ∧
        (¬ (∀ i, i ≤ 1 → (fun q => if q = 1 then 0 else 9) (1 + i) = 0) →
          out_str (conv_deg_digit_array_to_string
              (fun q => if q = 1 then 0 else 9) 0 1 (2 - ((1 : Nat) : Int))) 0 =
            ((cells (fun q => if q = 1 then 0 else 9) 1 (1 + 1)).dropWhile fun d => d == 0).map
                (fun d => Char.ofNat (('0').toNat + d)) ++
              List.replicate (2 - 1) '0')) :=
  C25_formatter_preserves_value (fun q => if q = 1 then 0 else 9) 0 1 1 (by decide)
    (by decide) (by decide)

/-! ## The rounding rule as coded (C26) -/

/-- C26: the exact rounding rule of the deserialiser.  For every bit width up to 22
and every text, with `N` the integer of the digits read and `S` ten to the number of
fractional digits used, `deserialize_turn_from_deg` returns
`floor (N * 2 ^ bit_width / (360 * S) + 1 / 2)` modulo `2 ^ bit_width`, the quotient
being that of rational numbers (it is `round_half_up`, the same in natural numbers),
and so a turn below `2 ^ bit_width`. -/
theorem C26_exact_rounding_rule (force_32bit : Bool) (text : List Char) (bit_width : Nat)
    (hb : bit_width ≤ 22) :
    (deserialize_turn_from_deg force_32bit text bit_width).1 =
        ⌊(((spec_N text * 2 ^ bit_width : Nat) : ℚ) / ((360 * spec_S text : Nat) : ℚ) +
          1 / 2)⌋₊ % 2 ^ bit_width ∧
      (deserialize_turn_from_deg force_32bit text bit_width).1 =
        round_half_up (spec_N text * 2 ^ bit_width) (360 * spec_S text) % 2 ^ bit_width ∧
      (deserialize_turn_from_deg force_32bit text bit_width).1 ≤ 2 ^ bit_width - 1 := by
  obtain ⟨hS0, _⟩ := spec_S_range text
  have hBpos := two_pow_pos bit_width
  have h := deserialize_value force_32bit text hb
  have e : 360 * spec_S text = 2 * (180 * spec_S text) := by ring
  rw [half_quotient _ _ (by omega), ← e] at h
  refine ⟨?_, h, ?_⟩
  · rw [h, round_half_up_floor _ _ (by omega)]
  · rw [h]
    have := Nat.mod_lt (round_half_up (spec_N text * 2 ^ bit_width) (360 * spec_S text)) hBpos
    omega

/-- C26 on the text "269.99999" of the test table at bit width 1: 1.4999994 is
rounded to 1. -/
theorem C26_exact_rounding_rule_witness :
    (deserialize_turn_from_deg false ['2', '6', '9', '.', '9', '9', '9', '9', '9'] 1).1 =
        ⌊(((spec_N ['2', '6', '9', '.', '9', '9', '9', '9', '9'] * 2 ^ 1 : Nat) : ℚ) /
          ((360 * spec_S ['2', '6', '9', '.', '9', '9', '9', '9', '9'] : Nat) : ℚ) +
          1 / 2)⌋₊ % 2 ^ 1 ∧
      (deserialize_turn_from_deg false ['2', '6', '9', '.', '9', '9', '9', '9', '9'] 1).1 =
        round_half_up (spec_N ['2', '6', '9', '.', '9', '9', '9', '9', '9'] * 2 ^ 1)
          (360 * spec_S ['2', '6', '9', '.', '9', '9', '9', '9', '9']) % 2 ^ 1 ∧
      (deserialize_turn_from_deg false ['2', '6', '9', '.', '9', '9', '9', '9', '9'] 1).1 ≤
        2 ^ 1 - 1 :=
  C26_exact_rounding_rule false ['2', '6', '9', '.', '9', '9', '9', '9', '9'] 1 (by decide)

/-! ## Rounding and minimality of the digits (C27, C28) -/

/-- C27: the generated digits are the angle rounded half up at the place where the
generation stops.  For every bit width in [1,22], turn below `2 ^ bit_width` and
requested place in [-5,2], with `v = turn * 360 / 2 ^ bit_width` degrees,
`k = 2 - j` the place that `conv_turn_to_deg_digit_array` returns and `n` the
number that the `j + 1` digits written denote (a 10 counting as ten units), so that
they denote `D = n * 10 ^ k` degrees: `n = floor (v / 10 ^ k + 1 / 2)`, and `D` lies
strictly within half a step of the turn from `v`,
`v - 180 / 2 ^ bit_width < D < v + 180 / 2 ^ bit_width`. -/
theorem C27_digits_are_rounded_half_up (mem : Mem) (da turn bit_width : Nat) (place : Int)
    (hb1 : 1 ≤ bit_width) (hb2 : bit_width ≤ 22) (ht : turn < 2 ^ bit_width)
    (hp1 : -5 ≤ place) (hp2 : place ≤ 2) :
    ∃ j : Nat, (conv_turn_to_deg_digit_array mem da turn bit_width place).2 = 2 - (j : Int) ∧
      ((dval (cells (conv_turn_to_deg_digit_array mem da turn bit_width place).1 da (j + 1)) :
          Nat) : Int) =
        ⌊((turn : ℚ) * 360 / (2 : ℚ) ^ bit_width) / (10 : ℚ) ^ ((2 : Int) - (j : Int)) +
          1 / 2⌋ ∧
      (turn : ℚ) * 360 / (2 : ℚ) ^ bit_width - 180 / (2 : ℚ) ^ bit_width <
        (dval (cells (conv_turn_to_deg_digit_array mem da turn bit_width place).1 da (j + 1)) :
          ℚ) * (10 : ℚ) ^ ((2 : Int) - (j : Int)) ∧
      (dval (cells (conv_turn_to_deg_digit_array mem da turn bit_width place).1 da (j + 1)) :
          ℚ) * (10 : ℚ) ^ ((2 : Int) - (j : Int)) <
        (turn : ℚ) * 360 / (2 : ℚ) ^ bit_width + 180 / (2 : ℚ) ^ bit_width := by
  obtain ⟨s, j, D, u, hconv, post, hround, hstrict⟩ :=
    conv_turn_round mem da turn bit_width place hb1 hb2 hp1 hp2
  rw [Nat.mod_eq_of_lt ht] at post hround hstrict
  have h360 := near_lt post.hnear ht
  have hu := post.hu
  have hD : D < 10 ^ j := by omega
  obtain ⟨hval, _⟩ := dval_cells s.mem da j D post.hdig hD
  obtain ⟨_, hupper⟩ := post.hnear
  have hBq : (0 : ℚ) < (2 : ℚ) ^ bit_width := by positivity
  have hPq : (0 : ℚ) < (10 : ℚ) ^ j := by positivity
  rw [hconv]
  simp only []
  refine ⟨j, post.hk, ?_⟩
  rw [cells_snoc, dval_snoc, hval, post.hlast, ten_zpow]
  refine ⟨?_, ?_, ?_⟩
  · have e : (turn : ℚ) * 360 / (2 : ℚ) ^ bit_width / (100 / (10 : ℚ) ^ j) + 1 / 2 =
        ((360 * turn * 10 ^ j + 50 * 2 ^ bit_width : Nat) : ℚ) /
          ((100 * 2 ^ bit_width : Nat) : ℚ) := by
      push_cast
      field_simp
      ring
    rw [e, floor_nat_div, hround]
  · have h : ((360 * turn * 10 ^ j : Nat) : ℚ) <
        ((100 * 2 ^ bit_width * (10 * D + u) + 180 * 10 ^ j : Nat) : ℚ) := by
      exact_mod_cast hstrict
    push_cast at h ⊢
    rw [div_sub_div_same, div_lt_iff₀ hBq]
    have e : ((10 : ℚ) * D + u) * (100 / (10 : ℚ) ^ j) * (2 : ℚ) ^ bit_width =
        (100 * (2 : ℚ) ^ bit_width * (10 * D + u)) / (10 : ℚ) ^ j := by
      field_simp
      ring
    rw [e, lt_div_iff₀ hPq]
    nlinarith
  · have h : ((100 * 2 ^ bit_width * (10 * D + u) : Nat) : ℚ) <
        ((360 * turn * 10 ^ j + 180 * 10 ^ j : Nat) : ℚ) := by
      exact_mod_cast hupper
    push_cast at h ⊢
    rw [div_add_div_same, lt_div_iff₀ hBq]
    have e : ((10 : ℚ) * D + u) * (100 / (10 : ℚ) ^ j) * (2 : ℚ) ^ bit_width =
        (100 * (2 : ℚ) ^ bit_width * (10 * D + u)) / (10 : ℚ) ^ j := by
      field_simp
      ring
    rw [e, div_lt_iff₀ hPq]
    nlinarith

/-- C27 at bit width 4, turn 5 (112.5 degrees) and the requested place 2: the digits
1, 1 end at the place 1 and denote 110 degrees, within 11.25 degrees of 112.5. -/
theorem C27_digits_are_rounded_half_up_witness :
    ∃ j : Nat, (conv_turn_to_deg_digit_array (fun _ => 0) 0 5 4 2).2 = 2 - (j : Int) ∧
      ((dval (cells (conv_turn_to_deg_digit_array (fun _ => 0) 0 5 4 2).1 0 (j + 1)) :
          Nat) : Int) =
        ⌊(((5 : Nat) : ℚ) * 360 / (2 : ℚ) ^ 4) / (10 : ℚ) ^ ((2 : Int) - (j : Int)) +
          1 / 2⌋ ∧
      ((5 : Nat) : ℚ) * 360 / (2 : ℚ) ^ 4 - 180 / (2 : ℚ) ^ 4 <
        (dval (cells (conv_turn_to_deg_digit_array (fun _ => 0) 0 5 4 2).1 0 (j + 1)) :
          ℚ) * (10 : ℚ) ^ ((2 : Int) - (j : Int)) ∧
      (dval (cells (conv_turn_to_deg_digit_array (fun _ => 0) 0 5 4 2).1 0 (j + 1)) :
          ℚ) * (10 : ℚ) ^ ((2 : Int) - (j : Int)) <
        ((5 : Nat) : ℚ) * 360 / (2 : ℚ) ^ 4 + 180 / (2 : ℚ) ^ 4 :=
  C27_digits_are_rounded_half_up (fun _ => 0) 0 5 4 2 (by decide) (by decide) (by decide)
    (by decide) (by decide)

/-- C28: minimality in digit places.  For every bit width in [1,22] and turn below
`2 ^ bit_width`, when the generator called with the requested place 2, as
`serialize_turn_to_deg` calls it, returns the lowest place `k`, then for every place
`2 - p` with `k < 2 - p ≤ 2` and every multiple `n * 10 ^ (2 - p)` of
`10 ^ (2 - p)` below 360, the decimal text of this multiple is not deserialised to
the turn by `deserialize_turn_from_deg` at that bit width, on either division
path. -/
theorem C28_minimal_in_digit_places (force_32bit : Bool) (mem : Mem)
    (buf turn bit_width : Nat) (hb1 : 1 ≤ bit_width) (hb2 : bit_width ≤ 22)
    (hturn : turn < 2 ^ bit_width) (p n : Nat)
    (hplace : (conv_turn_to_deg_digit_array mem (buf + 1) turn bit_width
      SERDES_TURN_DEG_MAX_PLACE).2 < 2 - (p : Int))
    (hn : 100 * n < 360 * 10 ^ p) :
    (deserialize_turn_from_deg force_32bit (decimal_text n p) bit_width).1 ≠ turn := by
  obtain ⟨s, j, D, u, hconv, post⟩ :=
    conv_turn_spec mem (buf + 1) turn bit_width SERDES_TURN_DEG_MAX_PLACE
  have hp : p ≤ 7 := by
    rw [hconv] at hplace
    have hj := post.hj
    have hk := post.hk
    simp only [] at hplace
    omega
  have hparse := parse_decimal_text n p hp hn
  apply coarser_not_deserialized force_32bit mem buf turn bit_width hb1 hb2 hturn _ p n hplace
  rw [hparse]
  simp only []
  have e : n * 10 ^ (2 - p) * 10 ^ p = 100 * 10 ^ (p - 2) * n := by
    by_cases h2 : p ≤ 2
    · interval_cases p <;> simp <;> ring
    · have e1 : 2 - p = 0 := by omega
      obtain ⟨q, rfl⟩ : ∃ q, p = q + 2 := ⟨p - 2, by omega⟩
      rw [e1, Nat.add_sub_cancel, pow_add]
      ring
  exact e

/-- C28 at bit width 4 and turn 5, whose text "110" ends at the place 1: "100", the
text of a multiple of the place 2, is not deserialised to the turn 5. -/
theorem C28_minimal_in_digit_places_witness :
    (deserialize_turn_from_deg false (decimal_text 1 0) 4).1 ≠ 5 :=
  C28_minimal_in_digit_places false (fun _ => 0) 0 5 4 (by decide) (by decide) (by decide)
    0 1 (by decide) (by decide)

/-! ## Formatting in place (C29) -/

/-- C29: formatting in place is safe.  For every digit array of `j + 1` cells at
`buf + 1`, with the lowest place `2 - j` in [-5,2], and every copy of it at `src`
that does not overlap the 10 cells of the text at `buf`:
`conv_deg_digit_array_to_string` writes the same text and returns the same pointer
in place as from the copy, and in place every store made while digits are left to
read goes to an index below that of the next digit that has not been read. -/
theorem C29_in_place_formatting_is_safe (m m2 : Mem) (buf src j : Nat) (hj : j ≤ 7)
    (hsep : src + 8 ≤ buf ∨ buf + 10 ≤ src)
    (hcopy : ∀ i, i ≤ j → m2 (src + i) = m (buf + 1 + i)) :
    out_str (conv_deg_digit_array_to_string m buf (buf + 1) (2 - (j : Int))) buf =
        out_str (conv_deg_digit_array_to_string m2 buf src (2 - (j : Int))) buf ∧
      (conv_deg_digit_array_to_string m buf (buf + 1) (2 - (j : Int))).2 =
        (conv_deg_digit_array_to_string m2 buf src (2 - (j : Int))).2 ∧
      ∀ w ∈ conv_deg_digit_array_to_string_writes m buf (buf + 1) (2 - (j : Int)),
        w.1 < w.2 := by
  have hcells : cells m2 src (j + 1) = cells m (buf + 1) (j + 1) := by
    unfold cells
    apply List.map_congr_left
    intro i hi
    exact hcopy i (by have := List.mem_range.1 hi; omega)
  obtain ⟨a1, a2, a3, _⟩ := fmt_bytes m buf j hj
  obtain ⟨b1, b2, b3, _⟩ := fmt_bytes_sep m2 buf src j hj hsep
  rw [hcells] at b1 b2
  rw [a2] at a3
  rw [b2] at b3
  refine ⟨?_, by rw [a2, b2], fmt_writes_in_place m buf j hj⟩
  unfold out_str
  exact c_str_congr _ _ _ _ _ (by rw [a1, b1]) a3 b3

/-- C29 on the digit array 3, 5, 9, 9, 9, 9, 9, 1 of the source's comment, in a
buffer at 0 and copied to the cells from 20 on: the text is "359.99991". -/
theorem C29_in_place_formatting_is_safe_witness :
    out_str (conv_deg_digit_array_to_string
        (fun q => if q = 1 then 3 else if q = 2 then 5 else if q = 8 then 1 else 9)
        0 (0 + 1) (2 - ((7 : Nat) : Int))) 0 =
        out_str (conv_deg_digit_array_to_string
          (fun q => if q = 20 then 3 else if q = 21 then 5 else if q = 27 then 1 else 9)
          0 20 (2 - ((7 : Nat) : Int))) 0 ∧
      (conv_deg_digit_array_to_string
        (fun q => if q = 1 then 3 else if q = 2 then 5 else if q = 8 then 1 else 9)
        0 (0 + 1) (2 - ((7 : Nat) : Int))).2 =
        (conv_deg_digit_array_to_string
          (fun q => if q = 20 then 3 else if q = 21 then 5 else if q = 27 then 1 else 9)
          0 20 (2 - ((7 : Nat) : Int))).2 ∧
      ∀ w ∈ conv_deg_digit_array_to_string_writes
          (fun q => if q = 1 then 3 else if q = 2 then 5 else if q = 8 then 1 else 9)
          0 (0 + 1) (2 - ((7 : Nat) : Int)),
        w.1 < w.2 :=
  C29_in_place_formatting_is_safe
    (fun q => if q = 1 then 3 else if q = 2 then 5 else if q = 8 then 1 else 9)
    (fun q => if q = 20 then 3 else if q = 21 then 5 else if q = 27 then 1 else 9)
    0 20 7 (by decide) (by decide) (by decide)

end SerdesTurnDeg
